import Mathlib

/-!
The discovery engine of `labrat.h`

A shallow embedding of the scanner (`lr_lex_file` and its sub-scanners), of the
token matcher (`match_identifier`, `match_string`, `match_labrat_include`,
`match_test_case`, `match_benchmark`), of the driver (`should_exclude_file`,
the loop over the files of `main`), of the emitter (`lr_write_data_header`),
of `lr_slices_equal`, of the four ordering assertions, and of the function
`calculate` of the demo (`src/demo/calculator.c`).

Modelling conventions.

* A byte is a natural number (the theorems never need the bound 256).
* A `char *` is modelled by the list of bytes that can be read from that
  address up to the end of its allocation: `p[k]` is the `k`-th element of
  the list, `p + k` drops `k` elements, and reading outside the list is the
  fault `out_of_bounds`.
* `int64_t` and `int32_t` counters are unbounded integers: the model agrees
  with the C code for buffers and token arrays shorter than 2^31.
* Loops whose termination is not structural carry a fuel argument; running
  out of fuel is the fault `out_of_fuel`.
* A file is given by its name and its contents (`none` when it cannot be
  opened); the text written by `fprintf` is the list of its bytes.
* In `calculate` the type `int` has 32 bits and an operation whose result does
  not fit is a fault of its own, as are a failed `assert` and a write past
  the end of `stack`.
-/

namespace Labrat

/-- The anonymous token enumeration of `labrat.h` (lines 404 to 432). -/
inductive lr_token_kind
  | LR_TOKEN_L_PAREN
  | LR_TOKEN_R_PAREN
  | LR_TOKEN_L_BRACE
  | LR_TOKEN_R_BRACE
  | LR_TOKEN_L_BRACKET
  | LR_TOKEN_R_BRACKET
  | LR_TOKEN_COMMA
  | LR_TOKEN_PERIOD
  | LR_TOKEN_ASTERISK
  | LR_TOKEN_MINUS
  | LR_TOKEN_PLUS
  | LR_TOKEN_EXCLAMATION
  | LR_TOKEN_TILDE
  | LR_TOKEN_BACKSLASH
  | LR_TOKEN_SLASH
  | LR_TOKEN_EQ
  | LR_TOKEN_AMPERSAND
  | LR_TOKEN_POUND
  | LR_TOKEN_SEMICOLON
  | LR_TOKEN_COLON
  | LR_TOKEN_QUESTION_MARK
  | LR_TOKEN_IDENTIFIER
  | LR_TOKEN_NUMBER
  | LR_TOKEN_CHARACTER
  | LR_TOKEN_STRING
  | LR_TOKEN_UNKNOWN
  | LR_TOKEN_EOF
deriving DecidableEq, Repr

open lr_token_kind

/-- The ways a run of the C code can go wrong in the model. -/
inductive Fault
  | out_of_bounds
  | assert_failed
  | out_of_fuel
deriving DecidableEq, Repr

deriving instance DecidableEq for Except

/-- The struct `lr_slice_t`: a length and a pointer. The pointer is the list
of bytes readable from it up to the end of its allocation. -/
structure lr_slice_t where
  len : Int
  data : List Nat
deriving DecidableEq, Repr

/-- The struct `c_token_t`: a kind and the slice of the source it covers. -/
structure c_token_t where
  type : lr_token_kind
  slice : lr_slice_t
deriving DecidableEq, Repr

/-- The read `p[i]` of a byte through a pointer. -/
def rd (p : List Nat) (i : Int) : Except Fault Nat :=
  if i < 0 then .error .out_of_bounds
  else
    match p[i.toNat]? with
    | some b => .ok b
    | none => .error .out_of_bounds

/-- The bytes a slice views: the first `len` bytes at its pointer. -/
def lr_slice_t.bytes (s : lr_slice_t) : List Nat := s.data.take s.len.toNat

/-- A slice lies inside the allocation of its pointer. -/
def lr_slice_t.valid (s : lr_slice_t) : Prop := 0 ≤ s.len ∧ s.len ≤ s.data.length

instance (s : lr_slice_t) : Decidable s.valid := by
  unfold lr_slice_t.valid; exact inferInstance

/-- The function `lr_slice_r`: the part of `s` from `start` on. -/
def lr_slice_r (s : lr_slice_t) (start : Int) : lr_slice_t :=
  { len := s.len - start, data := s.data.drop start.toNat }

/-- The function `lr_slice_l`: the first `e` bytes of `s`. -/
def lr_slice_l (s : lr_slice_t) (e : Int) : lr_slice_t :=
  { len := e, data := s.data }

/-- The function `lr_copy_slice`: `malloc(s.len)` followed by a `memcpy` of
`s.len` bytes; the copy owns exactly those bytes. -/
def lr_copy_slice (s : lr_slice_t) : Except Fault lr_slice_t :=
  if 0 ≤ s.len ∧ s.len ≤ s.data.length then
    .ok { len := s.len, data := s.data.take s.len.toNat }
  else .error .out_of_bounds

/-- The function `lr_is_whitespace`: a space, or a byte from tab to carriage return. -/
def lr_is_whitespace (c : Nat) : Bool := c == 32 || (9 ≤ c && c ≤ 13)

/-- The function `lr_is_digit`. -/
def lr_is_digit (c : Nat) : Bool := 48 ≤ c && c ≤ 57

/-- The function `lr_is_word_char`: a letter or an underscore. -/
def lr_is_word_char (c : Nat) : Bool :=
  (97 ≤ c && c ≤ 122) || (65 ≤ c && c ≤ 90) || c == 95

/-- The function `lr_is_identifier`. -/
def lr_is_identifier (c : Nat) : Bool := lr_is_word_char c || lr_is_digit c

/-- The inner loop of the line-comment branch of `lr_eat_whitespace_and_comments`:
`while (len > 0 && *data != 10) { ++data; --len; }`. -/
def skip_line_comment : List Nat → Int → Except Fault lr_slice_t
  | [], len => if len > 0 then .error .out_of_bounds else .ok ⟨len, []⟩
  | b :: rest, len =>
    if len > 0 then
      if b != 10 then skip_line_comment rest (len - 1) else .ok ⟨len, b :: rest⟩
    else .ok ⟨len, b :: rest⟩

/-- The inner loop of the block-comment branch:
`while (len > 0 && !(data[0] == 42 && len > 1 && data[1] == 47)) { ++data; --len; }`. -/
def skip_block_comment : List Nat → Int → Except Fault lr_slice_t
  | [], len => if len > 0 then .error .out_of_bounds else .ok ⟨len, []⟩
  | b :: rest, len =>
    if len > 0 then
      if b == 42 && decide (len > 1) then
        match rest with
        | [] => .error .out_of_bounds
        | b1 :: _ =>
          if b1 == 47 then .ok ⟨len, b :: rest⟩
          else skip_block_comment rest (len - 1)
      else skip_block_comment rest (len - 1)
    else .ok ⟨len, b :: rest⟩

/-- The outer loop `while (len > 0)` of `lr_eat_whitespace_and_comments`. Every
turn that does not leave the loop consumes at least one byte. -/
def eat_loop : Nat → List Nat → Int → Except Fault lr_slice_t
  | 0, _, _ => .error .out_of_fuel
  | fuel + 1, data, len =>
    if len > 0 then
      match data with
      | [] => .error .out_of_bounds
      | b0 :: rest =>
        if lr_is_whitespace b0 then eat_loop fuel rest (len - 1)
        else if decide (len > 1) && b0 == 47 then
          match rest with
          | [] => .error .out_of_bounds
          | b1 :: rest2 =>
            if b1 == 47 then
              match skip_line_comment rest2 (len - 2) with
              | .error e => .error e
              | .ok s => eat_loop fuel s.data s.len
            else if b1 == 42 then
              match skip_block_comment rest2 (len - 2) with
              | .error e => .error e
              | .ok s =>
                if s.len > 2 then eat_loop fuel (s.data.drop 2) (s.len - 2)
                else eat_loop fuel (s.data.drop s.len.toNat) 0
            else .ok ⟨len, b0 :: rest⟩
        else .ok ⟨len, b0 :: rest⟩
    else .ok ⟨len, data⟩

/-- The function `lr_eat_whitespace_and_comments`. -/
def lr_eat_whitespace_and_comments (s : lr_slice_t) : Except Fault lr_slice_t :=
  eat_loop (s.data.length + 1) s.data s.len

/-- The loop of `lr_lex_identifier`: `while (c->len - len)`, reading `c->data[len]`. -/
def identifier_loop (c : lr_slice_t) : Nat → Int → Except Fault Int
  | 0, _ => .error .out_of_fuel
  | fuel + 1, len =>
    if c.len - len ≠ 0 then
      match rd c.data len with
      | .error e => .error e
      | .ok ch =>
        if lr_is_word_char ch || lr_is_digit ch then identifier_loop c fuel (len + 1)
        else .ok len
    else .ok len

/-- The function `lr_lex_identifier`. The result `none` is the return value
false, which leaves the cursor and the token untouched; otherwise the token
and the new cursor. -/
def lr_lex_identifier (c : lr_slice_t) : Except Fault (Option (c_token_t × lr_slice_t)) :=
  match rd c.data 0 with
  | .error e => .error e
  | .ok b0 =>
    if lr_is_word_char b0 then
      match identifier_loop c (c.data.length + 1) 1 with
      | .error e => .error e
      | .ok len => .ok (some (⟨LR_TOKEN_IDENTIFIER, lr_slice_l c len⟩, lr_slice_r c len))
    else .ok none

/-- The loop of the number branch of `lr_lex_constant`. -/
def number_loop (c : lr_slice_t) : Nat → Int → Except Fault Int
  | 0, _ => .error .out_of_fuel
  | fuel + 1, len =>
    if c.len - len ≠ 0 then
      match rd c.data len with
      | .error e => .error e
      | .ok ch =>
        if !lr_is_digit ch && ch != 46 && ch != 120 && ch != 88 then .ok len
        else number_loop c fuel (len + 1)
    else .ok len

/-- The loop shared, up to the quote byte `q`, by the character branch of
`lr_lex_constant` (lines 704 to 717) and by `lr_lex_string` (lines 733 to 746):
`while (c->len - len - 1)`, with the two escape jumps `min(len + 4, c->len + 1)`
and `min(len + 2, c->len + 1)`. -/
def quoted_loop (q : Nat) (c : lr_slice_t) : Nat → Int → Except Fault Int
  | 0, _ => .error .out_of_fuel
  | fuel + 1, len =>
    if c.len - len - 1 ≠ 0 then
      match rd c.data len with
      | .error e => .error e
      | .ok ch =>
        if ch == 92 then
          match rd c.data (len + 1) with
          | .error e => .error e
          | .ok ch1 =>
            if ch1 == 120 then quoted_loop q c fuel (min (len + 4) (c.len + 1))
            else quoted_loop q c fuel (min (len + 2) (c.len + 1))
        else if ch == q then .ok len
        else quoted_loop q c fuel (len + 1)
    else .ok len

/-- The function `lr_lex_constant`: a number when the first byte is a digit, a
character literal when it is a single quote (byte 39). -/
def lr_lex_constant (c : lr_slice_t) : Except Fault (Option (c_token_t × lr_slice_t)) :=
  match rd c.data 0 with
  | .error e => .error e
  | .ok b0 =>
    if lr_is_digit b0 then
      match number_loop c (c.data.length + 1) 1 with
      | .error e => .error e
      | .ok len => .ok (some (⟨LR_TOKEN_NUMBER, lr_slice_l c len⟩, lr_slice_r c len))
    else if b0 == 39 then
      match quoted_loop 39 c (c.data.length + 1) 1 with
      | .error e => .error e
      | .ok len =>
        .ok (some (⟨LR_TOKEN_CHARACTER, lr_slice_l c (len + 1)⟩, lr_slice_r c (len + 1)))
    else .ok none

/-- The function `lr_lex_string`: a string literal when the first byte is a
double quote (byte 34). -/
def lr_lex_string (c : lr_slice_t) : Except Fault (Option (c_token_t × lr_slice_t)) :=
  match rd c.data 0 with
  | .error e => .error e
  | .ok b0 =>
    if b0 == 34 then
      match quoted_loop 34 c (c.data.length + 1) 1 with
      | .error e => .error e
      | .ok len =>
        .ok (some (⟨LR_TOKEN_STRING, lr_slice_l c (len + 1)⟩, lr_slice_r c (len + 1)))
    else .ok none

/-- The switch of `lr_lex_single_char_token`; `LR_TOKEN_UNKNOWN` is its default. -/
def single_char_kind (b : Nat) : lr_token_kind :=
  match b with
  | 40 => LR_TOKEN_L_PAREN
  | 41 => LR_TOKEN_R_PAREN
  | 123 => LR_TOKEN_L_BRACE
  | 125 => LR_TOKEN_R_BRACE
  | 91 => LR_TOKEN_L_BRACKET
  | 93 => LR_TOKEN_R_BRACKET
  | 42 => LR_TOKEN_ASTERISK
  | 44 => LR_TOKEN_COMMA
  | 46 => LR_TOKEN_PERIOD
  | 45 => LR_TOKEN_MINUS
  | 43 => LR_TOKEN_PLUS
  | 33 => LR_TOKEN_EXCLAMATION
  | 126 => LR_TOKEN_TILDE
  | 92 => LR_TOKEN_BACKSLASH
  | 47 => LR_TOKEN_SLASH
  | 61 => LR_TOKEN_EQ
  | 38 => LR_TOKEN_AMPERSAND
  | 35 => LR_TOKEN_POUND
  | 59 => LR_TOKEN_SEMICOLON
  | 58 => LR_TOKEN_COLON
  | 63 => LR_TOKEN_QUESTION_MARK
  | _ => LR_TOKEN_UNKNOWN

/-- The function `lr_lex_single_char_token`. -/
def lr_lex_single_char_token (c : lr_slice_t) :
    Except Fault (Option (c_token_t × lr_slice_t)) :=
  match rd c.data 0 with
  | .error e => .error e
  | .ok b0 =>
    if single_char_kind b0 ≠ LR_TOKEN_UNKNOWN then
      .ok (some (⟨single_char_kind b0, lr_slice_l c 1⟩, lr_slice_r c 1))
    else .ok none

/-- The chain of sub-scanners tried in turn by `lr_lex_file` (lines 824 to 832),
ending with the one-byte `LR_TOKEN_UNKNOWN` token. -/
def lex_token (c : lr_slice_t) : Except Fault (c_token_t × lr_slice_t) :=
  match lr_lex_single_char_token c with
  | .error e => .error e
  | .ok (some r) => .ok r
  | .ok none =>
    match lr_lex_constant c with
    | .error e => .error e
    | .ok (some r) => .ok r
    | .ok none =>
      match lr_lex_string c with
      | .error e => .error e
      | .ok (some r) => .ok r
      | .ok none =>
        match lr_lex_identifier c with
        | .error e => .error e
        | .ok (some r) => .ok r
        | .ok none => .ok (⟨LR_TOKEN_UNKNOWN, lr_slice_l c 1⟩, lr_slice_r c 1)

/-- The loop `while (true)` of `lr_lex_file`; `result` holds the tokens written
so far. The statement `assert(c.len >= 0)` is the fault `assert_failed`. -/
def lex_file_loop : Nat → lr_slice_t → List c_token_t → Except Fault (List c_token_t)
  | 0, _, _ => .error .out_of_fuel
  | fuel + 1, c, result =>
    if c.len = 0 then .ok (result ++ [⟨LR_TOKEN_EOF, lr_slice_l c 0⟩])
    else
      match lr_eat_whitespace_and_comments c with
      | .error e => .error e
      | .ok c1 =>
        if c1.len ≠ 0 then
          match lex_token c1 with
          | .error e => .error e
          | .ok (t, c2) =>
            if c2.len ≥ 0 then lex_file_loop fuel c2 (result ++ [t])
            else .error .assert_failed
        else lex_file_loop fuel c1 result

/-- The function `lr_lex_file`; the returned list is the token array and its
length is the count stored through the second argument. -/
def lr_lex_file (s : lr_slice_t) : Except Fault (List c_token_t) :=
  lex_file_loop (s.data.length + 2) s []

/-- The bytes of the C string literal `include`. -/
def s_include : List Nat := [105, 110, 99, 108, 117, 100, 101]

/-- The bytes of the C string literal `labrat.h`. -/
def s_labrat_h : List Nat := [108, 97, 98, 114, 97, 116, 46, 104]

/-- The bytes of the C string literal `TEST_CASE`. -/
def s_TEST_CASE : List Nat := [84, 69, 83, 84, 95, 67, 65, 83, 69]

/-- The bytes of the C string literal `BENCHMARK`. -/
def s_BENCHMARK : List Nat := [66, 69, 78, 67, 72, 77, 65, 82, 75]

/-- The bytes of the placeholder name `__lr_test_id__`. -/
def s_lr_test_id : List Nat := [95, 95, 108, 114, 95, 116, 101, 115, 116, 95, 105, 100, 95, 95]

/-- The bytes of the placeholder name `__lr_bench_id__`. -/
def s_lr_bench_id : List Nat :=
  [95, 95, 108, 114, 95, 98, 101, 110, 99, 104, 95, 105, 100, 95, 95]

/-- The comparison loop of `match_identifier` (with `k = 0`, started at `i = 0`)
and of `match_string` (with `k = 1`, started at `i = 1`): each turn runs
`if (!s[i - k] || data[i] != s[i - k]) return false;`. The first numeric
argument counts the turns left; `true` means the loop ran to its end. The C
string `s` is stored with its terminating zero byte. -/
def match_loop (data s : List Nat) (k : Int) : Nat → Int → Except Fault Bool
  | 0, _ => .ok true
  | n + 1, i =>
    match rd (s ++ [0]) (i - k) with
    | .error e => .error e
    | .ok a =>
      if a = 0 then .ok false
      else
        match rd data i with
        | .error e => .error e
        | .ok b => if b ≠ a then .ok false else match_loop data s k n (i + 1)

/-- The function `match_identifier`. -/
def match_identifier (token : c_token_t) (identifier : List Nat) : Except Fault Bool :=
  if token.type ≠ LR_TOKEN_IDENTIFIER then .ok false
  else
    match match_loop token.slice.data identifier 0 token.slice.len.toNat 0 with
    | .error e => .error e
    | .ok false => .ok false
    | .ok true =>
      match rd (identifier ++ [0]) token.slice.len with
      | .error e => .error e
      | .ok z => .ok (z == 0)

/-- The function `match_string`: the loop runs for `i` from 1 while
`i < token.slice.len - 1`, then `s[token.slice.len - 2]` is read. -/
def match_string (token : c_token_t) (s : List Nat) : Except Fault Bool :=
  if token.type ≠ LR_TOKEN_STRING then .ok false
  else
    match match_loop token.slice.data s 1 (token.slice.len - 2).toNat 1 with
    | .error e => .error e
    | .ok false => .ok false
    | .ok true =>
      match rd (s ++ [0]) (token.slice.len - 2) with
      | .error e => .error e
      | .ok z => .ok (z == 0)

/-- The read `ts[i]` in a token array holding exactly the tokens of `ts`. -/
def tok (ts : List c_token_t) (i : Nat) : Except Fault c_token_t :=
  match ts[i]? with
  | some t => .ok t
  | none => .error .out_of_bounds

/-- The function `match_labrat_include`. The flag `self_test` stands for the
compile-time switch `LR_SELF_TEST`. -/
def match_labrat_include (self_test : Bool) (ts : List c_token_t) (ct i : Nat) :
    Except Fault Bool :=
  if self_test then .ok true
  else if i + 3 > ct then .ok false
  else do
    let t0 ← tok ts i
    if t0.type ≠ LR_TOKEN_POUND then pure false
    else do
      let t1 ← tok ts (i + 1)
      let m1 ← match_identifier t1 s_include
      if !m1 then pure false
      else do
        let t2 ← tok ts (i + 2)
        match_string t2 s_labrat_h

/-- The function `match_test_case`. The second component of the result is the
value of `*id` after the call, `id` being its value before the call. -/
def match_test_case (ts : List c_token_t) (ct i : Nat) (id : c_token_t) :
    Except Fault (Bool × c_token_t) :=
  if i + 4 > ct then .ok (false, id)
  else do
    let t0 ← tok ts i
    let m0 ← match_identifier t0 s_TEST_CASE
    if !m0 then pure (false, id)
    else do
      let t1 ← tok ts (i + 1)
      if t1.type ≠ LR_TOKEN_L_PAREN then pure (false, id)
      else do
        let t2 ← tok ts (i + 2)
        if t2.type ≠ LR_TOKEN_IDENTIFIER then pure (false, id)
        else do
          let m2 ← match_identifier t2 s_lr_test_id
          if m2 then pure (false, id)
          else do
            let t3 ← tok ts (i + 3)
            if t3.type ≠ LR_TOKEN_R_PAREN then pure (false, id)
            else pure (true, t2)

/-- The function `match_benchmark`. Its bounds check is the one of
`match_test_case` (a window of 4 tokens) while it reads up to `ts[i + 5]`. -/
def match_benchmark (ts : List c_token_t) (ct i : Nat) (id : c_token_t) :
    Except Fault (Bool × c_token_t) :=
  if i + 4 > ct then .ok (false, id)
  else do
    let t0 ← tok ts i
    let m0 ← match_identifier t0 s_BENCHMARK
    if !m0 then pure (false, id)
    else do
      let t1 ← tok ts (i + 1)
      if t1.type ≠ LR_TOKEN_L_PAREN then pure (false, id)
      else do
        let t2 ← tok ts (i + 2)
        if t2.type ≠ LR_TOKEN_IDENTIFIER then pure (false, id)
        else do
          let m2 ← match_identifier t2 s_lr_bench_id
          if m2 then pure (false, id)
          else do
            let t3 ← tok ts (i + 3)
            if t3.type ≠ LR_TOKEN_COMMA then pure (false, id)
            else do
              let t4 ← tok ts (i + 4)
              if t4.type ≠ LR_TOKEN_IDENTIFIER then pure (false, id)
              else do
                let t5 ← tok ts (i + 5)
                if t5.type ≠ LR_TOKEN_R_PAREN then pure (false, id)
                else pure (true, t2)

/-- The value standing for the local `c_token_t identifier` of `main` before a
matcher has written it; it is only read after a matcher returned true. -/
def no_identifier : c_token_t := ⟨LR_TOKEN_EOF, ⟨0, []⟩⟩

/-- The body of the loop over `j` in `main` (lines 1017 to 1028) at position `j`
with the gate already known to be `lr_included`: the test shape is tried
first, the benchmark shape only when it fails, and a match pushes a copy of
the identifier on `tests` or on `benchmarks`. -/
def match_shapes (tokens : List c_token_t) (ct j : Nat)
    (tests benchmarks : List lr_slice_t) :
    Except Fault (List lr_slice_t × List lr_slice_t) := do
  let r ← match_test_case tokens ct j no_identifier
  if r.1 then do
    let name ← lr_copy_slice r.2.slice
    pure (tests ++ [name], benchmarks)
  else do
    let r ← match_benchmark tokens ct j no_identifier
    if r.1 then do
      let name ← lr_copy_slice r.2.slice
      pure (tests, benchmarks ++ [name])
    else pure (tests, benchmarks)

/-- The loop `for (j = 0; j < token_count; j++)` of `main`. The first numeric
argument counts the turns left, the second is `j`. -/
def scan_tokens (self_test : Bool) (tokens : List c_token_t) (ct : Nat) :
    Nat → Nat → Bool → List lr_slice_t → List lr_slice_t →
    Except Fault (List lr_slice_t × List lr_slice_t)
  | 0, _, _, tests, benchmarks => .ok (tests, benchmarks)
  | k + 1, j, lr_included, tests, benchmarks => do
    let inc ← if lr_included then pure true
              else match_labrat_include self_test tokens ct j
    if inc then do
      let r ← match_shapes tokens ct j tests benchmarks
      scan_tokens self_test tokens ct k (j + 1) true r.1 r.2
    else scan_tokens self_test tokens ct k (j + 1) false tests benchmarks

/-- The function `lr_read_file` on a file given by its contents (`none` when it
cannot be opened). The result `none` is the slice with a null pointer;
`fread(data, len, 1, fp)` returns 0 for an empty file, which is reported the
same way. A file that is read is followed by a zero byte. -/
def lr_read_file (f : Option (List Nat)) : Option lr_slice_t :=
  match f with
  | none => none
  | some bytes =>
    if bytes.length = 0 then none
    else some { len := bytes.length, data := bytes ++ [0] }

/-- One turn of the loop over the files in `main`, for a file that
`should_exclude_file` lets through: read, scan, match. -/
def main_file (self_test : Bool) (f : Option (List Nat))
    (tests benchmarks : List lr_slice_t) :
    Except Fault (List lr_slice_t × List lr_slice_t) :=
  match lr_read_file f with
  | none => .ok (tests, benchmarks)
  | some filedata => do
    let tokens ← lr_lex_file filedata
    scan_tokens self_test tokens tokens.length tokens.length 0 false tests benchmarks

/-! Specification-side definitions and the concrete inputs of the examples. -/

/-- The bytes of a token strictly between its first and its last byte: what
`match_string` compares with its argument, whatever the last byte is. -/
def inner_bytes (t : c_token_t) : List Nat :=
  (t.slice.data.drop 1).take (t.slice.len - 2).toNat

/-- The kind of the token at position `i`, when there is one. -/
def kind_at (ts : List c_token_t) (i : Nat) : Option lr_token_kind :=
  (ts[i]?).map (fun t => t.type)

/-- The bytes of the token at position `i`, when there is one. -/
def text_at (ts : List c_token_t) (i : Nat) : Option (List Nat) :=
  (ts[i]?).map (fun t => t.slice.bytes)

/-- The test shape at position `i`: the identifier `TEST_CASE`, an open
parenthesis, an identifier other than `__lr_test_id__`, a close parenthesis. -/
def test_shape (ts : List c_token_t) (i : Nat) : Prop :=
  i + 4 ≤ ts.length ∧
  kind_at ts i = some LR_TOKEN_IDENTIFIER ∧ text_at ts i = some s_TEST_CASE ∧
  kind_at ts (i + 1) = some LR_TOKEN_L_PAREN ∧
  kind_at ts (i + 2) = some LR_TOKEN_IDENTIFIER ∧ text_at ts (i + 2) ≠ some s_lr_test_id ∧
  kind_at ts (i + 3) = some LR_TOKEN_R_PAREN

instance (ts : List c_token_t) (i : Nat) : Decidable (test_shape ts i) := by
  unfold test_shape; exact inferInstance

/-- The benchmark shape at position `i`: the identifier `BENCHMARK`, an open
parenthesis, an identifier other than `__lr_bench_id__`, a comma, an
identifier, a close parenthesis. -/
def bench_shape (ts : List c_token_t) (i : Nat) : Prop :=
  i + 6 ≤ ts.length ∧
  kind_at ts i = some LR_TOKEN_IDENTIFIER ∧ text_at ts i = some s_BENCHMARK ∧
  kind_at ts (i + 1) = some LR_TOKEN_L_PAREN ∧
  kind_at ts (i + 2) = some LR_TOKEN_IDENTIFIER ∧ text_at ts (i + 2) ≠ some s_lr_bench_id ∧
  kind_at ts (i + 3) = some LR_TOKEN_COMMA ∧
  kind_at ts (i + 4) = some LR_TOKEN_IDENTIFIER ∧
  kind_at ts (i + 5) = some LR_TOKEN_R_PAREN

instance (ts : List c_token_t) (i : Nat) : Decidable (bench_shape ts i) := by
  unfold bench_shape; exact inferInstance

/-- The last token of the array is `LR_TOKEN_EOF`. -/
def eof_terminated (ts : List c_token_t) : Prop :=
  (ts.getLast?).map (fun t => t.type) = some LR_TOKEN_EOF

instance (ts : List c_token_t) : Decidable (eof_terminated ts) := by
  unfold eof_terminated; exact inferInstance

/-- The pointer `data` has exactly `len + 1` readable bytes, the last one zero:
the state of a cursor inside a buffer returned by `lr_read_file`. -/
def nul_ended (data : List Nat) (len : Int) : Prop :=
  0 ≤ len ∧ (data.length : Int) = len + 1 ∧ data[len.toNat]? = some 0

/-- What every sub-scanner does on success: the token is the first `L` bytes
of the cursor and the cursor moves `L` bytes on. -/
def consumed (c : lr_slice_t) (r : c_token_t × lr_slice_t) (L : Int) : Prop :=
  1 ≤ L ∧ L ≤ c.len ∧ r.1.slice = lr_slice_l c L ∧ r.2 = lr_slice_r c L

/-- What holds of every token of a scan that ran to its end. -/
def token_ok (t : c_token_t) : Prop :=
  t.slice.valid ∧ (t.type = LR_TOKEN_STRING → 2 ≤ t.slice.len)

/-- What `match_labrat_include` tests at position `i`: a pound token, the
identifier `include`, and a string token whose bytes strictly between its
first and its last byte are `labrat.h`; the last byte itself is not looked
at. -/
def include_matched (ts : List c_token_t) (i : Nat) : Prop :=
  i + 3 ≤ ts.length ∧
  kind_at ts i = some LR_TOKEN_POUND ∧
  kind_at ts (i + 1) = some LR_TOKEN_IDENTIFIER ∧ text_at ts (i + 1) = some s_include ∧
  kind_at ts (i + 2) = some LR_TOKEN_STRING ∧
  (ts[i + 2]?).map inner_bytes = some s_labrat_h

instance (ts : List c_token_t) (i : Nat) : Decidable (include_matched ts i) := by
  unfold include_matched; exact inferInstance

/-- The records of the shape matches at the listed token positions, taken in
the order of the list. -/
def shape_records (tokens : List c_token_t) (ct : Nat) :
    List Nat → List lr_slice_t → List lr_slice_t →
    Except Fault (List lr_slice_t × List lr_slice_t)
  | [], tests, benchmarks => .ok (tests, benchmarks)
  | j :: js, tests, benchmarks =>
    match match_shapes tokens ct j tests benchmarks with
    | .error e => .error e
    | .ok r => shape_records tokens ct js r.1 r.2

/-- The record pushed for a matched identifier token: a copy of its bytes. -/
def record_of (t : c_token_t) : lr_slice_t := ⟨t.slice.len, t.slice.bytes⟩

/-- No test record is named `__lr_test_id__` and no benchmark record is named
`__lr_bench_id__`. -/
def no_own_placeholder (tests benchmarks : List lr_slice_t) : Prop :=
  (∀ r ∈ tests, r.bytes ≠ s_lr_test_id) ∧ (∀ r ∈ benchmarks, r.bytes ≠ s_lr_bench_id)

/-- An identifier text: a letter or underscore followed by letters, digits and
underscores. -/
def identifier_text : List Nat → Bool
  | [] => false
  | h :: t => lr_is_word_char h && t.all lr_is_identifier

/-- The line `#include "labrat.h"` with its newline. -/
def include_line : List Nat :=
  [35, 105, 110, 99, 108, 117, 100, 101, 32, 34, 108, 97, 98, 114, 97, 116, 46, 104, 34, 10]

/-- The file made of the include line followed by `TEST_CASE(n) { }`. -/
def test_case_file (n : List Nat) : List Nat :=
  include_line ++ (s_TEST_CASE ++ 40 :: (n ++ [41, 32, 123, 32, 125]))

/-- The bytes from the test name to the end of the buffer of `test_case_file n`. -/
def test_case_rest (n : List Nat) : List Nat := n ++ 41 :: [32, 123, 32, 125, 0]

/-- The tokens of `test_case_file n`. -/
def test_case_tokens (n : List Nat) : List c_token_t :=
  [⟨LR_TOKEN_POUND, ⟨1, 35 :: (s_include ++ 32 :: 34 :: (s_labrat_h ++ 34 :: 10 ::
      (s_TEST_CASE ++ 40 :: test_case_rest n)))⟩⟩,
   ⟨LR_TOKEN_IDENTIFIER, ⟨7, s_include ++ 32 :: 34 :: (s_labrat_h ++ 34 :: 10 ::
      (s_TEST_CASE ++ 40 :: test_case_rest n))⟩⟩,
   ⟨LR_TOKEN_STRING, ⟨10, 34 :: (s_labrat_h ++ 34 :: 10 ::
      (s_TEST_CASE ++ 40 :: test_case_rest n))⟩⟩,
   ⟨LR_TOKEN_IDENTIFIER, ⟨9, s_TEST_CASE ++ 40 :: test_case_rest n⟩⟩,
   ⟨LR_TOKEN_L_PAREN, ⟨1, 40 :: test_case_rest n⟩⟩,
   ⟨LR_TOKEN_IDENTIFIER, ⟨n.length, test_case_rest n⟩⟩,
   ⟨LR_TOKEN_R_PAREN, ⟨1, [41, 32, 123, 32, 125, 0]⟩⟩,
   ⟨LR_TOKEN_L_BRACE, ⟨1, [123, 32, 125, 0]⟩⟩,
   ⟨LR_TOKEN_R_BRACE, ⟨1, [125, 0]⟩⟩,
   ⟨LR_TOKEN_EOF, ⟨0, [0]⟩⟩]

/-- The bytes of the name `bench_one`. -/
def s_bench_one : List Nat := [98, 101, 110, 99, 104, 95, 111, 110, 101]

/-- The bytes of the name `foo`. -/
def s_foo : List Nat := [102, 111, 111]

/-- The file made of the include line followed by `BENCHMARK(bench_one, p) { }`. -/
def benchmark_file (p : List Nat) : List Nat :=
  include_line ++ (s_BENCHMARK ++ 40 :: (s_bench_one ++ 44 :: 32 :: (p ++ [41, 32, 123, 32, 125])))

/-- The file `TEST_CASE(foo) { }`, without the include line. -/
def ungated_file : List Nat := s_TEST_CASE ++ 40 :: (s_foo ++ [41, 32, 123, 32, 125])

/-- The tokens `lr_lex_file` returns for a file with the given bytes, and the
empty list when the scan faults. -/
def tokens_of (bytes : List Nat) : List c_token_t :=
  match lr_lex_file ⟨bytes.length, bytes ++ [0]⟩ with
  | .ok ts => ts
  | .error _ => []

/-- The order of two byte strings as `memcmp` and `strcmp` report it: zero when
they are equal, otherwise negative or positive after the first byte that
differs (a string that ends first is the smaller one). -/
def bytes_compare : List Nat → List Nat → Int
  | [], [] => 0
  | [], _ :: _ => -1
  | _ :: _, [] => 1
  | a :: as, b :: bs =>
    if a = b then bytes_compare as bs else if a < b then -1 else 1

/-- The library function `strcmp`, on two C strings given by their bytes before
the terminating zero byte. -/
def strcmp (a b : List Nat) : Int := bytes_compare a b

/-- The library function `memcmp` on the first `n` bytes at two pointers; `n` is
a `size_t`, so a negative `int64_t` is a length no allocation has. -/
def memcmp (a b : List Nat) (n : Int) : Except Fault Int :=
  if n < 0 ∨ (a.length : Int) < n ∨ (b.length : Int) < n then .error .out_of_bounds
  else .ok (bytes_compare (a.take n.toNat) (b.take n.toNat))

/-- The function `lr_slices_equal`. -/
def lr_slices_equal (lhs rhs : lr_slice_t) : Except Fault Bool :=
  if lhs.len ≠ rhs.len then .ok false
  else
    match memcmp lhs.data rhs.data lhs.len with
    | .error e => .error e
    | .ok r => .ok (r != 0)

/-- The library function `strrchr` on a C string given by its bytes before the
terminating zero byte: the pointer to the last occurrence of `c`, that is
the bytes from that occurrence on, or `none` for the null pointer. -/
def strrchr : List Nat → Nat → Option (List Nat)
  | [], _ => none
  | b :: rest, c =>
    match strrchr rest c with
    | some p => some p
    | none => if b = c then some (b :: rest) else none

/-- The macro `_LR_DIR`: the text after the last backslash (byte 92) when there
is one, else the text after the last slash (byte 47) when there is one, else
the whole string. -/
def _LR_DIR (file : List Nat) : List Nat :=
  match strrchr file 92 with
  | some p => p.drop 1
  | none =>
    match strrchr file 47 with
    | some p => p.drop 1
    | none => file

/-- The macro `_LR_FILENAME`, which is `_LR_DIR(__FILE__)`; `unit_file` is the
value the compiler gives to `__FILE__`. -/
def _LR_FILENAME (unit_file : List Nat) : List Nat := _LR_DIR unit_file

/-- The function `should_exclude_file`; `self_test` stands for the compile-time
switch `LR_SELF_TEST`. -/
def should_exclude_file (self_test : Bool) (unit_file filename : List Nat) : Bool :=
  if self_test then
    if strcmp (_LR_DIR filename) (_LR_FILENAME unit_file) ≠ 0 then true else false
  else
    if strcmp (_LR_DIR filename) (_LR_FILENAME unit_file) = 0 then true else false

/-- A file as `main` meets it: the path `lr_get_directory` lists and what
reading it gives (`none` when it cannot be opened). -/
structure source_file where
  name : List Nat
  contents : Option (List Nat)
deriving DecidableEq, Repr

/-- The loop over the files in `main` (lines 1001 to 1032), `tests` and
`benchmarks` being the two stretchy buffers. -/
def main_loop (self_test : Bool) (unit_file : List Nat) :
    List source_file → List lr_slice_t → List lr_slice_t →
    Except Fault (List lr_slice_t × List lr_slice_t)
  | [], tests, benchmarks => .ok (tests, benchmarks)
  | f :: files, tests, benchmarks =>
    if should_exclude_file self_test unit_file f.name then
      main_loop self_test unit_file files tests benchmarks
    else
      match main_file self_test f.contents tests benchmarks with
      | .error e => .error e
      | .ok r => main_loop self_test unit_file files r.1 r.2

/-- The bytes `fprintf` writes for a conversion `%.*s` whose precision `n` is
not negative: the bytes at the pointer up to a zero byte, at most `n`. -/
def print_precision_s : Nat → List Nat → Except Fault (List Nat)
  | 0, _ => .ok []
  | _ + 1, [] => .error .out_of_bounds
  | n + 1, b :: rest =>
    if b = 0 then .ok []
    else
      match print_precision_s n rest with
      | .error e => .error e
      | .ok out => .ok (b :: out)

/-- The bytes `fprintf` writes for a conversion `%s` without precision (a
negative precision counts as none): the bytes up to a zero byte. -/
def print_s : List Nat → Except Fault (List Nat)
  | [] => .error .out_of_bounds
  | b :: rest =>
    if b = 0 then .ok []
    else
      match print_s rest with
      | .error e => .error e
      | .ok out => .ok (b :: out)

/-- The bytes written for `%.*s` with the arguments `(int32_t)s.len, s.data`. -/
def print_slice (s : lr_slice_t) : Except Fault (List Nat) :=
  if s.len < 0 then print_s s.data else print_precision_s s.len.toNat s.data

/-- The bytes of `TEST_DEFINITION(`. -/
def s_test_hook : List Nat := [84, 69, 83, 84, 95, 68, 69, 70, 73, 78, 73, 84, 73, 79, 78, 40]

/-- The bytes of `BENCH_DEFINITION(`. -/
def s_bench_hook : List Nat :=
  [66, 69, 78, 67, 72, 95, 68, 69, 70, 73, 78, 73, 84, 73, 79, 78, 40]

/-- The bytes of `#ifndef TEST_DEFINITION`. -/
def s_ifndef_test : List Nat :=
  [35, 105, 102, 110, 100, 101, 102, 32, 84, 69, 83, 84, 95, 68, 69, 70, 73, 78, 73, 84, 73,
   79, 78]

/-- The bytes of `#define TEST_DEFINITION(id)`. -/
def s_define_test : List Nat :=
  [35, 100, 101, 102, 105, 110, 101, 32, 84, 69, 83, 84, 95, 68, 69, 70, 73, 78, 73, 84, 73,
   79, 78, 40, 105, 100, 41]

/-- The bytes of `#endif`. -/
def s_endif : List Nat := [35, 101, 110, 100, 105, 102]

/-- The bytes of `#ifndef BENCH_DEFINITION`. -/
def s_ifndef_bench : List Nat :=
  [35, 105, 102, 110, 100, 101, 102, 32, 66, 69, 78, 67, 72, 95, 68, 69, 70, 73, 78, 73, 84,
   73, 79, 78]

/-- The bytes of `#define BENCH_DEFINITION(id)`. -/
def s_define_bench : List Nat :=
  [35, 100, 101, 102, 105, 110, 101, 32, 66, 69, 78, 67, 72, 95, 68, 69, 70, 73, 78, 73, 84,
   73, 79, 78, 40, 105, 100, 41]

/-- The bytes of `#undef TEST_DEFINITION`. -/
def s_undef_test : List Nat :=
  [35, 117, 110, 100, 101, 102, 32, 84, 69, 83, 84, 95, 68, 69, 70, 73, 78, 73, 84, 73, 79,
   78]

/-- The bytes of `#undef BENCH_DEFINITION`. -/
def s_undef_bench : List Nat :=
  [35, 117, 110, 100, 101, 102, 32, 66, 69, 78, 67, 72, 95, 68, 69, 70, 73, 78, 73, 84, 73,
   79, 78]

/-- The two loops of `lr_write_data_header` (lines 960 to 970), which differ in
the hook name only: for every slice one `fprintf` of the hook name with its
open parenthesis, the slice printed with `%.*s`, a close parenthesis and a
newline. -/
def write_definitions (hook : List Nat) : List lr_slice_t → Except Fault (List Nat)
  | [] => .ok []
  | s :: rest =>
    match print_slice s with
    | .error e => .error e
    | .ok name =>
      match write_definitions hook rest with
      | .error e => .error e
      | .ok out => .ok (hook ++ name ++ [41, 10] ++ out)

/-- The function `lr_write_data_header`: the bytes written to `labrat_data.c`,
the file being taken to open. -/
def lr_write_data_header (tests benchmarks : List lr_slice_t) : Except Fault (List Nat) :=
  match write_definitions s_test_hook tests with
  | .error e => .error e
  | .ok t =>
    match write_definitions s_bench_hook benchmarks with
    | .error e => .error e
    | .ok b =>
      .ok ((s_ifndef_test ++ [10] ++ s_define_test ++ [10] ++ s_endif ++ [10] ++
            s_ifndef_bench ++ [10] ++ s_define_bench ++ [10] ++ s_endif ++ [10]) ++
           t ++ b ++ (s_undef_test ++ [10] ++ s_undef_bench ++ [10]))

/-- The function `main` outside its console output: `files` is the list
`lr_get_directory` returns, the result is the text of `labrat_data.c`. -/
def main (self_test : Bool) (unit_file : List Nat) (files : List source_file) :
    Except Fault (List Nat) :=
  match main_loop self_test unit_file files [] [] with
  | .error e => .error e
  | .ok r => lr_write_data_header r.1 r.2

/-- The macro `ASSERT_GT(actual, comp, format)` inside a test: the first
component is `__lr_test_passed` after the statement (`passed` before it), the
second tells whether the test returned. -/
def ASSERT_GT (actual comp : Int) (passed : Bool) : Bool × Bool :=
  if comp ≤ actual then (false, true) else (passed, false)

/-- The macro `ASSERT_LT(actual, comp, format)`. -/
def ASSERT_LT (actual comp : Int) (passed : Bool) : Bool × Bool :=
  if comp ≥ actual then (false, true) else (passed, false)

/-- The macro `ASSERT_GT_OR_EQ(actual, comp, format)`. -/
def ASSERT_GT_OR_EQ (actual comp : Int) (passed : Bool) : Bool × Bool :=
  if comp < actual then (false, true) else (passed, false)

/-- The macro `ASSERT_LT_OR_EQ(actual, comp, format)`. -/
def ASSERT_LT_OR_EQ (actual comp : Int) (passed : Bool) : Bool × Bool :=
  if comp > actual then (false, true) else (passed, false)

/-- The lines of a text, each followed by a newline. -/
def unlines (ls : List (List Nat)) : List Nat :=
  ls.foldr (fun l acc => l ++ 10 :: acc) []

/-- The lines of `labrat_data.c` for the given test names and benchmark names. -/
def artifact_lines (tests benchmarks : List (List Nat)) : List (List Nat) :=
  [s_ifndef_test, s_define_test, s_endif, s_ifndef_bench, s_define_bench, s_endif] ++
  tests.map (fun n => s_test_hook ++ n ++ [41]) ++
  benchmarks.map (fun n => s_bench_hook ++ n ++ [41]) ++
  [s_undef_test, s_undef_bench]

/-- The three files of the end-to-end example: `./a.c` includes the framework
and holds `TEST_CASE(a) { }`, `./b.c` holds `TEST_CASE(b) { }` alone, `./c.c`
includes the framework and holds `BENCHMARK(c, iters) { }`. -/
def three_files : List source_file :=
  [⟨[46, 47, 97, 46, 99],
     some (include_line ++ [84, 69, 83, 84, 95, 67, 65, 83, 69, 40, 97, 41, 32, 123, 32, 125])⟩,
   ⟨[46, 47, 98, 46, 99],
     some [84, 69, 83, 84, 95, 67, 65, 83, 69, 40, 98, 41, 32, 123, 32, 125]⟩,
   ⟨[46, 47, 99, 46, 99],
     some (include_line ++ [66, 69, 78, 67, 72, 77, 65, 82, 75, 40, 99, 44, 32, 105, 116, 101,
       114, 115, 41, 32, 123, 32, 125])⟩]

/-- The registry `(t, b)` followed by the records of a run started on an empty
registry. -/
def add_records (t b : List lr_slice_t)
    (x : Except Fault (List lr_slice_t × List lr_slice_t)) :
    Except Fault (List lr_slice_t × List lr_slice_t) :=
  match x with
  | .error e => .error e
  | .ok r => .ok (t ++ r.1, b ++ r.2)

/-- The test records of a token array whose gate opens at position `g`: the
names at the positions from `g` on where the test shape holds, by increasing
position. -/
def tests_from (ts : List c_token_t) (g : Nat) : List lr_slice_t :=
  ((List.range' g (ts.length - g)).filter (fun j => decide (test_shape ts j))).map
    (fun j => record_of ((ts[j + 2]?).getD no_identifier))

/-- The benchmark records of a token array whose gate opens at position `g`, by
increasing position. -/
def benchmarks_from (ts : List c_token_t) (g : Nat) : List lr_slice_t :=
  ((List.range' g (ts.length - g)).filter (fun j => decide (bench_shape ts j))).map
    (fun j => record_of ((ts[j + 2]?).getD no_identifier))

/-- The file `./a.c`: the include line and `TEST_CASE(a) { }`. -/
def file_a : source_file := ⟨[46, 47, 97, 46, 99], some (test_case_file [97])⟩

/-- The file `./b.c`: the include line and `TEST_CASE(b) { }`. -/
def file_b : source_file := ⟨[46, 47, 98, 46, 99], some (test_case_file [98])⟩

/-- The text after the last byte of `s` that satisfies `p`; all of `s` when no
byte does. -/
def after_last (p : Nat → Bool) : List Nat → List Nat
  | [] => []
  | b :: rest =>
    if rest.any p then after_last p rest
    else if p b then rest
    else b :: rest

/-- The final component of a path: the text after its last path separator,
slash (byte 47) or backslash (byte 92). -/
def final_component (path : List Nat) : List Nat :=
  after_last (fun b => b == 47 || b == 92) path

/-- The path `a\b/labrat.h`. -/
def mixed_path : List Nat := [97, 92, 98, 47, 108, 97, 98, 114, 97, 116, 46, 104]

/-- The bytes that continue a number in `lr_lex_constant`: a digit, a period,
`x` or `X`. -/
def number_char (ch : Nat) : Bool := lr_is_digit ch || ch == 46 || ch == 120 || ch == 88

/-- The 21 punctuation characters with their kinds. -/
def punctuation_table : List (Nat × lr_token_kind) :=
  [(40, LR_TOKEN_L_PAREN), (41, LR_TOKEN_R_PAREN), (123, LR_TOKEN_L_BRACE),
   (125, LR_TOKEN_R_BRACE), (91, LR_TOKEN_L_BRACKET), (93, LR_TOKEN_R_BRACKET),
   (42, LR_TOKEN_ASTERISK), (44, LR_TOKEN_COMMA), (46, LR_TOKEN_PERIOD),
   (45, LR_TOKEN_MINUS), (43, LR_TOKEN_PLUS), (33, LR_TOKEN_EXCLAMATION),
   (126, LR_TOKEN_TILDE), (92, LR_TOKEN_BACKSLASH), (47, LR_TOKEN_SLASH),
   (61, LR_TOKEN_EQ), (38, LR_TOKEN_AMPERSAND), (35, LR_TOKEN_POUND),
   (59, LR_TOKEN_SEMICOLON), (58, LR_TOKEN_COLON), (63, LR_TOKEN_QUESTION_MARK)]

/-- The kind the first byte of a token announces: the punctuation kind of one
of the 21 punctuation characters, Number for a digit, String for a double
quote, Character for a single quote, Identifier for a letter or underscore,
Unknown for any other byte. -/
def first_byte_kind (b : Nat) : lr_token_kind :=
  match punctuation_table.lookup b with
  | some k => k
  | none =>
    if lr_is_digit b then LR_TOKEN_NUMBER
    else if b = 34 then LR_TOKEN_STRING
    else if b = 39 then LR_TOKEN_CHARACTER
    else if lr_is_word_char b then LR_TOKEN_IDENTIFIER
    else LR_TOKEN_UNKNOWN

/-- The kinds of the tokens that span several bytes. -/
def long_kind (k : lr_token_kind) : Bool :=
  k == LR_TOKEN_NUMBER || k == LR_TOKEN_STRING || k == LR_TOKEN_CHARACTER ||
    k == LR_TOKEN_IDENTIFIER

/-- What the first byte says of a token: the token starts at a byte `b`, its
kind is `first_byte_kind b`, and it is one byte long unless it is a number,
a string, a character or an identifier. -/
def starts_by_kind (t : c_token_t) : Prop :=
  ∃ b rest, t.slice.data = b :: rest ∧ t.type = first_byte_kind b ∧ 1 ≤ t.slice.len ∧
    (long_kind t.type = false → t.slice.len = 1)

/-- The four tokens `BENCHMARK ( x ,` with no closing `LR_TOKEN_EOF` token. -/
def open_benchmark_tokens : List c_token_t :=
  [⟨LR_TOKEN_IDENTIFIER, ⟨9, s_BENCHMARK ++ [40, 120, 44]⟩⟩,
   ⟨LR_TOKEN_L_PAREN, ⟨1, [40, 120, 44]⟩⟩,
   ⟨LR_TOKEN_IDENTIFIER, ⟨1, [120, 44]⟩⟩,
   ⟨LR_TOKEN_COMMA, ⟨1, [44]⟩⟩]

/-- The file made of the include line and the line `// TEST_CASE(n)`. -/
def line_comment_file (n : List Nat) : List Nat :=
  include_line ++ (47 :: 47 :: 32 :: (s_TEST_CASE ++ 40 :: (n ++ [41, 10])))

/-- The file made of the include line and `/* TEST_CASE(n) */`. -/
def block_comment_file (n : List Nat) : List Nat :=
  include_line ++ (47 :: 42 :: 32 :: (s_TEST_CASE ++ 40 :: (n ++ [41, 32, 42, 47])))

/-- The file made of the include line and the string literal `"TEST_CASE(n)"`. -/
def string_file (n : List Nat) : List Nat :=
  include_line ++ (34 :: (s_TEST_CASE ++ 40 :: (n ++ [41, 34])))

/-- The three tokens of the include line at the head of a buffer that goes on
with a newline and `rest`. -/
def include_tokens (rest : List Nat) : List c_token_t :=
  [⟨LR_TOKEN_POUND, ⟨1, 35 :: (s_include ++ 32 :: 34 :: (s_labrat_h ++ 34 :: 10 :: rest))⟩⟩,
   ⟨LR_TOKEN_IDENTIFIER, ⟨7, s_include ++ 32 :: 34 :: (s_labrat_h ++ 34 :: 10 :: rest)⟩⟩,
   ⟨LR_TOKEN_STRING, ⟨10, 34 :: (s_labrat_h ++ 34 :: 10 :: rest)⟩⟩]

/-- The ways a run of the demo function `calculate` can go wrong: a failed
`assert`, a read past the end of the string, a write past the end of
`int stack[256]`, a read of a stack entry never written, an `int`
operation whose result does not fit in `int`, a division by zero. -/
inductive calc_fault
  | assert_failed
  | out_of_bounds
  | stack_out_of_bounds
  | uninitialised_read
  | signed_overflow
  | division_by_zero
deriving DecidableEq, Repr

/-- A value of type `int` (32 bits). -/
def int_fits (x : Int) : Bool := decide (-2147483648 ≤ x) && decide (x ≤ 2147483647)

/-- The result of an `int` operation: the mathematical result when it fits. -/
def checked_int (x : Int) : Except calc_fault Int :=
  if int_fits x then .ok x else .error .signed_overflow

/-- The operator `b / a` on `int`: truncated division. -/
def int_div (b a : Int) : Except calc_fault Int :=
  if a = 0 then .error .division_by_zero else checked_int (Int.tdiv b a)

/-- The macro `CASE_OPERATOR` of `calculate` (src/demo/calculator.c, lines 12 to
17). The stack is the list of the `stack_size` live entries of `stack`, top
first: `a` is popped first, then `b`, and `b oper a` is pushed. -/
def CASE_OPERATOR (oper : Int → Int → Except calc_fault Int) (stack : List Int) :
    Except calc_fault (List Int) :=
  if stack.length > 1 then
    match stack with
    | a :: b :: rest =>
      match oper b a with
      | .error e => .error e
      | .ok r => .ok (r :: rest)
    | _ => .error .assert_failed
  else .error .assert_failed

/-- The loop `while ((c = *ptr))` of `calculate` on the bytes readable at `ptr`. -/
def calculate_loop : List Nat → Int → List Int → Except calc_fault (Int × List Int)
  | [], _, _ => .error .out_of_bounds
  | c :: rest, pending, stack =>
    if c = 0 then .ok (pending, stack)
    else if c = 32 then
      if stack.length < 256 then calculate_loop rest 0 (pending :: stack)
      else .error .stack_out_of_bounds
    else if c = 43 then
      match CASE_OPERATOR (fun b a => checked_int (b + a)) stack with
      | .error e => .error e
      | .ok s => calculate_loop rest pending s
    else if c = 45 then
      match CASE_OPERATOR (fun b a => checked_int (b - a)) stack with
      | .error e => .error e
      | .ok s => calculate_loop rest pending s
    else if c = 47 then
      match CASE_OPERATOR int_div stack with
      | .error e => .error e
      | .ok s => calculate_loop rest pending s
    else if c = 42 then
      match CASE_OPERATOR (fun b a => checked_int (b * a)) stack with
      | .error e => .error e
      | .ok s => calculate_loop rest pending s
    else if 48 ≤ c ∧ c ≤ 57 then
      match checked_int (pending * 10) with
      | .error e => .error e
      | .ok p10 =>
        match checked_int (p10 + ((c : Int) - 48)) with
        | .error e => .error e
        | .ok p => calculate_loop rest p stack
    else .error .assert_failed

/-- The function `calculate` of the demo on a C string given by the bytes
readable at `str`, its terminating zero byte included. The entry `stack[0]`
is the bottom of the stack, the last element of the list. -/
def calculate (str : List Nat) : Except calc_fault Int :=
  match calculate_loop str 0 [] with
  | .error e => .error e
  | .ok (pending, stack) =>
    if (pending = 0 ∧ stack.length = 1) ∨ (stack.length = 0 ∧ pending ≠ 0) then
      if pending ≠ 0 then .ok pending
      else
        match stack.getLast? with
        | some x => .ok x
        | none => .error .uninitialised_read
    else .error .assert_failed

/-- The decimal form of a natural number, as bytes: `0` for zero, else its
digits, the most significant first. -/
def decimal (n : Nat) : List Nat :=
  if n = 0 then [48] else (Nat.digits 10 n).reverse.map (fun d => d + 48)

/-- The C string `<a> <b> <op>` of the reverse Polish notation, with its
terminating zero byte. -/
def rpn_string (a b op : Nat) : List Nat :=
  decimal a ++ [32] ++ decimal b ++ [32, op, 0]

/-- Some asterisk of the text is directly followed by a slash: the text holds
the closer of a block comment. -/
def has_closer : List Nat → Bool
  | [] => false
  | a :: t => (a == 42 && t.head? == some 47) || has_closer t

/-- The text `input` is made of blanks and comments followed by `rest`: a blank
byte; a line comment, two slashes and a body without newline that runs to
a newline or to the end of the text; a block comment, a slash, an asterisk,
a body and the first closer after the opener; or a block comment without
closer, which runs to the end of the text. -/
inductive skips : List Nat → List Nat → Prop
  | done (r : List Nat) : skips r r
  | blank (b : Nat) (t r : List Nat) :
      lr_is_whitespace b = true → skips t r → skips (b :: t) r
  | line (body t r : List Nat) :
      (∀ x ∈ body, x ≠ 10) → (t = [] ∨ t.head? = some 10) → skips t r →
      skips (47 :: 47 :: (body ++ t)) r
  | block (body t r : List Nat) :
      has_closer body = false → skips t r →
      skips (47 :: 42 :: (body ++ 42 :: 47 :: t)) r
  | unterminated (t : List Nat) :
      has_closer t = false → skips (47 :: 42 :: t) []

/-- The text is empty, or it starts with a byte that is not a blank and it does
not start with the opener of a comment. -/
def stopped (bs : List Nat) : Prop :=
  match bs with
  | [] => True
  | b :: t => lr_is_whitespace b = false ∧ ¬ (b = 47 ∧ (t.head? = some 47 ∨ t.head? = some 42))

/-- The quoted content of a string token: the bytes after its opening quote up
to its closing quote when the token ends with one, and all the bytes after
the opening quote when the literal is cut by the end of the buffer. -/
def quoted_content (t : c_token_t) : List Nat :=
  if (t.slice.bytes.drop 1).getLast? = some 34 then (t.slice.bytes.drop 1).dropLast
  else t.slice.bytes.drop 1

/-- The string token ends with a closing quote. -/
def closed_string (t : c_token_t) : Prop := (t.slice.bytes.drop 1).getLast? = some 34

instance (t : c_token_t) : Decidable (closed_string t) := by
  unfold closed_string; exact inferInstance

/-- The include triple at position `i`: a pound token, the identifier
`include`, and a string token whose quoted content is `labrat.h`. -/
def include_shape (ts : List c_token_t) (i : Nat) : Prop :=
  i + 3 ≤ ts.length ∧
  kind_at ts i = some LR_TOKEN_POUND ∧
  kind_at ts (i + 1) = some LR_TOKEN_IDENTIFIER ∧ text_at ts (i + 1) = some s_include ∧
  kind_at ts (i + 2) = some LR_TOKEN_STRING ∧
  (ts[i + 2]?).map quoted_content = some s_labrat_h

instance (ts : List c_token_t) (i : Nat) : Decidable (include_shape ts i) := by
  unfold include_shape; exact inferInstance

/-- The include triple at position `i` with a string literal cut by the end of
the buffer whose quoted content is `labrat.h` followed by one more byte. -/
def include_shape_cut (ts : List c_token_t) (i : Nat) : Prop :=
  i + 3 ≤ ts.length ∧
  kind_at ts i = some LR_TOKEN_POUND ∧
  kind_at ts (i + 1) = some LR_TOKEN_IDENTIFIER ∧ text_at ts (i + 1) = some s_include ∧
  kind_at ts (i + 2) = some LR_TOKEN_STRING ∧
  ∃ z, (ts[i + 2]?).map quoted_content = some (s_labrat_h ++ [z])

/-- The file `#include "labrat.hZ`, which ends inside the string literal. -/
def cut_include_file_Z : List Nat :=
  35 :: (s_include ++ 32 :: 34 :: (s_labrat_h ++ [90]))

/-- The file `#include "labrat.h`, which ends inside the string literal. -/
def cut_include_file : List Nat :=
  35 :: (s_include ++ 32 :: 34 :: s_labrat_h)

/-! Lemmas and theorems. -/

theorem rd_of_lt (p : List Nat) (i : Nat) (h : i < p.length) :
    rd p (i : Int) = .ok p[i] := by
  have h0 : ¬ ((i : Int) < 0) := by omega
  simp [rd, h0, List.getElem?_eq_getElem h]

theorem rd_of_ge (p : List Nat) (i : Nat) (h : p.length ≤ i) :
    rd p (i : Int) = .error .out_of_bounds := by
  have h0 : ¬ ((i : Int) < 0) := by omega
  simp [rd, h0, List.getElem?_eq_none h]

theorem rd_neg (p : List Nat) (i : Int) (h : i < 0) : rd p i = .error .out_of_bounds := by
  simp [rd, h]

theorem match_loop_eq (data s : List Nat) (k : Int) (hs : 0 ∉ s) :
    ∀ (n i j : Nat), (i : Int) - k = j → i + n ≤ data.length → j ≤ s.length →
      match_loop data s k n i = .ok (decide ((s.drop j).take n = (data.drop i).take n)) := by
  intro n
  induction n with
  | zero => intro i j _ _ _; simp [match_loop]
  | succ n ih =>
    intro i j hk hi hj
    have hi' : i < data.length := by omega
    rw [match_loop, hk, rd_of_lt data i hi']
    rcases Nat.lt_or_ge j s.length with hlt | hge
    · have hj' : j < (s ++ [0]).length := by simp; omega
      rw [rd_of_lt _ j hj']
      have e1 : (s ++ [0])[j] = s[j] := List.getElem_append_left hlt
      have hne : s[j] ≠ 0 := fun h => hs (h ▸ List.getElem_mem hlt)
      rw [e1]
      simp only [hne, if_false]
      rw [List.drop_eq_getElem_cons hlt, List.drop_eq_getElem_cons hi']
      simp only [List.take_succ_cons, List.cons.injEq]
      by_cases hb : data[i] = s[j]
      · have := ih (i + 1) (j + 1) (by push_cast; omega) (by omega) (by omega)
        simp only [hb, ne_eq, not_true_eq_false, if_false, true_and]
        rw [← this]; push_cast; rfl
      · have hb' : ¬ s[j] = data[i] := fun h => hb h.symm
        simp [hb, hb']
    · have hj2 : j = s.length := by omega
      subst hj2
      have hj' : s.length < (s ++ [0]).length := by simp
      rw [rd_of_lt _ _ hj', List.drop_eq_getElem_cons hi']
      simp
      exact hi'

theorem rd_cstr (s : List Nat) (hs : 0 ∉ s) (m : Nat) (hm : m ≤ s.length) :
    ∃ z, rd (s ++ [0]) (m : Int) = .ok z ∧ (z = 0 ↔ m = s.length) := by
  have hm' : m < (s ++ [0]).length := by simp; omega
  refine ⟨(s ++ [0])[m], rd_of_lt _ _ hm', ?_⟩
  rcases Nat.lt_or_ge m s.length with hlt | hge
  · rw [List.getElem_append_left hlt]
    constructor
    · intro h; exact absurd (h ▸ List.getElem_mem hlt) hs
    · intro h; omega
  · have : m = s.length := by omega
    subst this
    simp

theorem take_eq_iff_of_length (s x : List Nat) (m : Nat) (hx : x.length = m) :
    x = s ↔ (s.take m = x ∧ m = s.length) := by
  constructor
  · intro h; subst h; subst hx; simp
  · rintro ⟨h1, h2⟩; subst h2; simpa using h1.symm

theorem match_identifier_eq (t : c_token_t) (s : List Nat) (hs : 0 ∉ s)
    (hv : t.slice.valid) :
    match_identifier t s
      = .ok (decide (t.type = LR_TOKEN_IDENTIFIER ∧ t.slice.bytes = s)) := by
  obtain ⟨h0, h1⟩ := hv
  by_cases ht : t.type = LR_TOKEN_IDENTIFIER
  swap
  · simp [match_identifier, ht]
  · obtain ⟨m, hm⟩ := Int.eq_ofNat_of_zero_le h0
    have hm1 : m ≤ t.slice.data.length := by omega
    have hlen : (t.slice.data.take m).length = m := by simp; omega
    have hL := match_loop_eq t.slice.data s 0 hs m 0 0 (by simp) (by omega) (by omega)
    simp only [Nat.cast_zero, List.drop_zero] at hL
    simp only [match_identifier, ht, ne_eq, not_true_eq_false, if_false, hm, Int.toNat_ofNat,
      hL, lr_slice_t.bytes, true_and]
    by_cases he : s.take m = t.slice.data.take m
    · have hms : m ≤ s.length := by
        have := congrArg List.length he
        simp at this; omega
      obtain ⟨z, hz, hz0⟩ := rd_cstr s hs m hms
      have hiff := take_eq_iff_of_length s (t.slice.data.take m) m hlen
      rw [show decide (t.slice.data.take m = s) = decide (m = s.length) from by
        rw [Bool.eq_iff_iff]; simp only [decide_eq_true_eq, hiff, he, true_and]]
      simp only [he, decide_True, hz]
      congr 1
      rw [Bool.eq_iff_iff]
      simp only [beq_iff_eq, decide_eq_true_eq]
      exact hz0
    · have hiff := take_eq_iff_of_length s (t.slice.data.take m) m hlen
      rw [show decide (t.slice.data.take m = s) = false from by
        rw [decide_eq_false_iff_not, hiff]; exact fun h => he h.1]
      simp only [he, decide_False]

theorem match_string_eq (t : c_token_t) (s : List Nat) (hs : 0 ∉ s)
    (hv : t.slice.valid) (h2 : 2 ≤ t.slice.len) :
    match_string t s
      = .ok (decide (t.type = LR_TOKEN_STRING ∧ inner_bytes t = s)) := by
  obtain ⟨h0, h1⟩ := hv
  by_cases ht : t.type = LR_TOKEN_STRING
  swap
  · simp [match_string, ht]
  · obtain ⟨m, hm⟩ := Int.eq_ofNat_of_zero_le (show 0 ≤ t.slice.len - 2 by omega)
    have hm1 : 1 + m ≤ t.slice.data.length := by omega
    have hlen : ((t.slice.data.drop 1).take m).length = m := by simp; omega
    have hL := match_loop_eq t.slice.data s 1 hs m 1 0 (by simp) (by omega) (by omega)
    simp only [Nat.cast_one, List.drop_zero] at hL
    simp only [match_string, ht, ne_eq, not_true_eq_false, if_false, hm, Int.toNat_ofNat,
      hL, inner_bytes, true_and]
    by_cases he : s.take m = (t.slice.data.drop 1).take m
    · have hms : m ≤ s.length := by
        have := congrArg List.length he
        simp at this; omega
      obtain ⟨z, hz, hz0⟩ := rd_cstr s hs m hms
      have hiff := take_eq_iff_of_length s ((t.slice.data.drop 1).take m) m hlen
      rw [show decide ((t.slice.data.drop 1).take m = s) = decide (m = s.length) from by
        rw [Bool.eq_iff_iff]; simp only [decide_eq_true_eq, hiff, he, true_and]]
      simp only [he, decide_True, hz]
      congr 1
      rw [Bool.eq_iff_iff]
      simp only [beq_iff_eq, decide_eq_true_eq]
      exact hz0
    · have hiff := take_eq_iff_of_length s ((t.slice.data.drop 1).take m) m hlen
      rw [show decide ((t.slice.data.drop 1).take m = s) = false from by
        rw [decide_eq_false_iff_not, hiff]; exact fun h => he h.1]
      simp only [he, decide_False]

theorem tok_of_lt (ts : List c_token_t) (i : Nat) (h : i < ts.length) :
    tok ts i = .ok ts[i] := by
  simp [tok, List.getElem?_eq_getElem h]

theorem tok_of_ge (ts : List c_token_t) (i : Nat) (h : ts.length ≤ i) :
    tok ts i = .error .out_of_bounds := by
  simp [tok, List.getElem?_eq_none h]

theorem s_TEST_CASE_nz : 0 ∉ s_TEST_CASE := by decide
theorem s_BENCHMARK_nz : 0 ∉ s_BENCHMARK := by decide
theorem s_include_nz : 0 ∉ s_include := by decide
theorem s_labrat_h_nz : 0 ∉ s_labrat_h := by decide
theorem s_lr_test_id_nz : 0 ∉ s_lr_test_id := by decide
theorem s_lr_bench_id_nz : 0 ∉ s_lr_bench_id := by decide

theorem match_test_case_eq (ts : List c_token_t) (i : Nat) (id : c_token_t)
    (hv : ∀ t ∈ ts, t.slice.valid) :
    match_test_case ts ts.length i id =
      .ok (decide (test_shape ts i), if test_shape ts i then (ts[i + 2]?).getD id else id) := by
  by_cases hi : i + 4 ≤ ts.length
  swap
  · have h1 : ¬ test_shape ts i := fun h => hi h.1
    simp [match_test_case, h1]; omega
  · have h0 : i < ts.length := by omega
    have h1 : i + 1 < ts.length := by omega
    have h2 : i + 2 < ts.length := by omega
    have h3 : i + 3 < ts.length := by omega
    have hgt : ¬ (i + 4 > ts.length) := by omega
    have v0 := hv _ (List.getElem_mem h0)
    have v2 := hv _ (List.getElem_mem h2)
    simp only [match_test_case, hgt, if_false, tok_of_lt _ _ h0, tok_of_lt _ _ h1,
      tok_of_lt _ _ h2, tok_of_lt _ _ h3, bind, Except.bind, pure, Except.pure,
      match_identifier_eq _ _ s_TEST_CASE_nz v0, match_identifier_eq _ _ s_lr_test_id_nz v2,
      test_shape, kind_at, text_at, List.getElem?_eq_getElem h0, List.getElem?_eq_getElem h1,
      List.getElem?_eq_getElem h2, List.getElem?_eq_getElem h3, Option.map_some',
      Option.some.injEq, Option.getD_some, hi, true_and, ne_eq]
    by_cases a0 : ts[i].type = LR_TOKEN_IDENTIFIER <;>
    by_cases b0 : ts[i].slice.bytes = s_TEST_CASE <;>
    by_cases a1 : ts[i + 1].type = LR_TOKEN_L_PAREN <;>
    by_cases a2 : ts[i + 2].type = LR_TOKEN_IDENTIFIER <;>
    by_cases b2 : ts[i + 2].slice.bytes = s_lr_test_id <;>
    by_cases a3 : ts[i + 3].type = LR_TOKEN_R_PAREN <;>
    simp [a0, b0, a1, a2, b2, a3]

theorem eof_at_last (ts : List c_token_t) (he : eof_terminated ts) (j : Nat)
    (hj : j < ts.length) (hl : j + 1 = ts.length) : ts[j].type = LR_TOKEN_EOF := by
  unfold eof_terminated at he
  rw [List.getLast?_eq_getElem?] at he
  have : ts.length - 1 = j := by omega
  rw [this, List.getElem?_eq_getElem hj] at he
  simpa using he

theorem match_benchmark_eq (ts : List c_token_t) (i : Nat) (id : c_token_t)
    (hv : ∀ t ∈ ts, t.slice.valid) (he : eof_terminated ts) :
    match_benchmark ts ts.length i id =
      .ok (decide (bench_shape ts i), if bench_shape ts i then (ts[i + 2]?).getD id else id) := by
  by_cases hi : i + 4 ≤ ts.length
  swap
  · have h1 : ¬ bench_shape ts i := fun h => hi (by have := h.1; omega)
    simp [match_benchmark, h1]; omega
  · have h0 : i < ts.length := by omega
    have h1 : i + 1 < ts.length := by omega
    have h2 : i + 2 < ts.length := by omega
    have h3 : i + 3 < ts.length := by omega
    have hgt : ¬ (i + 4 > ts.length) := by omega
    have v0 := hv _ (List.getElem_mem h0)
    have v2 := hv _ (List.getElem_mem h2)
    simp only [match_benchmark, hgt, if_false, tok_of_lt _ _ h0, tok_of_lt _ _ h1,
      tok_of_lt _ _ h2, tok_of_lt _ _ h3, bind, Except.bind, pure, Except.pure,
      match_identifier_eq _ _ s_BENCHMARK_nz v0, match_identifier_eq _ _ s_lr_bench_id_nz v2,
      bench_shape, kind_at, text_at, List.getElem?_eq_getElem h0, List.getElem?_eq_getElem h1,
      List.getElem?_eq_getElem h2, List.getElem?_eq_getElem h3, Option.map_some',
      Option.some.injEq, Option.getD_some, ne_eq]
    by_cases h4 : i + 4 < ts.length
    swap
    · have e3 : ts[i + 3].type = LR_TOKEN_EOF := eof_at_last ts he _ h3 (by omega)
      have h6 : ¬ (i + 6 ≤ ts.length) := by omega
      by_cases a0 : ts[i].type = LR_TOKEN_IDENTIFIER <;>
      by_cases b0 : ts[i].slice.bytes = s_BENCHMARK <;>
      by_cases a1 : ts[i + 1].type = LR_TOKEN_L_PAREN <;>
      by_cases a2 : ts[i + 2].type = LR_TOKEN_IDENTIFIER <;>
      by_cases b2 : ts[i + 2].slice.bytes = s_lr_bench_id <;>
      simp [a0, b0, a1, a2, b2, e3, h6]
    · simp only [tok_of_lt _ _ h4, List.getElem?_eq_getElem h4, Option.map_some',
        Option.some.injEq]
      by_cases h5 : i + 5 < ts.length
      swap
      · have e4 : ts[i + 4].type = LR_TOKEN_EOF := eof_at_last ts he _ h4 (by omega)
        have h6 : ¬ (i + 6 ≤ ts.length) := by omega
        by_cases a0 : ts[i].type = LR_TOKEN_IDENTIFIER <;>
        by_cases b0 : ts[i].slice.bytes = s_BENCHMARK <;>
        by_cases a1 : ts[i + 1].type = LR_TOKEN_L_PAREN <;>
        by_cases a2 : ts[i + 2].type = LR_TOKEN_IDENTIFIER <;>
        by_cases b2 : ts[i + 2].slice.bytes = s_lr_bench_id <;>
        by_cases a3 : ts[i + 3].type = LR_TOKEN_COMMA <;>
        simp [a0, b0, a1, a2, b2, a3, e4, h6]
      · have h6 : i + 6 ≤ ts.length := by omega
        simp only [tok_of_lt _ _ h5, List.getElem?_eq_getElem h5, Option.map_some',
          Option.some.injEq, h6, true_and]
        by_cases a0 : ts[i].type = LR_TOKEN_IDENTIFIER <;>
        by_cases b0 : ts[i].slice.bytes = s_BENCHMARK <;>
        by_cases a1 : ts[i + 1].type = LR_TOKEN_L_PAREN <;>
        by_cases a2 : ts[i + 2].type = LR_TOKEN_IDENTIFIER <;>
        by_cases b2 : ts[i + 2].slice.bytes = s_lr_bench_id <;>
        by_cases a3 : ts[i + 3].type = LR_TOKEN_COMMA <;>
        by_cases a4 : ts[i + 4].type = LR_TOKEN_IDENTIFIER <;>
        by_cases a5 : ts[i + 5].type = LR_TOKEN_R_PAREN <;>
        simp [a0, b0, a1, a2, b2, a3, a4, a5]

/-- Claim C7: on a token array whose slices lie inside their buffers,
`match_test_case` returns true exactly when the test shape holds at `i` (which
includes `i + 4 <= ct`); on true `*id` is the token at `i + 2`, on false `*id`
keeps its value. -/
theorem match_test_case_spec (ts : List c_token_t) (i : Nat) (id : c_token_t)
    (hv : ∀ t ∈ ts, t.slice.valid) :
    ∃ b id', match_test_case ts ts.length i id = .ok (b, id') ∧
      (b = true ↔ test_shape ts i) ∧
      (b = true → ts[i + 2]? = some id') ∧
      (b = false → id' = id) := by
  refine ⟨_, _, match_test_case_eq ts i id hv, ?_, ?_, ?_⟩
  · simp
  · intro h
    have hs : test_shape ts i := by simpa using h
    have h2 : i + 2 < ts.length := by have := hs.1; omega
    simp [hs, List.getElem?_eq_getElem h2]
  · intro h
    have hs : ¬ test_shape ts i := by simpa using h
    simp [hs]

/-- Claim C8: on a token array ending in `LR_TOKEN_EOF` whose slices lie inside
their buffers, `match_benchmark` returns true exactly when the six tokens of
the benchmark shape exist at `i`; on true `*id` is the token at `i + 2`. -/
theorem match_benchmark_spec (ts : List c_token_t) (i : Nat) (id : c_token_t)
    (hv : ∀ t ∈ ts, t.slice.valid) (he : eof_terminated ts) :
    ∃ b id', match_benchmark ts ts.length i id = .ok (b, id') ∧
      (b = true ↔ bench_shape ts i) ∧
      (b = true → ts[i + 2]? = some id') ∧
      (b = false → id' = id) := by
  refine ⟨_, _, match_benchmark_eq ts i id hv he, ?_, ?_, ?_⟩
  · simp
  · intro h
    have hs : bench_shape ts i := by simpa using h
    have h2 : i + 2 < ts.length := by have := hs.1; omega
    simp [hs, List.getElem?_eq_getElem h2]
  · intro h
    have hs : ¬ bench_shape ts i := by simpa using h
    simp [hs]

theorem nul_ended_drop (data : List Nat) (len : Int) (k : Nat) (h : nul_ended data len)
    (hk : (k : Int) ≤ len) : nul_ended (data.drop k) (len - k) := by
  obtain ⟨h0, h1, h2⟩ := h
  refine ⟨by omega, ?_, ?_⟩
  · rw [List.length_drop]; omega
  · rw [List.getElem?_drop]
    have : k + (len - ↑k).toNat = len.toNat := by omega
    rw [this]; exact h2

theorem nul_ended_tail (b : Nat) (rest : List Nat) (len : Int)
    (h : nul_ended (b :: rest) len) (hl : len > 0) : nul_ended rest (len - 1) := by
  have := nul_ended_drop (b :: rest) len 1 h (by omega)
  simpa using this

theorem skip_line_comment_inv : ∀ (data : List Nat) (len : Int) (s : lr_slice_t),
    nul_ended data len → skip_line_comment data len = .ok s → nul_ended s.data s.len := by
  intro data
  induction data with
  | nil =>
    intro len s h hs
    simp only [skip_line_comment] at hs
    split at hs
    · cases hs
    · cases hs; exact h
  | cons b rest ih =>
    intro len s h hs
    simp only [skip_line_comment] at hs
    split at hs
    · split at hs
      · exact ih _ _ (nul_ended_tail _ _ _ h (by assumption)) hs
      · cases hs; exact h
    · cases hs; exact h

theorem skip_block_comment_inv : ∀ (data : List Nat) (len : Int) (s : lr_slice_t),
    nul_ended data len → skip_block_comment data len = .ok s → nul_ended s.data s.len := by
  intro data
  induction data with
  | nil =>
    intro len s h hs
    simp only [skip_block_comment] at hs
    split at hs
    · cases hs
    · cases hs; exact h
  | cons b rest ih =>
    intro len s h hs
    simp only [skip_block_comment] at hs
    split at hs
    · rename_i hl
      split at hs
      · split at hs
        · cases hs
        · split at hs
          · cases hs; exact h
          · exact ih _ _ (nul_ended_tail _ _ _ h hl) hs
      · exact ih _ _ (nul_ended_tail _ _ _ h hl) hs
    · cases hs; exact h

theorem eat_loop_inv : ∀ (fuel : Nat) (data : List Nat) (len : Int) (s : lr_slice_t),
    nul_ended data len → eat_loop fuel data len = .ok s → nul_ended s.data s.len := by
  intro fuel
  induction fuel with
  | zero => intro data len s _ hs; simp [eat_loop] at hs
  | succ fuel ih =>
    intro data len s h hs
    simp only [eat_loop] at hs
    split at hs
    · rename_i hl
      split at hs
      · cases hs
      · rename_i b0 rest
        split at hs
        · exact ih _ _ _ (nul_ended_tail _ _ _ h hl) hs
        · split at hs
          · rename_i hc
            have hl1 : len > 1 := by simp at hc; exact hc.1
            split at hs
            · cases hs
            · rename_i b1 rest2
              have h2 : nul_ended rest2 (len - 2) := by
                have := nul_ended_drop (b0 :: b1 :: rest2) len 2 h (by omega)
                simpa using this
              split at hs
              · split at hs
                · cases hs
                · rename_i s1 hs1
                  exact ih _ _ _ (skip_line_comment_inv _ _ _ h2 hs1) hs
              · split at hs
                · split at hs
                  · cases hs
                  · rename_i s1 hs1
                    have h3 := skip_block_comment_inv _ _ _ h2 hs1
                    split at hs
                    · have := nul_ended_drop s1.data s1.len 2 h3 (by omega)
                      exact ih _ _ _ this hs
                    · have h4 := nul_ended_drop s1.data s1.len s1.len.toNat h3
                        (by have := h3.1; omega)
                      have e : s1.len - ↑s1.len.toNat = 0 := by have := h3.1; omega
                      rw [e] at h4
                      exact ih _ _ _ h4 hs
                · cases hs; exact h
          · cases hs; exact h
    · cases hs; exact h

theorem eat_inv (c c1 : lr_slice_t) (h : nul_ended c.data c.len)
    (he : lr_eat_whitespace_and_comments c = .ok c1) : nul_ended c1.data c1.len :=
  eat_loop_inv _ _ _ _ h he

theorem rd_ok_bound (data : List Nat) (len i : Int) (b : Nat) (h : nul_ended data len)
    (hr : rd data i = .ok b) : 0 ≤ i ∧ i ≤ len ∧ (i = len → b = 0) := by
  obtain ⟨h0, h1, h2⟩ := h
  unfold rd at hr
  split at hr
  · cases hr
  · rename_i hi
    split at hr
    · rename_i b1 hb
      cases hr
      have hlt : i.toNat < data.length := by
        by_contra hge
        rw [List.getElem?_eq_none (by omega)] at hb
        cases hb
      refine ⟨by omega, by omega, ?_⟩
      intro he
      subst he
      rw [hb] at h2
      exact Option.some.inj h2
    · cases hr

theorem identifier_loop_bound (c : lr_slice_t) : ∀ (f : Nat) (len L : Int),
    len ≤ c.len → identifier_loop c f len = .ok L → len ≤ L ∧ L ≤ c.len := by
  intro f
  induction f with
  | zero => intro len L _ h; simp [identifier_loop] at h
  | succ f ih =>
    intro len L hl h
    simp only [identifier_loop] at h
    split at h
    · split at h
      · cases h
      · split at h
        · have := ih (len + 1) L (by omega) h
          omega
        · cases h; omega
    · cases h; omega

theorem number_loop_bound (c : lr_slice_t) : ∀ (f : Nat) (len L : Int),
    len ≤ c.len → number_loop c f len = .ok L → len ≤ L ∧ L ≤ c.len := by
  intro f
  induction f with
  | zero => intro len L _ h; simp [number_loop] at h
  | succ f ih =>
    intro len L hl h
    simp only [number_loop] at h
    split at h
    · split at h
      · cases h
      · split at h
        · cases h; omega
        · have := ih (len + 1) L (by omega) h
          omega
    · cases h; omega

theorem quoted_loop_bound (q : Nat) (hq : q ≠ 0) (c : lr_slice_t)
    (hc : nul_ended c.data c.len) : ∀ (f : Nat) (len L : Int),
    len ≤ c.len + 1 → quoted_loop q c f len = .ok L → len ≤ L ∧ L + 1 ≤ c.len := by
  intro f
  induction f with
  | zero => intro len L _ h; simp [quoted_loop] at h
  | succ f ih =>
    intro len L hl h
    simp only [quoted_loop] at h
    split at h
    · rename_i hne
      split at h
      · cases h
      · rename_i ch hch
        have hb := rd_ok_bound _ _ _ _ hc hch
        split at h
        · split at h
          · cases h
          · split at h
            · have := ih _ L (by omega) h
              omega
            · have := ih _ L (by omega) h
              omega
        · split at h
          · rename_i hq1
            cases h
            have hqq : ch = q := by simpa using hq1
            have : len ≠ c.len := fun he => hq (hqq ▸ hb.2.2 he)
            omega
          · have := ih (len + 1) L (by omega) h
            omega
    · cases h; omega

theorem single_char_kind_ne_eof (b : Nat) : single_char_kind b ≠ LR_TOKEN_EOF := by
  unfold single_char_kind
  split <;> decide

theorem single_char_kind_ne_string (b : Nat) : single_char_kind b ≠ LR_TOKEN_STRING := by
  unfold single_char_kind
  split <;> decide

theorem single_char_consumed (c : lr_slice_t) (r : c_token_t × lr_slice_t)
    (hl : 1 ≤ c.len) (h : lr_lex_single_char_token c = .ok (some r)) :
    consumed c r 1 ∧ r.1.type ≠ LR_TOKEN_EOF ∧ r.1.type ≠ LR_TOKEN_STRING := by
  simp only [lr_lex_single_char_token] at h
  split at h
  · cases h
  · rename_i b0 _
    split at h
    · cases h
      exact ⟨⟨by omega, hl, rfl, rfl⟩, single_char_kind_ne_eof _, single_char_kind_ne_string _⟩
    · cases h

theorem constant_consumed (c : lr_slice_t) (r : c_token_t × lr_slice_t)
    (hc : nul_ended c.data c.len) (hl : 1 ≤ c.len)
    (h : lr_lex_constant c = .ok (some r)) :
    ∃ L, consumed c r L ∧ r.1.type ≠ LR_TOKEN_EOF ∧ r.1.type ≠ LR_TOKEN_STRING := by
  simp only [lr_lex_constant] at h
  split at h
  · cases h
  · split at h
    · split at h
      · cases h
      · rename_i L hL
        cases h
        have := number_loop_bound c _ 1 L hl hL
        exact ⟨L, ⟨by omega, by omega, rfl, rfl⟩, by simp, by simp⟩
    · split at h
      · split at h
        · cases h
        · rename_i L hL
          cases h
          have := quoted_loop_bound 39 (by decide) c hc _ 1 L (by omega) hL
          exact ⟨L + 1, ⟨by omega, by omega, rfl, rfl⟩, by simp, by simp⟩
      · cases h

theorem string_consumed (c : lr_slice_t) (r : c_token_t × lr_slice_t)
    (hc : nul_ended c.data c.len) (hl : 1 ≤ c.len)
    (h : lr_lex_string c = .ok (some r)) :
    ∃ L, consumed c r L ∧ r.1.type ≠ LR_TOKEN_EOF ∧ 2 ≤ L := by
  simp only [lr_lex_string] at h
  split at h
  · cases h
  · split at h
    · split at h
      · cases h
      · rename_i L hL
        cases h
        have := quoted_loop_bound 34 (by decide) c hc _ 1 L (by omega) hL
        exact ⟨L + 1, ⟨by omega, by omega, rfl, rfl⟩, by simp, by omega⟩
    · cases h

theorem identifier_consumed (c : lr_slice_t) (r : c_token_t × lr_slice_t)
    (hl : 1 ≤ c.len) (h : lr_lex_identifier c = .ok (some r)) :
    ∃ L, consumed c r L ∧ r.1.type = LR_TOKEN_IDENTIFIER := by
  simp only [lr_lex_identifier] at h
  split at h
  · cases h
  · split at h
    · split at h
      · cases h
      · rename_i L hL
        cases h
        have := identifier_loop_bound c _ 1 L hl hL
        exact ⟨L, ⟨by omega, by omega, rfl, rfl⟩, rfl⟩
    · cases h

theorem lex_token_consumed (c : lr_slice_t) (r : c_token_t × lr_slice_t)
    (hc : nul_ended c.data c.len) (hl : 1 ≤ c.len) (h : lex_token c = .ok r) :
    ∃ L, consumed c r L ∧ r.1.type ≠ LR_TOKEN_EOF ∧ (r.1.type = LR_TOKEN_STRING → 2 ≤ L) := by
  simp only [lex_token] at h
  split at h
  · cases h
  · rename_i r1 h1
    cases h
    obtain ⟨a, b, c'⟩ := single_char_consumed c _ hl h1
    exact ⟨1, a, b, fun hs => absurd hs c'⟩
  · split at h
    · cases h
    · rename_i r1 h1
      cases h
      obtain ⟨L, a, b, c'⟩ := constant_consumed c _ hc hl h1
      exact ⟨L, a, b, fun hs => absurd hs c'⟩
    · split at h
      · cases h
      · rename_i r1 h1
        cases h
        obtain ⟨L, a, b, c'⟩ := string_consumed c _ hc hl h1
        exact ⟨L, a, b, fun _ => c'⟩
      · split at h
        · cases h
        · rename_i r1 h1
          cases h
          obtain ⟨L, a, b⟩ := identifier_consumed c _ hl h1
          exact ⟨L, a, by rw [b]; simp, by rw [b]; simp⟩
        · cases h
          exact ⟨1, ⟨by omega, hl, rfl, rfl⟩, by simp, by simp⟩

theorem lex_file_loop_inv : ∀ (f : Nat) (c : lr_slice_t) (acc ts : List c_token_t),
    nul_ended c.data c.len → (∀ t ∈ acc, token_ok t) →
    lex_file_loop f c acc = .ok ts →
    (∀ t ∈ ts, token_ok t) ∧ eof_terminated ts := by
  intro f
  induction f with
  | zero => intro c acc ts _ _ h; simp [lex_file_loop] at h
  | succ f ih =>
    intro c acc ts hc hacc h
    simp only [lex_file_loop] at h
    split at h
    · rename_i h0
      cases h
      constructor
      · intro t ht
        rcases List.mem_append.1 ht with h1 | h1
        · exact hacc t h1
        · simp only [List.mem_singleton] at h1
          subst h1
          refine ⟨⟨by simp [lr_slice_l], ?_⟩, by simp⟩
          simp [lr_slice_l]
      · simp [eof_terminated]
    · split at h
      · cases h
      · rename_i c1 hc1
        have hi1 := eat_inv c c1 hc hc1
        split at h
        · rename_i hne
          split at h
          · cases h
          · rename_i t c2 ht
            split at h
            · have hl : 1 ≤ c1.len := by have := hi1.1; omega
              obtain ⟨L, ⟨hL1, hL2, hs, hr⟩, hty, hstr⟩ := lex_token_consumed c1 (t, c2) hi1 hl ht
              simp only at hs hr
              obtain ⟨n, hn⟩ := Int.eq_ofNat_of_zero_le (show 0 ≤ L by omega)
              have hc2 : nul_ended c2.data c2.len := by
                rw [hr]
                have := nul_ended_drop c1.data c1.len n hi1 (by omega)
                simpa [lr_slice_r, hn] using this
              refine ih c2 _ ts hc2 ?_ h
              intro t' ht'
              rcases List.mem_append.1 ht' with h1 | h1
              · exact hacc t' h1
              · simp only [List.mem_singleton] at h1
                subst h1
                refine ⟨?_, ?_⟩
                · rw [hs]
                  have := hi1.2.1
                  exact ⟨by simp [lr_slice_l]; omega, by simp [lr_slice_l]; omega⟩
                · intro hst
                  rw [hs]
                  simpa [lr_slice_l] using hstr hst
            · cases h
        · exact ih c1 _ ts hi1 hacc h

theorem lr_read_file_nul_ended (f : Option (List Nat)) (s : lr_slice_t)
    (h : lr_read_file f = some s) : nul_ended s.data s.len := by
  unfold lr_read_file at h
  split at h
  · cases h
  · split at h
    · cases h
    · cases h
      refine ⟨by simp, by simp, ?_⟩
      simp

theorem lr_lex_file_tokens (f : Option (List Nat)) (s : lr_slice_t) (ts : List c_token_t)
    (hr : lr_read_file f = some s) (hl : lr_lex_file s = .ok ts) :
    (∀ t ∈ ts, token_ok t) ∧ eof_terminated ts :=
  lex_file_loop_inv _ s [] ts (lr_read_file_nul_ended f s hr) (by simp) hl

theorem match_labrat_include_eq (ts : List c_token_t) (i : Nat)
    (hv : ∀ t ∈ ts, token_ok t) :
    match_labrat_include false ts ts.length i = .ok (decide (include_matched ts i)) := by
  by_cases hi : i + 3 ≤ ts.length
  swap
  · have h1 : ¬ include_matched ts i := fun h => hi h.1
    simp [match_labrat_include, h1]; omega
  · have h0 : i < ts.length := by omega
    have h1 : i + 1 < ts.length := by omega
    have h2 : i + 2 < ts.length := by omega
    have hgt : ¬ (i + 3 > ts.length) := by omega
    have v1 := (hv _ (List.getElem_mem h1)).1
    have v2 := hv _ (List.getElem_mem h2)
    have hms : match_string ts[i + 2] s_labrat_h
        = .ok (decide (ts[i + 2].type = LR_TOKEN_STRING ∧ inner_bytes ts[i + 2] = s_labrat_h)) := by
      by_cases hty : ts[i + 2].type = LR_TOKEN_STRING
      · exact match_string_eq _ _ s_labrat_h_nz v2.1 (v2.2 hty)
      · simp [match_string, hty]
    simp only [match_labrat_include, hgt, if_false, tok_of_lt _ _ h0, tok_of_lt _ _ h1,
      tok_of_lt _ _ h2, bind, Except.bind, pure, Except.pure, Bool.false_eq_true,
      match_identifier_eq _ _ s_include_nz v1, hms,
      include_matched, kind_at, text_at, List.getElem?_eq_getElem h0, List.getElem?_eq_getElem h1,
      List.getElem?_eq_getElem h2, Option.map_some',
      Option.some.injEq, hi, true_and, ne_eq]
    by_cases a0 : ts[i].type = LR_TOKEN_POUND <;>
    by_cases a1 : ts[i + 1].type = LR_TOKEN_IDENTIFIER <;>
    by_cases b1 : ts[i + 1].slice.bytes = s_include <;>
    by_cases a2 : ts[i + 2].type = LR_TOKEN_STRING <;>
    by_cases b2 : inner_bytes ts[i + 2] = s_labrat_h <;>
    simp [a0, a1, b1, a2, b2]

theorem scan_tokens_open (st : Bool) (ts : List c_token_t) (ct : Nat) :
    ∀ (k j : Nat) (tests benchmarks : List lr_slice_t),
      scan_tokens st ts ct k j true tests benchmarks
        = shape_records ts ct (List.range' j k) tests benchmarks := by
  intro k
  induction k with
  | zero => intro j t b; simp [scan_tokens, shape_records]
  | succ k ih =>
    intro j t b
    simp only [scan_tokens, if_true, bind, Except.bind, pure, Except.pure, List.range'_succ,
      shape_records]
    cases match_shapes ts ct j t b with
    | error e => rfl
    | ok r => exact ih (j + 1) r.1 r.2

theorem scan_tokens_closed (ts : List c_token_t) (ct g : Nat) :
    ∀ (k j : Nat) (tests benchmarks : List lr_slice_t), j ≤ g → g ≤ j + k →
      (∀ i, j ≤ i → i < g → match_labrat_include false ts ct i = .ok false) →
      (g < j + k → match_labrat_include false ts ct g = .ok true) →
      scan_tokens false ts ct k j false tests benchmarks
        = shape_records ts ct (List.range' g (j + k - g)) tests benchmarks := by
  intro k
  induction k with
  | zero =>
    intro j t b h1 h2 _ _
    have : j + 0 - g = 0 := by omega
    rw [this]
    simp [scan_tokens, shape_records]
  | succ k ih =>
    intro j t b h1 h2 hb ha
    rcases Nat.lt_or_ge j g with hlt | hge
    · have hj := hb j (le_refl _) hlt
      simp only [scan_tokens, Bool.false_eq_true, if_false, hj, bind, Except.bind]
      have := ih (j + 1) t b (by omega) (by omega) (fun i hi1 hi2 => hb i (by omega) hi2)
        (fun hg => ha (by omega))
      rw [this]
      congr 2; omega
    · have hjg : j = g := by omega
      subst hjg
      have hj := ha (by omega)
      have e : j + (k + 1) - j = k + 1 := by omega
      simp only [scan_tokens, Bool.false_eq_true, if_false, hj, bind, Except.bind, if_true, e,
        List.range'_succ, shape_records]
      cases match_shapes ts ct j t b with
      | error e => rfl
      | ok r => exact scan_tokens_open false ts ct k (j + 1) r.1 r.2

theorem lr_copy_slice_eq (t : c_token_t) (hv : t.slice.valid) :
    lr_copy_slice t.slice = .ok (record_of t) := by
  unfold lr_slice_t.valid at hv
  simp [lr_copy_slice, hv, record_of, lr_slice_t.bytes]

theorem record_of_bytes (t : c_token_t) :
    (record_of t).bytes = t.slice.bytes := by
  simp [record_of, lr_slice_t.bytes]

theorem match_shapes_eq (ts : List c_token_t) (j : Nat) (tests benchmarks : List lr_slice_t)
    (hv : ∀ t ∈ ts, t.slice.valid) (he : eof_terminated ts) :
    match_shapes ts ts.length j tests benchmarks =
      .ok (if test_shape ts j then
             (tests ++ [record_of ((ts[j + 2]?).getD no_identifier)], benchmarks)
           else if bench_shape ts j then
             (tests, benchmarks ++ [record_of ((ts[j + 2]?).getD no_identifier)])
           else (tests, benchmarks)) := by
  simp only [match_shapes, match_test_case_eq ts j _ hv, match_benchmark_eq ts j _ hv he,
    bind, Except.bind, pure, Except.pure]
  by_cases h1 : test_shape ts j
  · have h2 : j + 2 < ts.length := by have := h1.1; omega
    have v := hv _ (List.getElem_mem h2)
    simp [h1, List.getElem?_eq_getElem h2, lr_copy_slice_eq _ v]
  · by_cases h3 : bench_shape ts j
    · have h2 : j + 2 < ts.length := by have := h3.1; omega
      have v := hv _ (List.getElem_mem h2)
      simp [h1, h3, List.getElem?_eq_getElem h2, lr_copy_slice_eq _ v]
    · simp [h1, h3]

theorem ok_bind {ε α β : Type} (x : α) (f : α → Except ε β) :
    ((Except.ok x : Except ε α) >>= f) = f x := rfl

theorem error_bind {ε α β : Type} (e : ε) (f : α → Except ε β) :
    ((Except.error e : Except ε α) >>= f) = Except.error e := rfl

theorem scan_tokens_preserves (P : List lr_slice_t → List lr_slice_t → Prop)
    (st : Bool) (ts : List c_token_t) (ct : Nat)
    (hstep : ∀ j t b r, P t b → match_shapes ts ct j t b = .ok r → P r.1 r.2) :
    ∀ (k j : Nat) (inc : Bool) (t b : List lr_slice_t) (r : List lr_slice_t × List lr_slice_t),
      P t b → scan_tokens st ts ct k j inc t b = .ok r → P r.1 r.2 := by
  intro k
  induction k with
  | zero => intro j inc t b r hp h; simp [scan_tokens] at h; rw [← h]; exact hp
  | succ k ih =>
    intro j inc t b r hp h
    have hopen : ∀ r0, (match_shapes ts ct j t b >>=
        fun v => scan_tokens st ts ct k (j + 1) true v.1 v.2) = .ok r0 → P r0.1 r0.2 := by
      intro r0 h0
      cases hm : match_shapes ts ct j t b with
      | error e => rw [hm, error_bind] at h0; cases h0
      | ok r1 =>
        rw [hm, ok_bind] at h0
        exact ih _ _ _ _ _ (hstep j t b r1 hp hm) h0
    rw [scan_tokens] at h
    cases inc with
    | true =>
      simp only [if_true] at h
      exact hopen r h
    | false =>
      simp only [Bool.false_eq_true, if_false] at h
      cases hi : match_labrat_include st ts ct j with
      | error e => rw [hi, error_bind] at h; cases h
      | ok inc1 =>
        rw [hi, ok_bind] at h
        cases inc1 with
        | false => simp only [Bool.false_eq_true, if_false] at h; exact ih _ _ _ _ _ hp h
        | true => simp only [if_true] at h; exact hopen r h

theorem match_shapes_no_own_placeholder (ts : List c_token_t)
    (hv : ∀ t ∈ ts, t.slice.valid) (he : eof_terminated ts)
    (j : Nat) (t b : List lr_slice_t) (r : List lr_slice_t × List lr_slice_t)
    (hp : no_own_placeholder t b) (h : match_shapes ts ts.length j t b = .ok r) :
    no_own_placeholder r.1 r.2 := by
  rw [match_shapes_eq ts j t b hv he] at h
  cases h
  by_cases h1 : test_shape ts j
  · have h2 : j + 2 < ts.length := by have := h1.1; omega
    have v := hv _ (List.getElem_mem h2)
    have hne : ts[j + 2].slice.bytes ≠ s_lr_test_id := by
      have := h1.2.2.2.2.2.1
      simpa [text_at, List.getElem?_eq_getElem h2] using this
    simp only [h1, if_true, List.getElem?_eq_getElem h2, Option.getD_some]
    refine ⟨?_, hp.2⟩
    intro r hr
    rcases List.mem_append.1 hr with h3 | h3
    · exact hp.1 r h3
    · simp only [List.mem_singleton] at h3
      subst h3
      rw [record_of_bytes]; exact hne
  · by_cases h3 : bench_shape ts j
    · have h2 : j + 2 < ts.length := by have := h3.1; omega
      have v := hv _ (List.getElem_mem h2)
      have hne : ts[j + 2].slice.bytes ≠ s_lr_bench_id := by
        have := h3.2.2.2.2.2.1
        simpa [text_at, List.getElem?_eq_getElem h2] using this
      simp only [h1, h3, if_true, if_false, List.getElem?_eq_getElem h2, Option.getD_some]
      refine ⟨hp.1, ?_⟩
      intro r hr
      rcases List.mem_append.1 hr with h4 | h4
      · exact hp.2 r h4
      · simp only [List.mem_singleton] at h4
        subst h4
        rw [record_of_bytes]; exact hne
    · simp only [h1, h3, if_false]; exact hp

/-- Claim C10, amended: in both modes, no test record found in a file is named
`__lr_test_id__` and no benchmark record is named `__lr_bench_id__`. -/
theorem records_avoid_own_placeholder (self_test : Bool) (f : Option (List Nat))
    (tests benchmarks : List lr_slice_t)
    (h : main_file self_test f [] [] = .ok (tests, benchmarks)) :
    (∀ r ∈ tests, r.bytes ≠ s_lr_test_id) ∧ (∀ r ∈ benchmarks, r.bytes ≠ s_lr_bench_id) := by
  unfold main_file at h
  split at h
  · cases h; simp
  · rename_i s hs
    simp only [bind, Except.bind] at h
    split at h
    · cases h
    · rename_i ts hts
      obtain ⟨hok, he⟩ := lr_lex_file_tokens f s ts hs hts
      have hv : ∀ t ∈ ts, t.slice.valid := fun t ht => (hok t ht).1
      exact scan_tokens_preserves no_own_placeholder self_test ts ts.length
        (fun j t b r hp hr => match_shapes_no_own_placeholder ts hv he j t b r hp hr)
        _ _ _ _ _ _ (by simp [no_own_placeholder]) h

theorem eat_stay (b : Nat) (rest : List Nat) (len : Int) (hl : len > 0)
    (hw : lr_is_whitespace b = false) (hs : b ≠ 47) :
    lr_eat_whitespace_and_comments ⟨len, b :: rest⟩ = .ok ⟨len, b :: rest⟩ := by
  simp [lr_eat_whitespace_and_comments, eat_loop, hl, hw, hs]

theorem eat_one (w b : Nat) (rest : List Nat) (len : Int) (hl : len > 1)
    (hw : lr_is_whitespace w = true)
    (hb : lr_is_whitespace b = false) (hs : b ≠ 47) :
    lr_eat_whitespace_and_comments ⟨len, w :: b :: rest⟩ = .ok ⟨len - 1, b :: rest⟩ := by
  have h0 : len > 0 := by omega
  have h1 : len - 1 > 0 := by omega
  simp [lr_eat_whitespace_and_comments, eat_loop, h0, h1, hw, hb, hs]

theorem rd_zero_cons (b : Nat) (rest : List Nat) : rd (b :: rest) 0 = .ok b := by
  simp [rd]

theorem lex_token_single (b : Nat) (rest : List Nat) (len : Int)
    (hk : single_char_kind b ≠ LR_TOKEN_UNKNOWN) :
    lex_token ⟨len, b :: rest⟩
      = .ok (⟨single_char_kind b, ⟨1, b :: rest⟩⟩, ⟨len - 1, rest⟩) := by
  simp [lex_token, lr_lex_single_char_token, rd_zero_cons, hk, lr_slice_l, lr_slice_r]

theorem word_char_kind (b : Nat) (h : lr_is_word_char b = true) :
    single_char_kind b = LR_TOKEN_UNKNOWN := by
  unfold single_char_kind
  split <;> first | rfl | (simp [lr_is_word_char] at h)

theorem rd_of_getElem? (p : List Nat) (i : Nat) (b : Nat) (h : p[i]? = some b) :
    rd p (i : Int) = .ok b := by
  have h0 : ¬ ((i : Int) < 0) := by omega
  simp [rd, h0, h]

theorem identifier_loop_run (c : lr_slice_t) (w : List Nat) (d : Nat) (rest : List Nat)
    (hd : c.data = w ++ d :: rest) (hw : ∀ x ∈ w, lr_is_identifier x = true)
    (hdd : lr_is_identifier d = false) (hl : (w.length : Int) < c.len) :
    ∀ (m k f : Nat), k + m = w.length → m + 1 ≤ f →
      identifier_loop c f (k : Int) = .ok (w.length : Int) := by
  intro m
  induction m with
  | zero =>
    intro k f hk hf
    obtain ⟨f, rfl⟩ : ∃ f', f = f' + 1 := ⟨f - 1, by omega⟩
    have hk' : k = w.length := by omega
    subst hk'
    have hne : c.len - (w.length : Int) ≠ 0 := by omega
    have hb : c.data[w.length]? = some d := by
      rw [hd, List.getElem?_append_right (le_refl _)]; simp
    have hdd' : lr_is_word_char d = false ∧ lr_is_digit d = false := by
      simpa [lr_is_identifier] using hdd
    simp [identifier_loop, hne, rd_of_getElem? _ _ _ hb, hdd'.1, hdd'.2]
  | succ m ih =>
    intro k f hk hf
    obtain ⟨f, rfl⟩ : ∃ f', f = f' + 1 := ⟨f - 1, by omega⟩
    have hkw : k < w.length := by omega
    have hne : c.len - (k : Int) ≠ 0 := by omega
    have hb : c.data[k]? = some w[k] := by
      rw [hd, List.getElem?_append_left hkw, List.getElem?_eq_getElem hkw]
    have hi : lr_is_identifier w[k] = true := hw _ (List.getElem_mem hkw)
    have hi' : (lr_is_word_char w[k] || lr_is_digit w[k]) = true := by
      simpa [lr_is_identifier] using hi
    have := ih (k + 1) f (by omega) (by omega)
    simp only [identifier_loop, hne, ne_eq, not_false_eq_true, if_true, rd_of_getElem? _ _ _ hb, hi']
    rw [← this]; push_cast; rfl

theorem lex_token_identifier (w : List Nat) (d : Nat) (rest : List Nat) (len : Int)
    (hw : identifier_text w = true) (hd : lr_is_identifier d = false)
    (hl : (w.length : Int) < len) :
    lex_token ⟨len, w ++ d :: rest⟩
      = .ok (⟨LR_TOKEN_IDENTIFIER, ⟨w.length, w ++ d :: rest⟩⟩,
             ⟨len - w.length, d :: rest⟩) := by
  cases w with
  | nil => simp [identifier_text] at hw
  | cons h t =>
    simp only [identifier_text, Bool.and_eq_true, List.all_eq_true] at hw
    obtain ⟨hh, ht⟩ := hw
    have hall : ∀ x ∈ h :: t, lr_is_identifier x = true := by
      intro x hx
      rcases List.mem_cons.1 hx with rfl | hx
      · simp [lr_is_identifier, hh]
      · exact ht x hx
    have hloop := identifier_loop_run ⟨len, (h :: t) ++ d :: rest⟩ (h :: t) d rest rfl hall hd hl
      t.length 1 (((h :: t) ++ d :: rest).length + 1) (by simp; omega) (by simp; omega)
    have hk := word_char_kind h hh
    have hdig : lr_is_digit h = false := by
      simp only [lr_is_word_char, lr_is_digit] at hh ⊢
      simp only [Bool.or_eq_true, Bool.and_eq_true, decide_eq_true_eq, beq_iff_eq] at hh
      simp only [Bool.and_eq_false_iff, decide_eq_false_iff_not]
      omega
    have h39 : (h == 39) = false := by
      simp only [lr_is_word_char] at hh
      simp only [Bool.or_eq_true, Bool.and_eq_true, decide_eq_true_eq, beq_iff_eq] at hh
      simp only [beq_eq_false_iff_ne]; omega
    have h34 : (h == 34) = false := by
      simp only [lr_is_word_char] at hh
      simp only [Bool.or_eq_true, Bool.and_eq_true, decide_eq_true_eq, beq_iff_eq] at hh
      simp only [beq_eq_false_iff_ne]; omega
    simp only [Nat.cast_one] at hloop
    simp only [lex_token, lr_lex_single_char_token, lr_lex_constant, lr_lex_string,
      lr_lex_identifier, List.cons_append, rd_zero_cons, hk, ne_eq, not_true_eq_false,
      if_false, hdig, h39, h34, hh, if_true, Bool.false_eq_true]
    simp only [List.cons_append] at hloop
    rw [hloop]
    simp [lr_slice_l, lr_slice_r]

theorem quoted_loop_run (q : Nat) (c : lr_slice_t) (body rest : List Nat)
    (hd : c.data = q :: (body ++ q :: rest)) (hb : ∀ x ∈ body, x ≠ q ∧ x ≠ 92)
    (hq : q ≠ 92) (hl : (body.length : Int) + 2 ≤ c.len) :
    ∀ (m k f : Nat), k + m = body.length → m + 1 ≤ f →
      quoted_loop q c f ((k : Int) + 1) = .ok ((body.length : Int) + 1) := by
  intro m
  induction m with
  | zero =>
    intro k f hk hf
    obtain ⟨f, rfl⟩ : ∃ f', f = f' + 1 := ⟨f - 1, by omega⟩
    have hk' : k = body.length := by omega
    subst hk'
    have hrd : c.data[body.length + 1]? = some q := by
      rw [hd, List.getElem?_cons_succ, List.getElem?_append_right (le_refl _)]; simp
    have hrd' := rd_of_getElem? _ _ _ hrd
    push_cast at hrd'
    have hq' : (q == 92) = false := by simpa using hq
    simp only [quoted_loop, hrd', hq', Bool.false_eq_true, if_false, beq_self_eq_true, if_true]
    split <;> rfl
  | succ m ih =>
    intro k f hk hf
    obtain ⟨f, rfl⟩ : ∃ f', f = f' + 1 := ⟨f - 1, by omega⟩
    have hkw : k < body.length := by omega
    have hne : c.len - ((k : Int) + 1) - 1 ≠ 0 := by omega
    have hrd : c.data[k + 1]? = some body[k] := by
      rw [hd, List.getElem?_cons_succ, List.getElem?_append_left hkw,
        List.getElem?_eq_getElem hkw]
    have hrd' := rd_of_getElem? _ _ _ hrd
    push_cast at hrd'
    have hx := hb _ (List.getElem_mem hkw)
    have h1 : (body[k] == 92) = false := by simpa using hx.2
    have h2 : (body[k] == q) = false := by simpa using hx.1
    have := ih (k + 1) f (by omega) (by omega)
    push_cast at this
    simp only [quoted_loop, hne, ne_eq, not_false_eq_true, if_true, hrd', h1, h2,
      Bool.false_eq_true, if_false]
    exact this

theorem lex_token_string (body rest : List Nat) (len : Int)
    (hb : ∀ x ∈ body, x ≠ 34 ∧ x ≠ 92) (hl : (body.length : Int) + 2 ≤ len) :
    lex_token ⟨len, 34 :: (body ++ 34 :: rest)⟩
      = .ok (⟨LR_TOKEN_STRING, ⟨(body.length : Int) + 1 + 1, 34 :: (body ++ 34 :: rest)⟩⟩,
             ⟨len - ((body.length : Int) + 1 + 1), rest⟩) := by
  have hloop := quoted_loop_run 34 ⟨len, 34 :: (body ++ 34 :: rest)⟩ body rest rfl hb
    (by decide) hl body.length 0 ((34 :: (body ++ 34 :: rest)).length + 1)
    (by omega) (by simp; omega)
  simp only [Nat.cast_zero, zero_add] at hloop
  have hk : single_char_kind 34 = LR_TOKEN_UNKNOWN := by decide
  have hdig : lr_is_digit 34 = false := by decide
  simp only [lex_token, lr_lex_single_char_token, lr_lex_constant, lr_lex_string,
    rd_zero_cons, hk, ne_eq, not_true_eq_false, if_false, hdig, Bool.false_eq_true,
    show ((34 : Nat) == 39) = false from by decide, beq_self_eq_true, if_true, hloop]
  have e : (Int.toNat ((body.length : Int) + 1 + 1)) = body.length + 1 + 1 := by omega
  simp [lr_slice_l, lr_slice_r, e]

theorem lex_file_loop_step (f : Nat) (c c1 c2 : lr_slice_t) (t : c_token_t)
    (acc : List c_token_t) (h0 : c.len ≠ 0)
    (he : lr_eat_whitespace_and_comments c = .ok c1) (h1 : c1.len ≠ 0)
    (ht : lex_token c1 = .ok (t, c2)) (h2 : c2.len ≥ 0) :
    lex_file_loop (f + 1) c acc = lex_file_loop f c2 (acc ++ [t]) := by
  simp [lex_file_loop, h0, he, h1, ht, h2]

theorem lex_file_loop_mono : ∀ (f : Nat) (c : lr_slice_t) (acc ts : List c_token_t),
    lex_file_loop f c acc = .ok ts → lex_file_loop (f + 1) c acc = .ok ts := by
  intro f
  induction f with
  | zero => intro c acc ts h; simp [lex_file_loop] at h
  | succ f ih =>
    intro c acc ts h
    rw [lex_file_loop] at h ⊢
    split at h
    · rename_i h0; rw [if_pos h0]; exact h
    · rename_i h0
      rw [if_neg h0]
      split at h
      · cases h
      · rename_i c1 hc1
        split at h
        · rename_i h1
          rw [if_pos h1]
          split at h
          · cases h
          · rename_i t c2 ht
            split at h
            · rename_i h2; rw [if_pos h2]; exact ih _ _ _ h
            · cases h
        · rename_i h1; rw [if_neg h1]; exact ih _ _ _ h

theorem lex_file_loop_mono_le (f g : Nat) (c : lr_slice_t) (acc ts : List c_token_t)
    (hfg : f ≤ g) (h : lex_file_loop f c acc = .ok ts) : lex_file_loop g c acc = .ok ts := by
  induction g with
  | zero => have : f = 0 := by omega
            subst this; exact h
  | succ g ih =>
    rcases Nat.lt_or_ge g f with hlt | hge
    · have : f = g + 1 := by omega
      subst this; exact h
    · exact lex_file_loop_mono _ _ _ _ (ih hge)

theorem lex_closing (f : Nat) (acc : List c_token_t) (len : Int) (h : len = 5) :
    lex_file_loop (f + 4) ⟨len, [41, 32, 123, 32, 125, 0]⟩ acc
      = .ok (acc ++ [⟨LR_TOKEN_R_PAREN, ⟨1, [41, 32, 123, 32, 125, 0]⟩⟩] ++
          [⟨LR_TOKEN_L_BRACE, ⟨1, [123, 32, 125, 0]⟩⟩] ++
          [⟨LR_TOKEN_R_BRACE, ⟨1, [125, 0]⟩⟩] ++ [⟨LR_TOKEN_EOF, ⟨0, [0]⟩⟩]) := by
  subst h
  rfl

theorem word_char_not_blank (h : Nat) (hh : lr_is_word_char h = true) :
    lr_is_whitespace h = false ∧ h ≠ 47 := by
  simp only [lr_is_word_char, Bool.or_eq_true, Bool.and_eq_true, decide_eq_true_eq,
    beq_iff_eq] at hh
  simp only [lr_is_whitespace, Bool.or_eq_false_iff, beq_eq_false_iff_ne,
    Bool.and_eq_false_iff, decide_eq_false_iff_not]
  omega

theorem lex_test_case_file (n : List Nat) (hn : identifier_text n = true) (L : Int)
    (hL : L = (n.length : Int) + 35) :
    lex_file_loop 10 ⟨L, 35 :: (s_include ++ 32 :: 34 :: (s_labrat_h ++ 34 :: 10 ::
      (s_TEST_CASE ++ 40 :: test_case_rest n)))⟩ [] = .ok (test_case_tokens n) := by
  have hpos : n ≠ [] := by intro h; subst h; simp [identifier_text] at hn
  obtain ⟨h, t, rfl⟩ := List.exists_cons_of_ne_nil hpos
  have hh : lr_is_word_char h = true := by
    simp only [identifier_text, Bool.and_eq_true] at hn; exact hn.1
  obtain ⟨hb1, hb2⟩ := word_char_not_blank h hh
  have hL1 : L = (t.length : Int) + 36 := by rw [hL]; simp; omega
  clear hL
  refine Eq.trans (lex_file_loop_step 9 _ _ _ _ [] (by simp; omega)
      (eat_stay 35 _ L (by omega) (by decide) (by decide)) (by simp; omega)
      (lex_token_single 35 _ L (by decide)) (by simp; omega)) ?_
  refine Eq.trans (lex_file_loop_step 8 _ _ _ _ _ (by simp; omega)
      (eat_stay 105 _ (L - 1) (by omega) (by decide) (by decide)) (by simp; omega)
      (lex_token_identifier s_include 32 _ (L - 1) (by decide) (by decide)
        (by simp [s_include]; omega)) (by simp [s_include]; omega)) ?_
  refine Eq.trans (lex_file_loop_step 7 _ _ _ _ _ (by simp [s_include]; omega)
      (eat_one 32 34 _ _ (by simp [s_include]; omega) (by decide) (by decide) (by decide))
      (by simp [s_include]; omega)
      (lex_token_string s_labrat_h _ _ (by decide) (by simp [s_include, s_labrat_h]; omega))
      (by simp [s_include, s_labrat_h]; omega)) ?_
  refine Eq.trans (lex_file_loop_step 6 _ _ _ _ _ (by simp [s_include, s_labrat_h]; omega)
      (eat_one 10 84 _ _ (by simp [s_include, s_labrat_h]; omega) (by decide) (by decide)
        (by decide))
      (by simp [s_include, s_labrat_h]; omega)
      (lex_token_identifier s_TEST_CASE 40 _ _ (by decide) (by decide)
        (by simp [s_include, s_labrat_h, s_TEST_CASE]; omega))
      (by simp [s_include, s_labrat_h, s_TEST_CASE]; omega)) ?_
  refine Eq.trans (lex_file_loop_step 5 _ _ _ _ _ (by simp [s_include, s_labrat_h, s_TEST_CASE]; omega)
      (eat_stay 40 _ _ (by simp [s_include, s_labrat_h, s_TEST_CASE]; omega) (by decide)
        (by decide))
      (by simp [s_include, s_labrat_h, s_TEST_CASE]; omega)
      (lex_token_single 40 _ _ (by decide))
      (by simp [s_include, s_labrat_h, s_TEST_CASE]; omega)) ?_
  refine Eq.trans (lex_file_loop_step 4 _ _ _ _ _ (by simp [s_include, s_labrat_h, s_TEST_CASE]; omega)
      (eat_stay h _ _ (by simp [s_include, s_labrat_h, s_TEST_CASE]; omega) hb1 hb2)
      (by simp [s_include, s_labrat_h, s_TEST_CASE]; omega)
      (lex_token_identifier (h :: t) 41 [32, 123, 32, 125, 0] _ hn (by decide)
        (by simp [s_include, s_labrat_h, s_TEST_CASE]; omega))
      (by simp [s_include, s_labrat_h, s_TEST_CASE]; omega)) ?_
  refine Eq.trans (lex_closing 0 _ _ (by simp [s_include, s_labrat_h, s_TEST_CASE]; omega)) ?_
  rfl

theorem lr_lex_file_test_case_file (n : List Nat) (hn : identifier_text n = true) :
    lr_lex_file ⟨(test_case_file n).length, test_case_file n ++ [0]⟩
      = .ok (test_case_tokens n) := by
  have hd : test_case_file n ++ [0] = 35 :: (s_include ++ 32 :: 34 :: (s_labrat_h ++ 34 :: 10 ::
      (s_TEST_CASE ++ 40 :: test_case_rest n))) := by
    simp [test_case_file, include_line, s_include, s_labrat_h, s_TEST_CASE, test_case_rest]
  have hlen : ((test_case_file n).length : Int) = (n.length : Int) + 35 := by
    simp [test_case_file, include_line, s_TEST_CASE]; omega
  have h := lex_test_case_file n hn _ hlen
  rw [← hd] at h
  exact lex_file_loop_mono_le 10 _ _ _ _ (by simp [test_case_file, include_line]) h

theorem text_of_test_name (n : List Nat) :
    (⟨n.length, test_case_rest n⟩ : lr_slice_t).bytes = n := by
  simp [lr_slice_t.bytes, test_case_rest]

theorem test_shape_test_case_tokens (n : List Nat) (hne : n ≠ s_lr_test_id) (j : Nat) :
    test_shape (test_case_tokens n) j ↔ j = 3 := by
  constructor
  · intro h
    have h1 := h.1
    have h2 := h.2.2.2.1
    have hj : j ≤ 6 := by simp [test_case_tokens] at h1; omega
    interval_cases j <;> first | rfl | (simp [kind_at, test_case_tokens] at h2)
  · rintro rfl
    refine ⟨by simp [test_case_tokens], by simp [kind_at, test_case_tokens], ?_,
      by simp [kind_at, test_case_tokens], by simp [kind_at, test_case_tokens], ?_,
      by simp [kind_at, test_case_tokens]⟩
    · simp [text_at, test_case_tokens, lr_slice_t.bytes, s_TEST_CASE]
    · simp only [text_at, test_case_tokens, List.getElem?_cons_succ, List.getElem?_cons_zero,
        Option.map_some', text_of_test_name, ne_eq, Option.some.injEq]
      exact hne

theorem bench_shape_test_case_tokens (n : List Nat) (j : Nat) :
    ¬ bench_shape (test_case_tokens n) j := by
  intro h
  have h1 := h.1
  have h2 := h.2.2.2.1
  have h3 := h.2.2.1
  have hj : j ≤ 4 := by simp [test_case_tokens] at h1; omega
  interval_cases j <;> first
    | (simp [kind_at, test_case_tokens] at h2; done)
    | (simp [text_at, test_case_tokens, lr_slice_t.bytes, s_TEST_CASE, s_BENCHMARK] at h3)

theorem include_matched_test_case_tokens (n : List Nat) :
    include_matched (test_case_tokens n) 0 := by
  refine ⟨by simp [test_case_tokens], by simp [kind_at, test_case_tokens],
    by simp [kind_at, test_case_tokens], ?_, by simp [kind_at, test_case_tokens], ?_⟩
  · simp [text_at, test_case_tokens, lr_slice_t.bytes, s_include]
  · simp [test_case_tokens, inner_bytes, s_labrat_h]

/-- Claim C4: for every identifier text `n` other than `__lr_test_id__`, the file
made of the include line and `TEST_CASE(n) { }` yields exactly one test
record, whose bytes are `n`, and no benchmark record. -/
theorem test_case_discovered (n : List Nat) (hn : identifier_text n = true)
    (hne : n ≠ s_lr_test_id) :
    main_file false (some (test_case_file n)) [] [] = .ok ([⟨n.length, n⟩], []) := by
  have hr : lr_read_file (some (test_case_file n))
      = some ⟨(test_case_file n).length, test_case_file n ++ [0]⟩ := by
    simp [lr_read_file, test_case_file, include_line]
  have hl := lr_lex_file_test_case_file n hn
  obtain ⟨hok, he⟩ := lr_lex_file_tokens _ _ _ hr hl
  have hv : ∀ t ∈ test_case_tokens n, t.slice.valid := fun t ht => (hok t ht).1
  have hlen : (test_case_tokens n).length = 10 := by simp [test_case_tokens]
  have hinc : match_labrat_include false (test_case_tokens n) (test_case_tokens n).length 0
      = .ok true := by
    rw [match_labrat_include_eq _ _ hok]
    simp [include_matched_test_case_tokens n]
  have hg := scan_tokens_closed (test_case_tokens n) (test_case_tokens n).length 0
    (test_case_tokens n).length 0 [] [] (le_refl _) (by omega)
    (fun i _ h2 => absurd h2 (by omega)) (fun _ => hinc)
  rw [Nat.zero_add] at hg
  simp only [main_file, hr, hl, bind, Except.bind]
  rw [hg, hlen]
  have hT := test_shape_test_case_tokens n hne
  have hB := bench_shape_test_case_tokens n
  have hms := fun j t b => match_shapes_eq (test_case_tokens n) j t b hv he
  rw [hlen] at hms
  simp [List.range', shape_records, hms, hT, hB, record_of]
  simp [test_case_tokens, text_of_test_name]

/-- Claim C1: on the file whose only byte is a double quote, `lr_lex_file` does
not return a token sequence: the string scanner reads past the terminating
zero byte of the buffer. -/
theorem lr_lex_file_lone_quote_faults :
    (lr_read_file (some [34])).map lr_lex_file = some (.error .out_of_bounds) := by
  decide

/-- Claim C2: with exactly the `n` bytes of the buffer readable, the string
scanner and the character scanner read at an index that is at least `n`: on
a lone quote (index 1 of 1 byte) and inside a hexadecimal escape (index 4 of
3 bytes). -/
theorem quoted_scan_reads_past_buffer :
    lr_lex_string ⟨1, [34]⟩ = .error .out_of_bounds ∧
    lr_lex_constant ⟨1, [39]⟩ = .error .out_of_bounds ∧
    lr_lex_string ⟨3, [34, 92, 120]⟩ = .error .out_of_bounds := by
  decide

/-- Claim C3: on the one-byte slice holding a double quote at the start of the
array `"a"`, the string scanner returns a token of 3 bytes, the remaining
length becomes -2 and the assertion of `lr_lex_file` fails; on the file whose
only byte is a single quote no token sequence is returned. -/
theorem string_token_overruns_slice :
    lr_lex_string ⟨1, [34, 97, 34, 0]⟩
      = .ok (some (⟨LR_TOKEN_STRING, ⟨3, [34, 97, 34, 0]⟩⟩, ⟨-2, [0]⟩)) ∧
    lr_lex_file ⟨1, [34, 97, 34, 0]⟩ = .error .assert_failed ∧
    (lr_read_file (some [39])).map lr_lex_file = some (.error .out_of_bounds) := by
  decide

/-- Claim C4 at the name `foo`. -/
theorem test_case_discovered_witness :
    identifier_text s_foo = true ∧ s_foo ≠ s_lr_test_id ∧
    main_file false (some (test_case_file s_foo)) [] [] = .ok ([⟨3, s_foo⟩], []) :=
  ⟨by decide, by decide, test_case_discovered s_foo (by decide) (by decide)⟩

/-- Claim C7 at position 3 of the tokens of the include line followed by
`TEST_CASE(foo) { }`. -/
theorem match_test_case_spec_witness :
    (∀ t ∈ test_case_tokens s_foo, t.slice.valid) ∧
    ∃ b id', match_test_case (test_case_tokens s_foo) (test_case_tokens s_foo).length 3
        no_identifier = .ok (b, id') ∧
      (b = true ↔ test_shape (test_case_tokens s_foo) 3) ∧
      (b = true → (test_case_tokens s_foo)[3 + 2]? = some id') ∧
      (b = false → id' = no_identifier) :=
  ⟨by decide, match_test_case_spec (test_case_tokens s_foo) 3 no_identifier (by decide)⟩

/-- Claim C8 at position 3 of the tokens of the include line followed by
`BENCHMARK(bench_one, n) { }`. -/
theorem match_benchmark_spec_witness :
    (∀ t ∈ tokens_of (benchmark_file [110]), t.slice.valid) ∧
    eof_terminated (tokens_of (benchmark_file [110])) ∧
    ∃ b id', match_benchmark (tokens_of (benchmark_file [110]))
        (tokens_of (benchmark_file [110])).length 3 no_identifier = .ok (b, id') ∧
      (b = true ↔ bench_shape (tokens_of (benchmark_file [110])) 3) ∧
      (b = true → (tokens_of (benchmark_file [110]))[3 + 2]? = some id') ∧
      (b = false → id' = no_identifier) :=
  ⟨by decide, by decide,
   match_benchmark_spec (tokens_of (benchmark_file [110])) 3 no_identifier (by decide)
     (by decide)⟩

/-- Claim C9, counterexample: the record pushed for `BENCHMARK(bench_one, n)` is
the 9 bytes of `bench_one` and nothing else, and the file with the parameter
name `iters` in place of `n` yields the very same registry: the parameter
name is not recorded. -/
theorem benchmark_parameter_not_recorded :
    main_file false (some (benchmark_file [110])) [] [] = .ok ([], [⟨9, s_bench_one⟩]) ∧
    main_file false (some (benchmark_file [105, 116, 101, 114, 115])) [] []
      = .ok ([], [⟨9, s_bench_one⟩]) :=
  ⟨by rfl, by rfl⟩

/-- Claim C9, amended: the file with `BENCHMARK(bench_one, n) { }` after the
include line yields no test record and exactly one benchmark record, whose
bytes are the name `bench_one`. -/
theorem benchmark_record_is_name_only :
    ∃ r, main_file false (some (benchmark_file [110])) [] [] = .ok ([], [r]) ∧
      r.bytes = s_bench_one ∧ r.len = 9 ∧ r.data = s_bench_one := by
  have h1 : main_file false (some (benchmark_file [110])) [] []
      = .ok ([], [(⟨9, s_bench_one⟩ : lr_slice_t)]) := by rfl
  have h2 : (⟨9, s_bench_one⟩ : lr_slice_t).bytes = s_bench_one := by decide
  exact ⟨_, h1, h2, rfl, rfl⟩

/-- Claim C10, counterexample: `TEST_CASE(__lr_bench_id__)` after the include
line yields a test record whose name is the reserved name `__lr_bench_id__`. -/
theorem test_record_named_bench_placeholder :
    ∃ tests benchmarks,
      main_file false (some (test_case_file s_lr_bench_id)) [] [] = .ok (tests, benchmarks) ∧
      ∃ r ∈ tests, r.bytes = s_lr_bench_id :=
  ⟨[⟨15, s_lr_bench_id⟩], [], by decide, ⟨15, s_lr_bench_id⟩, by decide, by decide⟩

/-- Claim C10, amended, at the file with `TEST_CASE(__lr_bench_id__) { }`. -/
theorem records_avoid_own_placeholder_witness :
    main_file false (some (test_case_file s_lr_bench_id)) [] []
      = .ok ([⟨15, s_lr_bench_id⟩], []) ∧
    (∀ r ∈ [(⟨15, s_lr_bench_id⟩ : lr_slice_t)], r.bytes ≠ s_lr_test_id) ∧
    (∀ r ∈ ([] : List lr_slice_t), r.bytes ≠ s_lr_bench_id) :=
  ⟨by decide,
   records_avoid_own_placeholder false (some (test_case_file s_lr_bench_id))
     [⟨15, s_lr_bench_id⟩] [] (by decide)⟩

theorem nul_ended_ne_nil (len : Int) : ¬ nul_ended [] len := by
  rintro ⟨h0, h1, _⟩
  simp at h1; omega

theorem skip_line_comment_total : ∀ (data : List Nat) (len : Int), nul_ended data len →
    ∃ s, skip_line_comment data len = .ok s ∧ s.data.length ≤ data.length := by
  intro data
  induction data with
  | nil => intro len h; exact absurd h (nul_ended_ne_nil len)
  | cons b rest ih =>
    intro len h
    simp only [skip_line_comment]
    split
    · rename_i hl
      split
      · obtain ⟨s, hs, hle⟩ := ih (len - 1) (nul_ended_tail _ _ _ h hl)
        exact ⟨s, hs, by simp; omega⟩
      · exact ⟨_, rfl, le_refl _⟩
    · exact ⟨_, rfl, le_refl _⟩

theorem skip_block_comment_total : ∀ (data : List Nat) (len : Int), nul_ended data len →
    ∃ s, skip_block_comment data len = .ok s ∧ s.data.length ≤ data.length := by
  intro data
  induction data with
  | nil => intro len h; exact absurd h (nul_ended_ne_nil len)
  | cons b rest ih =>
    intro len h
    simp only [skip_block_comment]
    split
    · rename_i hl
      have hrec : ∃ s, skip_block_comment rest (len - 1) = .ok s ∧
          s.data.length ≤ (b :: rest).length := by
        obtain ⟨s, hs, hle⟩ := ih (len - 1) (nul_ended_tail _ _ _ h hl)
        exact ⟨s, hs, by simp; omega⟩
      split
      · split
        · exact absurd (nul_ended_tail _ _ _ h hl) (nul_ended_ne_nil _)
        · split
          · exact ⟨_, rfl, le_refl _⟩
          · exact hrec
      · exact hrec
    · exact ⟨_, rfl, le_refl _⟩

theorem eat_loop_total : ∀ (fuel : Nat) (data : List Nat) (len : Int),
    nul_ended data len → data.length ≤ fuel →
    ∃ s, eat_loop fuel data len = .ok s ∧ s.data.length ≤ data.length := by
  intro fuel
  induction fuel with
  | zero =>
    intro data len h hf
    have := h.2.1; have := h.1
    omega
  | succ fuel ih =>
    intro data len h hf
    simp only [eat_loop]
    split
    · rename_i hl
      split
      · exact absurd h (nul_ended_ne_nil len)
      · rename_i b0 rest
        simp only [List.length_cons] at hf
        split
        · obtain ⟨s, hs, hle⟩ := ih rest (len - 1) (nul_ended_tail _ _ _ h hl) (by omega)
          exact ⟨s, hs, by simp; omega⟩
        · split
          · rename_i hc
            have hl1 : len > 1 := by simp at hc; exact hc.1
            split
            · exact absurd (nul_ended_tail _ _ _ h hl) (nul_ended_ne_nil _)
            · rename_i b1 rest2
              have h2 : nul_ended rest2 (len - 2) := by
                have := nul_ended_drop (b0 :: b1 :: rest2) len 2 h (by omega)
                simpa using this
              simp only [List.length_cons] at hf
              split
              · obtain ⟨s1, hs1, hle1⟩ := skip_line_comment_total rest2 (len - 2) h2
                rw [hs1]
                have h3 := skip_line_comment_inv _ _ _ h2 hs1
                obtain ⟨s, hs, hle⟩ := ih s1.data s1.len h3 (by omega)
                exact ⟨s, hs, by simp; omega⟩
              · split
                · obtain ⟨s1, hs1, hle1⟩ := skip_block_comment_total rest2 (len - 2) h2
                  rw [hs1]
                  have h3 := skip_block_comment_inv _ _ _ h2 hs1
                  simp only
                  split
                  · have h4 := nul_ended_drop s1.data s1.len 2 h3 (by omega)
                    obtain ⟨s, hs, hle⟩ := ih _ _ h4 (by simp; omega)
                    exact ⟨s, hs, by simp at hle ⊢; omega⟩
                  · have h4 := nul_ended_drop s1.data s1.len s1.len.toNat h3
                      (by have := h3.1; omega)
                    have e : s1.len - ↑s1.len.toNat = 0 := by have := h3.1; omega
                    rw [e] at h4
                    obtain ⟨s, hs, hle⟩ := ih _ _ h4 (by simp; omega)
                    exact ⟨s, hs, by simp at hle ⊢; omega⟩
                · exact ⟨_, rfl, le_refl _⟩
          · exact ⟨_, rfl, le_refl _⟩
    · exact ⟨_, rfl, le_refl _⟩

theorem eat_total (c : lr_slice_t) (h : nul_ended c.data c.len) :
    ∃ c1, lr_eat_whitespace_and_comments c = .ok c1 ∧ nul_ended c1.data c1.len ∧
      c1.len ≤ c.len := by
  obtain ⟨s, hs, hle⟩ := eat_loop_total (c.data.length + 1) c.data c.len h (by omega)
  have hi := eat_loop_inv _ _ _ _ h hs
  refine ⟨s, hs, hi, ?_⟩
  have := hi.2.1; have := h.2.1
  omega

theorem rd_error (p : List Nat) (i : Int) (e : Fault) (h : rd p i = .error e) :
    e = .out_of_bounds := by
  unfold rd at h
  split at h
  · cases h; rfl
  · split at h
    · cases h
    · cases h; rfl

theorem rd_ok_of_nul_ended (data : List Nat) (len i : Int) (h : nul_ended data len)
    (h0 : 0 ≤ i) (h1 : i ≤ len) : ∃ b, rd data i = .ok b := by
  obtain ⟨n, rfl⟩ := Int.eq_ofNat_of_zero_le h0
  have hlt : n < data.length := by have := h.2.1; omega
  exact ⟨_, rd_of_lt data n hlt⟩

theorem identifier_loop_total (c : lr_slice_t) (hc : nul_ended c.data c.len) :
    ∀ (f : Nat) (len : Int), 0 ≤ len → len ≤ c.len → c.len + 1 ≤ f + len →
      ∃ L, identifier_loop c f len = .ok L := by
  intro f
  induction f with
  | zero => intro len h0 h1 h2; omega
  | succ f ih =>
    intro len h0 h1 h2
    simp only [identifier_loop]
    split
    · obtain ⟨b, hb⟩ := rd_ok_of_nul_ended _ _ len hc h0 h1
      rw [hb]
      simp only
      split
      · exact ih (len + 1) (by omega) (by omega) (by push_cast at h2 ⊢; omega)
      · exact ⟨_, rfl⟩
    · exact ⟨_, rfl⟩

theorem number_loop_total (c : lr_slice_t) (hc : nul_ended c.data c.len) :
    ∀ (f : Nat) (len : Int), 0 ≤ len → len ≤ c.len → c.len + 1 ≤ f + len →
      ∃ L, number_loop c f len = .ok L := by
  intro f
  induction f with
  | zero => intro len h0 h1 h2; omega
  | succ f ih =>
    intro len h0 h1 h2
    simp only [number_loop]
    split
    · obtain ⟨b, hb⟩ := rd_ok_of_nul_ended _ _ len hc h0 h1
      rw [hb]
      simp only
      split
      · exact ⟨_, rfl⟩
      · exact ih (len + 1) (by omega) (by omega) (by push_cast at h2 ⊢; omega)
    · exact ⟨_, rfl⟩

theorem quoted_loop_fault (q : Nat) (c : lr_slice_t) (hc : nul_ended c.data c.len) :
    ∀ (f : Nat) (len : Int) (e : Fault), 0 ≤ len → len ≤ c.len + 1 → c.len + 2 ≤ f + len →
      quoted_loop q c f len = .error e → e = .out_of_bounds := by
  intro f
  induction f with
  | zero => intro len e h0 h1 h2; omega
  | succ f ih =>
    intro len e h0 h1 h2 h
    simp only [quoted_loop] at h
    split at h
    · split at h
      · rename_i e1 he1
        cases h
        exact rd_error _ _ _ he1
      · rename_i ch hch
        have hb := rd_ok_bound _ _ _ _ hc hch
        split at h
        · split at h
          · rename_i e1 he1
            cases h
            exact rd_error _ _ _ he1
          · split at h
            · exact ih _ e (by omega) (by omega) (by push_cast at h2 ⊢; omega) h
            · exact ih _ e (by omega) (by omega) (by push_cast at h2 ⊢; omega) h
        · split at h
          · cases h
          · exact ih _ e (by omega) (by omega) (by push_cast at h2 ⊢; omega) h
    · cases h

theorem lex_token_fault (c : lr_slice_t) (hc : nul_ended c.data c.len) (hl : 1 ≤ c.len)
    (e : Fault) (h : lex_token c = .error e) : e = .out_of_bounds := by
  obtain ⟨b0, hb0⟩ := rd_ok_of_nul_ended _ _ 0 hc (le_refl _) (by omega)
  have hlen : (c.data.length : Int) = c.len + 1 := hc.2.1
  have hq : ∀ q e1, quoted_loop q c (c.data.length + 1) 1 = .error e1 → e1 = .out_of_bounds :=
    fun q e1 => quoted_loop_fault q c hc _ 1 e1 (by omega) (by omega) (by push_cast; omega)
  obtain ⟨Ln, hLn⟩ := number_loop_total c hc (c.data.length + 1) 1 (by omega) hl
    (by push_cast; omega)
  obtain ⟨Li, hLi⟩ := identifier_loop_total c hc (c.data.length + 1) 1 (by omega) hl
    (by push_cast; omega)
  simp only [lex_token, lr_lex_single_char_token, lr_lex_constant, lr_lex_string,
    lr_lex_identifier, hb0, hLn, hLi] at h
  split at h
  · rename_i h1
    split at h1 <;> cases h1
  · cases h
  · split at h
    · rename_i h1
      split at h1
      · cases h1
      · split at h1
        · split at h1
          · rename_i e1 he1
            cases h1; cases h
            exact hq 39 _ he1
          · cases h1
        · cases h1
    · cases h
    · split at h
      · rename_i h1
        split at h1
        · split at h1
          · rename_i e1 he1
            cases h1; cases h
            exact hq 34 _ he1
          · cases h1
        · cases h1
      · cases h
      · split at h
        · rename_i h1
          split at h1 <;> cases h1
        · cases h
        · cases h

theorem lex_file_loop_fault : ∀ (f : Nat) (c : lr_slice_t) (acc : List c_token_t) (e : Fault),
    nul_ended c.data c.len → c.len + 2 ≤ f →
    lex_file_loop f c acc = .error e → e = .out_of_bounds := by
  intro f
  induction f with
  | zero => intro c acc e hc hf; have := hc.1; omega
  | succ f ih =>
    intro c acc e hc hf h
    simp only [lex_file_loop] at h
    split at h
    · cases h
    · rename_i hne
      obtain ⟨c1, hc1, hi1, hle⟩ := eat_total c hc
      rw [hc1] at h
      simp only at h
      have hcpos : 1 ≤ c.len := by have := hc.1; omega
      split at h
      · have hl : 1 ≤ c1.len := by have := hi1.1; omega
        split at h
        · rename_i e1 he1
          cases h
          exact lex_token_fault c1 hi1 hl _ he1
        · rename_i t c2 ht
          obtain ⟨L, ⟨hL1, hL2, hs, hr⟩, -, -⟩ := lex_token_consumed c1 (t, c2) hi1 hl ht
          simp only at hs hr
          obtain ⟨n, hn⟩ := Int.eq_ofNat_of_zero_le (show 0 ≤ L by omega)
          have hc2 : nul_ended c2.data c2.len := by
            rw [hr]
            have := nul_ended_drop c1.data c1.len n hi1 (by omega)
            simpa [lr_slice_r, hn] using this
          have hlen2 : c2.len = c1.len - L := by rw [hr]; rfl
          split at h
          · exact ih c2 _ e hc2 (by push_cast at hf ⊢; omega) h
          · omega
      · exact ih c1 _ e hi1 (by push_cast at hf ⊢; omega) h

/-- The scan of a file either returns its tokens or stops at a read outside the
buffer: on the buffers `lr_read_file` returns the fuel never runs out and the
assertion never fails. -/
theorem lr_lex_file_ok_or_out_of_bounds (f : Option (List Nat)) (s : lr_slice_t)
    (hr : lr_read_file f = some s) :
    (∃ ts, lr_lex_file s = .ok ts) ∨ lr_lex_file s = .error .out_of_bounds := by
  have hc := lr_read_file_nul_ended f s hr
  cases h : lr_lex_file s with
  | ok ts => exact Or.inl ⟨ts, rfl⟩
  | error e =>
    right
    have := lex_file_loop_fault _ s [] e hc (by have := hc.2.1; push_cast; omega) h
    rw [this]

theorem bytes_compare_eq_zero : ∀ (a b : List Nat), bytes_compare a b = 0 ↔ a = b := by
  intro a
  induction a with
  | nil => intro b; cases b <;> simp [bytes_compare]
  | cons x xs ih =>
    intro b
    cases b with
    | nil => simp [bytes_compare]
    | cons y ys =>
      simp only [bytes_compare, List.cons.injEq]
      by_cases h : x = y
      · simp [h, ih]
      · simp only [h, if_false, false_and, iff_false]
        split <;> omega

/-- What `lr_slices_equal` computes on two slices that lie inside their buffers:
true exactly when the lengths agree and the bytes differ. -/
theorem lr_slices_equal_eq (lhs rhs : lr_slice_t) (hl : lhs.valid) (hr : rhs.valid) :
    lr_slices_equal lhs rhs = .ok (decide (lhs.len = rhs.len ∧ lhs.bytes ≠ rhs.bytes)) := by
  obtain ⟨hl0, hl1⟩ := hl
  obtain ⟨hr0, hr1⟩ := hr
  by_cases h : lhs.len = rhs.len
  swap
  · simp [lr_slices_equal, h]
  · have hc : ¬ (lhs.len < 0 ∨ (lhs.data.length : Int) < lhs.len ∨
        (rhs.data.length : Int) < lhs.len) := by omega
    simp only [lr_slices_equal, h, ne_eq, not_true_eq_false, if_false, memcmp, true_and,
      lr_slice_t.bytes]
    rw [← h, if_neg hc]
    simp only
    congr 1
    rw [Bool.eq_iff_iff]
    simp [bytes_compare_eq_zero]

/-- Claim C16: `lr_slices_equal` returns false for a slice compared with itself
and for two empty slices, and true for two slices of one byte that differ:
the result of `memcmp` is tested with `!= 0`. -/
theorem lr_slices_equal_inverted :
    lr_slices_equal ⟨1, [97]⟩ ⟨1, [97]⟩ = .ok false ∧
    lr_slices_equal ⟨0, []⟩ ⟨0, []⟩ = .ok false ∧
    lr_slices_equal ⟨1, [97]⟩ ⟨1, [98]⟩ = .ok true := by
  decide

/-- Claim C18: on the slice `"ab\n` that ends the buffer without a closing quote
the escape jump passes the last byte and the string scanner reads outside
the buffer; so does the character scanner on a single quote that ends the
buffer; on the one-byte slice holding a single quote at the start of the
array `'a'` the character token is 3 bytes long, longer than the slice. -/
theorem quoted_token_passes_slice_end :
    lr_lex_string ⟨5, [34, 97, 98, 92, 110, 0]⟩ = .error .out_of_bounds ∧
    lr_lex_constant ⟨1, [39, 0]⟩ = .error .out_of_bounds ∧
    lr_lex_constant ⟨1, [39, 97, 39, 0]⟩
      = .ok (some (⟨LR_TOKEN_CHARACTER, ⟨3, [39, 97, 39, 0]⟩⟩, ⟨-2, [0]⟩)) := by
  decide

theorem main_loop_append (st : Bool) (fm : List Nat) : ∀ (F1 F2 : List source_file)
    (t b : List lr_slice_t),
    main_loop st fm (F1 ++ F2) t b =
      match main_loop st fm F1 t b with
      | .error e => .error e
      | .ok r => main_loop st fm F2 r.1 r.2 := by
  intro F1
  induction F1 with
  | nil => intro F2 t b; simp [main_loop]
  | cons f fs ih =>
    intro F2 t b
    simp only [List.cons_append, main_loop]
    split
    · exact ih F2 t b
    · cases main_file st f.contents t b with
      | error e => rfl
      | ok r => exact ih F2 r.1 r.2

/-- Claim C15: the loop over the files gives the same registry as on the list
with the files removed for which `lr_read_file` returns the null slice. -/
theorem unreadable_files_skipped (st : Bool) (fm : List Nat) (files : List source_file)
    (tests benchmarks : List lr_slice_t) :
    main_loop st fm files tests benchmarks =
      main_loop st fm (files.filter (fun f => (lr_read_file f.contents).isSome))
        tests benchmarks := by
  induction files generalizing tests benchmarks with
  | nil => rfl
  | cons f fs ih =>
    cases hr : lr_read_file f.contents with
    | none =>
      have hf : main_file st f.contents tests benchmarks = .ok (tests, benchmarks) := by
        simp [main_file, hr]
      simp only [List.filter_cons, hr, Option.isSome_none, Bool.false_eq_true, if_false,
        main_loop, hf]
      split
      · exact ih tests benchmarks
      · exact ih tests benchmarks
    | some s =>
      simp only [List.filter_cons, hr, Option.isSome_some, if_true, main_loop]
      split
      · exact ih tests benchmarks
      · cases main_file st f.contents tests benchmarks with
        | error e => rfl
        | ok r => exact ih r.1 r.2

/-- What the four ordering macros test: each fails exactly when `comp` stands
in the named relation to `actual` with the operands exchanged. -/
theorem ordering_asserts_eq (actual comp : Int) (passed : Bool) :
    ((ASSERT_GT actual comp passed).2 = true ↔ actual ≥ comp) ∧
    ((ASSERT_LT actual comp passed).2 = true ↔ actual ≤ comp) ∧
    ((ASSERT_GT_OR_EQ actual comp passed).2 = true ↔ actual > comp) ∧
    ((ASSERT_LT_OR_EQ actual comp passed).2 = true ↔ actual < comp) := by
  unfold ASSERT_GT ASSERT_LT ASSERT_GT_OR_EQ ASSERT_LT_OR_EQ
  refine ⟨?_, ?_, ?_, ?_⟩ <;> split <;> simp <;> omega

/-- Claim C22: `ASSERT_GT(43, 42)` fails the test although 43 is greater than 42,
and `ASSERT_GT(41, 42)` lets it pass although 41 is not; the three other
ordering macros are reversed the same way. -/
theorem ordering_asserts_reversed :
    ASSERT_GT 43 42 true = (false, true) ∧ ASSERT_GT 41 42 true = (true, false) ∧
    ASSERT_LT 41 42 true = (false, true) ∧ ASSERT_LT 43 42 true = (true, false) ∧
    ASSERT_GT_OR_EQ 43 42 true = (false, true) ∧ ASSERT_GT_OR_EQ 41 42 true = (true, false) ∧
    ASSERT_LT_OR_EQ 41 42 true = (false, true) ∧ ASSERT_LT_OR_EQ 43 42 true = (true, false) := by
  decide

theorem main_file_a :
    main_file false (three_files[0]).contents [] [] = .ok ([⟨1, [97]⟩], []) := by rfl

theorem main_file_b :
    main_file false (three_files[1]).contents [⟨1, [97]⟩] [] = .ok ([⟨1, [97]⟩], []) := by rfl

theorem main_file_c :
    main_file false (three_files[2]).contents [⟨1, [97]⟩] []
      = .ok ([⟨1, [97]⟩], [⟨1, [99]⟩]) := by rfl

theorem main_loop_three_files :
    main_loop false s_labrat_h three_files [] [] = .ok ([⟨1, [97]⟩], [⟨1, [99]⟩]) := by
  have ha := main_file_a
  have hb := main_file_b
  have hc := main_file_c
  have e1 : should_exclude_file false s_labrat_h [46, 47, 97, 46, 99] = false := by decide
  have e2 : should_exclude_file false s_labrat_h [46, 47, 98, 46, 99] = false := by decide
  have e3 : should_exclude_file false s_labrat_h [46, 47, 99, 46, 99] = false := by decide
  simp only [three_files, List.getElem_cons_zero, List.getElem_cons_succ] at ha hb hc
  simp only [three_files, main_loop, e1, e2, e3, ha, hb, hc, Bool.false_eq_true, if_false]

/-- Claim C14: for the three files the artifact is the six guard lines, the line
`TEST_DEFINITION(a)`, the line `BENCH_DEFINITION(c)` and the two `#undef`
lines; the byte `b` does not occur in it. -/
theorem three_files_artifact :
    main false s_labrat_h three_files
      = .ok (unlines [s_ifndef_test, s_define_test, s_endif, s_ifndef_bench, s_define_bench,
          s_endif, s_test_hook ++ [97, 41], s_bench_hook ++ [99, 41],
          s_undef_test, s_undef_bench]) ∧
    98 ∉ unlines [s_ifndef_test, s_define_test, s_endif, s_ifndef_bench, s_define_bench,
          s_endif, s_test_hook ++ [97, 41], s_bench_hook ++ [99, 41],
          s_undef_test, s_undef_bench] := by
  constructor
  · simp only [main, main_loop_three_files]
    rfl
  · decide

theorem identifier_char_ne (x : Nat) (h : lr_is_identifier x = true) : x ≠ 0 ∧ x ≠ 10 := by
  simp only [lr_is_identifier, lr_is_word_char, lr_is_digit, Bool.or_eq_true, Bool.and_eq_true,
    decide_eq_true_eq, beq_iff_eq] at h
  omega

theorem identifier_text_chars (w : List Nat) (h : identifier_text w = true) :
    ∀ x ∈ w, lr_is_identifier x = true := by
  cases w with
  | nil => simp [identifier_text] at h
  | cons a t =>
    simp only [identifier_text, Bool.and_eq_true, List.all_eq_true] at h
    intro x hx
    rcases List.mem_cons.1 hx with rfl | hx
    · simp [lr_is_identifier, h.1]
    · exact h.2 x hx

theorem print_precision_s_eq : ∀ (n : Nat) (data : List Nat), n ≤ data.length →
    0 ∉ data.take n → print_precision_s n data = .ok (data.take n) := by
  intro n
  induction n with
  | zero => intro data _ _; simp [print_precision_s]
  | succ n ih =>
    intro data hn h0
    cases data with
    | nil => simp at hn
    | cons b rest =>
      simp only [List.take_succ_cons, List.mem_cons, not_or] at h0
      have hb : b ≠ 0 := fun h => h0.1 h.symm
      simp only [List.length_cons] at hn
      simp [print_precision_s, hb, ih rest (by omega) h0.2]

theorem print_slice_eq (r : lr_slice_t) (hv : r.valid) (h0 : 0 ∉ r.bytes) :
    print_slice r = .ok r.bytes := by
  obtain ⟨h1, h2⟩ := hv
  have hneg : ¬ r.len < 0 := by omega
  simp only [print_slice, hneg, if_false]
  exact print_precision_s_eq _ _ (by omega) h0

theorem unlines_append (a b : List (List Nat)) : unlines (a ++ b) = unlines a ++ unlines b := by
  induction a with
  | nil => simp [unlines]
  | cons x xs ih =>
    simp only [unlines, List.cons_append, List.foldr_cons, List.append_assoc] at ih ⊢
    rw [ih]

theorem write_definitions_eq (hook : List Nat) : ∀ (rs : List lr_slice_t),
    (∀ r ∈ rs, r.valid ∧ 0 ∉ r.bytes) →
    write_definitions hook rs
      = .ok (unlines (rs.map (fun r => hook ++ r.bytes ++ [41]))) := by
  intro rs
  induction rs with
  | nil => intro _; simp [write_definitions, unlines]
  | cons r rest ih =>
    intro h
    have hr := h r (List.mem_cons_self _ _)
    have hrest := ih (fun x hx => h x (List.mem_cons_of_mem _ hx))
    simp [write_definitions, print_slice_eq r hr.1 hr.2, hrest, unlines]

/-- Claim C13: for test and benchmark names that are identifier texts, the text
written by `lr_write_data_header` is, line by line, the six guard lines, one
line `TEST_DEFINITION(name)` per test in list order, one line
`BENCH_DEFINITION(name)` per benchmark in list order and the two `#undef`
lines; these are 8 + tests + benchmarks lines and none holds a newline. -/
theorem artifact_text (tests benchmarks : List lr_slice_t)
    (ht : ∀ r ∈ tests, r.valid ∧ identifier_text r.bytes = true)
    (hb : ∀ r ∈ benchmarks, r.valid ∧ identifier_text r.bytes = true) :
    lr_write_data_header tests benchmarks
      = .ok (unlines (artifact_lines (tests.map (fun r => r.bytes))
          (benchmarks.map (fun r => r.bytes)))) ∧
    (artifact_lines (tests.map (fun r => r.bytes))
        (benchmarks.map (fun r => r.bytes))).length = 8 + tests.length + benchmarks.length ∧
    ∀ l ∈ artifact_lines (tests.map (fun r => r.bytes)) (benchmarks.map (fun r => r.bytes)),
      10 ∉ l := by
  have hz : ∀ (rs : List lr_slice_t), (∀ r ∈ rs, r.valid ∧ identifier_text r.bytes = true) →
      ∀ r ∈ rs, r.valid ∧ 0 ∉ r.bytes := by
    intro rs h r hr
    refine ⟨(h r hr).1, fun h0 => ?_⟩
    exact (identifier_char_ne 0 (identifier_text_chars _ (h r hr).2 0 h0)).1 rfl
  have hn : ∀ (rs : List lr_slice_t), (∀ r ∈ rs, r.valid ∧ identifier_text r.bytes = true) →
      ∀ r ∈ rs, 10 ∉ r.bytes := by
    intro rs h r hr h0
    exact (identifier_char_ne 10 (identifier_text_chars _ (h r hr).2 10 h0)).2 rfl
  refine ⟨?_, ?_, ?_⟩
  · simp only [lr_write_data_header, write_definitions_eq _ tests (hz tests ht),
      write_definitions_eq _ benchmarks (hz benchmarks hb), artifact_lines, unlines_append,
      List.map_map]
    simp [unlines, Function.comp]
    rfl
  · simp [artifact_lines]; omega
  · intro l hl
    simp only [artifact_lines, List.mem_append, List.mem_map, List.mem_cons,
      List.mem_singleton, List.not_mem_nil, or_false] at hl
    rcases hl with ((h | ⟨n, ⟨r, hr, rfl⟩, rfl⟩) | ⟨n, ⟨r, hr, rfl⟩, rfl⟩) | h
    · rcases h with rfl | rfl | rfl | rfl | rfl | rfl <;> decide
    · have := hn tests ht r hr
      simp only [List.mem_append, List.mem_singleton, not_or]
      exact ⟨⟨by decide, this⟩, by decide⟩
    · have := hn benchmarks hb r hr
      simp only [List.mem_append, List.mem_singleton, not_or]
      exact ⟨⟨by decide, this⟩, by decide⟩
    · rcases h with rfl | rfl <;> decide

/-- Claim C13 at the registry of one test `foo` and one benchmark `bench_one`. -/
theorem artifact_text_witness :
    (∀ r ∈ [(⟨3, s_foo⟩ : lr_slice_t)], r.valid ∧ identifier_text r.bytes = true) ∧
    (∀ r ∈ [(⟨9, s_bench_one⟩ : lr_slice_t)], r.valid ∧ identifier_text r.bytes = true) ∧
    lr_write_data_header [⟨3, s_foo⟩] [⟨9, s_bench_one⟩]
      = .ok (unlines (artifact_lines [s_foo] [s_bench_one])) ∧
    (artifact_lines [s_foo] [s_bench_one]).length = 8 + 1 + 1 :=
  ⟨by decide, by decide,
   (artifact_text [⟨3, s_foo⟩] [⟨9, s_bench_one⟩] (by decide) (by decide)).1,
   (artifact_text [⟨3, s_foo⟩] [⟨9, s_bench_one⟩] (by decide) (by decide)).2.1⟩

theorem match_shapes_add (ts : List c_token_t) (ct j : Nat) (t b : List lr_slice_t) :
    match_shapes ts ct j t b = add_records t b (match_shapes ts ct j [] []) := by
  simp only [match_shapes, bind, Except.bind, pure, Except.pure]
  cases match_test_case ts ct j no_identifier with
  | error e => rfl
  | ok r =>
    simp only
    cases r.1 with
    | true =>
      simp only [if_true]
      cases lr_copy_slice r.2.slice with
      | error e => rfl
      | ok n => simp [add_records]
    | false =>
      simp only [Bool.false_eq_true, if_false]
      cases match_benchmark ts ct j no_identifier with
      | error e => rfl
      | ok r2 =>
        simp only
        cases r2.1 with
        | true =>
          simp only [if_true]
          cases lr_copy_slice r2.2.slice with
          | error e => rfl
          | ok n => simp [add_records]
        | false => simp [add_records]

theorem add_records_add (t b t1 b1 : List lr_slice_t)
    (x : Except Fault (List lr_slice_t × List lr_slice_t)) :
    add_records t b (add_records t1 b1 x) = add_records (t ++ t1) (b ++ b1) x := by
  cases x with
  | error e => rfl
  | ok r => simp [add_records]

theorem add_records_nil (x : Except Fault (List lr_slice_t × List lr_slice_t)) :
    add_records [] [] x = x := by
  cases x with
  | error e => rfl
  | ok r => simp [add_records]

theorem scan_tokens_add (st : Bool) (ts : List c_token_t) (ct : Nat) :
    ∀ (k j : Nat) (inc : Bool) (t b : List lr_slice_t),
      scan_tokens st ts ct k j inc t b
        = add_records t b (scan_tokens st ts ct k j inc [] []) := by
  intro k
  induction k with
  | zero => intro j inc t b; simp [scan_tokens, add_records]
  | succ k ih =>
    intro j inc t b
    have hopen : (match_shapes ts ct j t b >>=
          fun r => scan_tokens st ts ct k (j + 1) true r.1 r.2)
        = add_records t b (match_shapes ts ct j [] [] >>=
          fun r => scan_tokens st ts ct k (j + 1) true r.1 r.2) := by
      rw [match_shapes_add ts ct j t b]
      cases match_shapes ts ct j [] [] with
      | error e => rfl
      | ok r =>
        simp only [add_records, ok_bind]
        rw [ih (j + 1) true (t ++ r.1) (b ++ r.2), ih (j + 1) true r.1 r.2]
        exact (add_records_add t b r.1 r.2 _).symm
    rw [scan_tokens, scan_tokens]
    cases inc with
    | true => simp only [if_true]; exact hopen
    | false =>
      simp only [Bool.false_eq_true, if_false]
      cases match_labrat_include st ts ct j with
      | error e => rfl
      | ok inc1 =>
        rw [ok_bind, ok_bind]
        cases inc1 with
        | true => simp only [if_true]; exact hopen
        | false => simp only [Bool.false_eq_true, if_false]; exact ih (j + 1) false t b

theorem main_file_add (st : Bool) (f : Option (List Nat)) (t b : List lr_slice_t) :
    main_file st f t b = add_records t b (main_file st f [] []) := by
  unfold main_file
  cases lr_read_file f with
  | none => simp [add_records]
  | some s =>
    simp only [bind, Except.bind]
    cases lr_lex_file s with
    | error e => rfl
    | ok ts => exact scan_tokens_add st ts _ _ _ _ t b

theorem main_loop_add (st : Bool) (uf : List Nat) : ∀ (files : List source_file)
    (t b : List lr_slice_t),
    main_loop st uf files t b = add_records t b (main_loop st uf files [] []) := by
  intro files
  induction files with
  | nil => intro t b; simp [main_loop, add_records]
  | cons f fs ih =>
    intro t b
    simp only [main_loop]
    split
    · exact ih t b
    · rw [main_file_add st f.contents t b]
      cases main_file st f.contents [] [] with
      | error e => rfl
      | ok r =>
        simp only [add_records]
        rw [ih (t ++ r.1) (b ++ r.2), ih r.1 r.2]
        exact (add_records_add t b r.1 r.2 _).symm

theorem shapes_exclusive (ts : List c_token_t) (j : Nat) (h : test_shape ts j) :
    ¬ bench_shape ts j := by
  intro hb
  have h1 := h.2.2.1
  have h2 := hb.2.2.1
  rw [h1] at h2
  exact absurd (Option.some.inj h2) (by decide)

theorem shape_records_eq (ts : List c_token_t) (hv : ∀ t ∈ ts, t.slice.valid)
    (he : eof_terminated ts) : ∀ (js : List Nat) (t b : List lr_slice_t),
    shape_records ts ts.length js t b =
      .ok (t ++ (js.filter (fun j => decide (test_shape ts j))).map
              (fun j => record_of ((ts[j + 2]?).getD no_identifier)),
           b ++ (js.filter (fun j => decide (bench_shape ts j))).map
              (fun j => record_of ((ts[j + 2]?).getD no_identifier))) := by
  intro js
  induction js with
  | nil => intro t b; simp [shape_records]
  | cons j js ih =>
    intro t b
    simp only [shape_records, match_shapes_eq ts j t b hv he]
    by_cases h1 : test_shape ts j
    · have h2 := shapes_exclusive ts j h1
      simp [h1, h2, ih]
    · by_cases h3 : bench_shape ts j
      · simp [h1, h3, ih]
      · simp [h1, h3, ih]

theorem scan_tokens_gate (st : Bool) (ts : List c_token_t) (ct g : Nat) :
    ∀ (k j : Nat) (tests benchmarks : List lr_slice_t), j ≤ g → g ≤ j + k →
      (∀ i, j ≤ i → i < g → match_labrat_include st ts ct i = .ok false) →
      (g < j + k → match_labrat_include st ts ct g = .ok true) →
      scan_tokens st ts ct k j false tests benchmarks
        = shape_records ts ct (List.range' g (j + k - g)) tests benchmarks := by
  intro k
  induction k with
  | zero =>
    intro j t b h1 h2 _ _
    have : j + 0 - g = 0 := by omega
    rw [this]
    simp [scan_tokens, shape_records]
  | succ k ih =>
    intro j t b h1 h2 hb ha
    rcases Nat.lt_or_ge j g with hlt | hge
    · have hj := hb j (le_refl _) hlt
      simp only [scan_tokens, Bool.false_eq_true, if_false, hj, bind, Except.bind]
      have := ih (j + 1) t b (by omega) (by omega) (fun i hi1 hi2 => hb i (by omega) hi2)
        (fun hg => ha (by omega))
      rw [this]
      congr 2; omega
    · have hjg : j = g := by omega
      subst hjg
      have hj := ha (by omega)
      have e : j + (k + 1) - j = k + 1 := by omega
      simp only [scan_tokens, Bool.false_eq_true, if_false, hj, bind, Except.bind, if_true, e,
        List.range'_succ, shape_records]
      cases match_shapes ts ct j t b with
      | error e => rfl
      | ok r => exact scan_tokens_open st ts ct k (j + 1) r.1 r.2

/-- Claim C12: the registry of the file list `F1 ++ F2` is the registry of `F1`
followed by the registry of `F2`; in one file whose gate opens at token `g`
the records are the shape matches from `g` on by increasing position of
their first token; so for two files with one test each the name of the first
file comes first. -/
theorem discovery_order (st : Bool) (uf : List Nat) (F1 F2 : List source_file)
    (r1 r2 : List lr_slice_t × List lr_slice_t)
    (h1 : main_loop st uf F1 [] [] = .ok r1) (h2 : main_loop st uf F2 [] [] = .ok r2) :
    main_loop st uf (F1 ++ F2) [] [] = .ok (r1.1 ++ r2.1, r1.2 ++ r2.2) ∧
    (∀ (f : Option (List Nat)) (s : lr_slice_t) (ts : List c_token_t) (g : Nat),
      lr_read_file f = some s → lr_lex_file s = .ok ts → g ≤ ts.length →
      (∀ j, j < g → match_labrat_include st ts ts.length j = .ok false) →
      (g < ts.length → match_labrat_include st ts ts.length g = .ok true) →
      main_file st f [] [] = .ok (tests_from ts g, benchmarks_from ts g)) ∧
    (∀ a b, r1.1 = [a] → r2.1 = [b] →
      ∃ bs, main_loop st uf (F1 ++ F2) [] [] = .ok ([a, b], bs)) := by
  have hcat : main_loop st uf (F1 ++ F2) [] [] = .ok (r1.1 ++ r2.1, r1.2 ++ r2.2) := by
    rw [main_loop_append, h1]
    simp only
    rw [main_loop_add, h2]
    rfl
  refine ⟨hcat, ?_, ?_⟩
  · intro f s ts g hr hl hg hbefore hat
    obtain ⟨hok, he⟩ := lr_lex_file_tokens f s ts hr hl
    have hv : ∀ t ∈ ts, t.slice.valid := fun t ht => (hok t ht).1
    have hscan := scan_tokens_gate st ts ts.length g ts.length 0 [] [] (by omega) (by omega)
      (fun i _ hi => hbefore i hi) (fun h => hat (by omega))
    rw [Nat.zero_add] at hscan
    simp only [main_file, hr, hl, bind, Except.bind]
    rw [hscan, shape_records_eq ts hv he]
    simp [tests_from, benchmarks_from]
  · intro a b ha hb
    exact ⟨r1.2 ++ r2.2, by rw [hcat, ha, hb]; rfl⟩

/-- Claim C12 at the two files `./a.c` and `./b.c`, one test each. -/
theorem discovery_order_witness :
    main_loop false s_labrat_h [file_a] [] [] = .ok ([⟨1, [97]⟩], []) ∧
    main_loop false s_labrat_h [file_b] [] [] = .ok ([⟨1, [98]⟩], []) ∧
    main_loop false s_labrat_h ([file_a] ++ [file_b]) [] []
      = .ok ([⟨1, [97]⟩] ++ [⟨1, [98]⟩], [] ++ []) :=
  ⟨by rfl, by rfl,
   (discovery_order false s_labrat_h [file_a] [file_b] ([⟨1, [97]⟩], []) ([⟨1, [98]⟩], [])
      (by rfl) (by rfl)).1⟩

theorem strrchr_none (s : List Nat) (c : Nat) : strrchr s c = none ↔ c ∉ s := by
  induction s with
  | nil => simp [strrchr]
  | cons b rest ih =>
    simp only [strrchr, List.mem_cons, not_or]
    cases h : strrchr rest c with
    | some p =>
      have : ¬ (c ∉ rest) := fun hn => by rw [ih.2 hn] at h; cases h
      simp [this]
    | none =>
      have hn := ih.1 h
      by_cases hb : b = c
      · simp [hb]
      · have hb' : ¬ c = b := fun e => hb e.symm
        simp [hb, hb', hn]

theorem any_eq_false_of_not_mem (s : List Nat) (c : Nat) (h : c ∉ s) :
    s.any (fun b => b == c) = false := by
  simp only [List.any_eq_false, beq_iff_eq]
  intro x hx e
  exact h (e ▸ hx)

theorem strrchr_some (s : List Nat) (c : Nat) (p : List Nat) (h : strrchr s c = some p) :
    p.drop 1 = after_last (fun b => b == c) s := by
  induction s with
  | nil => simp [strrchr] at h
  | cons b rest ih =>
    simp only [strrchr] at h
    cases hr : strrchr rest c with
    | some q =>
      rw [hr] at h
      simp only [Option.some.injEq] at h
      subst h
      have hmem : c ∈ rest := by
        by_contra hn
        rw [(strrchr_none rest c).2 hn] at hr
        cases hr
      have hany : rest.any (fun b => b == c) = true := by
        simp only [List.any_eq_true, beq_iff_eq]
        exact ⟨c, hmem, rfl⟩
      simp only [after_last, hany, if_true]
      exact ih hr
    | none =>
      simp only [hr] at h
      have hn := (strrchr_none rest c).1 hr
      have hany := any_eq_false_of_not_mem rest c hn
      by_cases hb : b = c
      · simp only [hb, if_true, Option.some.injEq] at h
        subst h
        simp [after_last, hany, hb]
      · simp [hb] at h

theorem after_last_of_not_mem (s : List Nat) (c : Nat) (h : c ∉ s) :
    after_last (fun b => b == c) s = s := by
  cases s with
  | nil => rfl
  | cons b rest =>
    simp only [List.mem_cons, not_or] at h
    have hb : (b == c) = false := by
      simp only [beq_eq_false_iff_ne]
      exact fun e => h.1 e.symm
    simp [after_last, any_eq_false_of_not_mem rest c h.2, hb]

/-- The macro `_LR_DIR` in terms of `after_last`. -/
theorem LR_DIR_eq (file : List Nat) :
    _LR_DIR file = if 92 ∈ file then after_last (fun b => b == 92) file
                   else after_last (fun b => b == 47) file := by
  unfold _LR_DIR
  cases h : strrchr file 92 with
  | some p =>
    have hm : 92 ∈ file := by
      by_contra hn
      rw [(strrchr_none file 92).2 hn] at h
      cases h
    simp only [hm, if_true]
    exact strrchr_some file 92 p h
  | none =>
    have hm := (strrchr_none file 92).1 h
    simp only [hm, if_false]
    cases h2 : strrchr file 47 with
    | some p => exact strrchr_some file 47 p h2
    | none => exact (after_last_of_not_mem file 47 ((strrchr_none file 47).1 h2)).symm

theorem after_last_congr (p q : Nat → Bool) : ∀ (s : List Nat), (∀ x ∈ s, p x = q x) →
    after_last p s = after_last q s := by
  intro s
  induction s with
  | nil => intro _; rfl
  | cons b rest ih =>
    intro h
    have hb := h b (List.mem_cons_self _ _)
    have hrest : ∀ x ∈ rest, p x = q x := fun x hx => h x (List.mem_cons_of_mem _ hx)
    have hany : rest.any p = rest.any q := by
      rw [Bool.eq_iff_iff]
      simp only [List.any_eq_true]
      constructor
      · rintro ⟨x, hx, hp⟩; exact ⟨x, hx, by rw [← hrest x hx]; exact hp⟩
      · rintro ⟨x, hx, hp⟩; exact ⟨x, hx, by rw [hrest x hx]; exact hp⟩
    simp only [after_last, hany, hb, ih hrest]

theorem final_component_no_backslash (s : List Nat) (h : 92 ∉ s) :
    final_component s = after_last (fun b => b == 47) s := by
  apply after_last_congr
  intro x hx
  have : (x == 92) = false := by
    simp only [beq_eq_false_iff_ne]
    exact fun e => h (e ▸ hx)
  simp [this]

theorem final_component_backslash : ∀ (s : List Nat), 92 ∈ s →
    47 ∉ after_last (fun b => b == 92) s →
    final_component s = after_last (fun b => b == 92) s := by
  intro s
  induction s with
  | nil => intro h; simp at h
  | cons b rest ih =>
    intro hm h47
    by_cases hany : rest.any (fun b => b == 92) = true
    · have hmem : 92 ∈ rest := by
        simp only [List.any_eq_true, beq_iff_eq] at hany
        obtain ⟨x, hx, rfl⟩ := hany
        exact hx
      have hany2 : rest.any (fun b => b == 47 || b == 92) = true := by
        simp only [List.any_eq_true]
        exact ⟨92, hmem, by decide⟩
      simp only [after_last, hany, if_true] at h47
      have := ih hmem h47
      simp only [final_component] at this ⊢
      simp only [after_last, hany, hany2, if_true]
      exact this
    · have hnr : 92 ∉ rest := by
        intro hx
        apply hany
        simp only [List.any_eq_true, beq_iff_eq]
        exact ⟨92, hx, rfl⟩
      have hany' : rest.any (fun b => b == 92) = false := any_eq_false_of_not_mem rest 92 hnr
      have hb : b = 92 := by
        rcases List.mem_cons.1 hm with e | e
        · exact e.symm
        · exact absurd e hnr
      subst hb
      simp only [after_last, hany', Bool.false_eq_true, if_false, beq_self_eq_true,
        if_true] at h47
      have hany2 : rest.any (fun b => b == 47 || b == 92) = false := by
        simp only [List.any_eq_false, Bool.or_eq_true, beq_iff_eq, not_or]
        intro x hx
        exact ⟨fun e => h47 (e ▸ hx), fun e => hnr (e ▸ hx)⟩
      simp [final_component, after_last, hany', hany2]

theorem strcmp_eq_zero (a b : List Nat) : strcmp a b = 0 ↔ a = b :=
  bytes_compare_eq_zero a b

/-- What `should_exclude_file` computes: in normal mode whether `_LR_DIR` of the
path equals `_LR_DIR(__FILE__)`, in self-test mode the opposite. -/
theorem should_exclude_file_eq (st : Bool) (uf path : List Nat) :
    should_exclude_file st uf path
      = if st then !decide (_LR_DIR path = _LR_DIR uf) else decide (_LR_DIR path = _LR_DIR uf) := by
  unfold should_exclude_file _LR_FILENAME
  by_cases h : _LR_DIR path = _LR_DIR uf
  · have : strcmp (_LR_DIR uf) (_LR_DIR uf) = 0 := (strcmp_eq_zero _ _).2 rfl
    cases st <;> simp [h, this]
  · have : ¬ strcmp (_LR_DIR path) (_LR_DIR uf) = 0 := fun e => h ((strcmp_eq_zero _ _).1 e)
    cases st <;> simp [h, this]

/-- Claim C17, counterexample: the final component of the path `a\b/labrat.h` is
`labrat.h`, yet in normal mode the file is not excluded and in self-test
mode it is: `_LR_DIR` takes the text after the backslash, `b/labrat.h`. -/
theorem mixed_separators_not_excluded :
    final_component mixed_path = s_labrat_h ∧
    should_exclude_file false s_labrat_h mixed_path = false ∧
    should_exclude_file true s_labrat_h mixed_path = true := by
  decide

/-- Claim C17, amended: when `__FILE__` names `labrat.h` and no slash follows the
last backslash of the path, `should_exclude_file` returns true in normal
mode exactly when the final component of the path is `labrat.h`, and the
opposite in self-test mode. -/
theorem exclude_by_final_component (uf path : List Nat) (hu : _LR_DIR uf = s_labrat_h)
    (hp : 92 ∈ path → 47 ∉ after_last (fun b => b == 92) path) :
    should_exclude_file false uf path = decide (final_component path = s_labrat_h) ∧
    should_exclude_file true uf path = !decide (final_component path = s_labrat_h) := by
  have hd : _LR_DIR path = final_component path := by
    rw [LR_DIR_eq]
    by_cases h : 92 ∈ path
    · simp only [h, if_true]
      exact (final_component_backslash path h (hp h)).symm
    · simp only [h, if_false]
      exact (final_component_no_backslash path h).symm
  simp [should_exclude_file_eq, hu, hd]

/-- Claim C17, amended, at the path `./labrat.h` with `__FILE__` being
`labrat.h`. -/
theorem exclude_by_final_component_witness :
    _LR_DIR s_labrat_h = s_labrat_h ∧
    (92 ∈ [46, 47, 108, 97, 98, 114, 97, 116, 46, 104] →
      47 ∉ after_last (fun b => b == 92) [46, 47, 108, 97, 98, 114, 97, 116, 46, 104]) ∧
    should_exclude_file false s_labrat_h [46, 47, 108, 97, 98, 114, 97, 116, 46, 104]
      = decide (final_component [46, 47, 108, 97, 98, 114, 97, 116, 46, 104] = s_labrat_h) ∧
    should_exclude_file true s_labrat_h [46, 47, 108, 97, 98, 114, 97, 116, 46, 104]
      = !decide (final_component [46, 47, 108, 97, 98, 114, 97, 116, 46, 104] = s_labrat_h) :=
  ⟨by decide, by decide,
   exclude_by_final_component s_labrat_h [46, 47, 108, 97, 98, 114, 97, 116, 46, 104]
     (by decide) (by decide)⟩

theorem lookup_punctuation (b : Nat) :
    punctuation_table.lookup b =
      if single_char_kind b = LR_TOKEN_UNKNOWN then none else some (single_char_kind b) := by
  generalize hk : single_char_kind b = k
  unfold single_char_kind at hk
  split at hk <;> subst hk <;> first
    | rfl
    | (rename_i h1 h2 h3 h4 h5 h6 h7 h8 h9 h10 h11 h12 h13 h14 h15 h16 h17 h18 h19 h20 h21
       have e : ∀ k : Nat, (b = k → False) → (b == k) = false := fun k hk => by simpa using hk
       simp only [punctuation_table, List.lookup, if_true, e 40 h1, e 41 h2, e 123 h3,
         e 125 h4, e 91 h5, e 93 h6, e 42 h7, e 44 h8,
         e 46 h9, e 45 h10, e 43 h11, e 33 h12, e 126 h13, e 92 h14, e 47 h15, e 61 h16,
         e 38 h17, e 35 h18, e 59 h19, e 58 h20, e 63 h21])

theorem first_byte_kind_eq (b : Nat) :
    first_byte_kind b =
      if single_char_kind b ≠ LR_TOKEN_UNKNOWN then single_char_kind b
      else if lr_is_digit b then LR_TOKEN_NUMBER
      else if b = 34 then LR_TOKEN_STRING
      else if b = 39 then LR_TOKEN_CHARACTER
      else if lr_is_word_char b then LR_TOKEN_IDENTIFIER
      else LR_TOKEN_UNKNOWN := by
  unfold first_byte_kind
  rw [lookup_punctuation]
  by_cases h : single_char_kind b = LR_TOKEN_UNKNOWN
  · simp [h]
  · simp [h]

theorem single_char_kind_short (b : Nat) : long_kind (single_char_kind b) = false := by
  unfold single_char_kind
  split <;> decide

/-- The sets of first bytes of the sub-scanners are pairwise disjoint. -/
theorem first_byte_classes (b : Nat) :
    (single_char_kind b ≠ LR_TOKEN_UNKNOWN →
      lr_is_digit b = false ∧ b ≠ 34 ∧ b ≠ 39 ∧ lr_is_word_char b = false) ∧
    (lr_is_digit b = true → b ≠ 34 ∧ b ≠ 39 ∧ lr_is_word_char b = false) ∧
    (b = 34 → b ≠ 39 ∧ lr_is_word_char b = false) ∧
    (b = 39 → lr_is_word_char b = false) := by
  refine ⟨?_, ?_, ?_, ?_⟩
  · unfold single_char_kind
    split <;> first
      | decide
      | (intro h; exact absurd rfl h)
  · intro h
    simp only [lr_is_digit, Bool.and_eq_true, decide_eq_true_eq] at h
    simp only [lr_is_word_char, Bool.or_eq_false_iff, Bool.and_eq_false_iff,
      decide_eq_false_iff_not, beq_eq_false_iff_ne]
    omega
  · rintro rfl; decide
  · rintro rfl; decide

theorem take_length_takeWhile (p : Nat → Bool) : ∀ (l : List Nat),
    l.take (l.takeWhile p).length = l.takeWhile p := by
  intro l
  induction l with
  | nil => rfl
  | cons a l ih => by_cases h : p a = true <;> simp [List.takeWhile, h, ih]

theorem drop_length_takeWhile (p : Nat → Bool) : ∀ (l : List Nat),
    l.drop (l.takeWhile p).length = l.dropWhile p := by
  intro l
  induction l with
  | nil => rfl
  | cons a l ih => by_cases h : p a = true <;> simp [List.takeWhile, List.dropWhile, h, ih]

theorem bytes_drop_cons (c : lr_slice_t) (hv : c.valid) (k : Nat) (hk : (k : Int) < c.len) :
    ∃ h : k < c.data.length, rd c.data (k : Int) = .ok c.data[k] ∧
      c.bytes.drop k = c.data[k] :: c.bytes.drop (k + 1) := by
  obtain ⟨h0, h1⟩ := hv
  have hlt : k < c.data.length := by omega
  refine ⟨hlt, rd_of_lt _ _ hlt, ?_⟩
  have hlen : k < c.bytes.length := by
    simp only [lr_slice_t.bytes, List.length_take]
    omega
  rw [List.drop_eq_getElem_cons hlen]
  congr 1
  simp [lr_slice_t.bytes, List.getElem_take]

theorem bytes_drop_len (c : lr_slice_t) (k : Nat) (hk : (k : Int) = c.len) :
    c.bytes.drop k = [] := by
  apply List.drop_eq_nil_of_le
  simp only [lr_slice_t.bytes, List.length_take]
  omega

/-- The number loop on a slice inside its buffer: it stops after the longest
run of number bytes, at the end of the slice at the latest. -/
theorem number_loop_run (c : lr_slice_t) (hv : c.valid) :
    ∀ (m k f : Nat), (k : Int) + m = c.len → m + 1 ≤ f →
      number_loop c f (k : Int)
        = .ok ((k : Int) + (((c.bytes.drop k).takeWhile number_char).length : Int)) := by
  intro m
  induction m with
  | zero =>
    intro k f hk hf
    obtain ⟨f, rfl⟩ : ∃ g, f = g + 1 := ⟨f - 1, by omega⟩
    have : c.len - (k : Int) = 0 := by omega
    simp only [number_loop, this, ne_eq, not_true_eq_false, if_false]
    rw [bytes_drop_len c k (by omega)]
    simp
  | succ m ih =>
    intro k f hk hf
    obtain ⟨f, rfl⟩ : ∃ g, f = g + 1 := ⟨f - 1, by omega⟩
    have hne : c.len - (k : Int) ≠ 0 := by omega
    obtain ⟨hlt, hrd, hdrop⟩ := bytes_drop_cons c hv k (by omega)
    simp only [number_loop, hne, ne_eq, not_false_eq_true, if_true, hrd]
    rw [hdrop]
    by_cases hn : number_char c.data[k] = true
    · have hstop : (!lr_is_digit c.data[k] && c.data[k] != 46 && c.data[k] != 120 &&
          c.data[k] != 88) = false := by
        simp only [number_char, Bool.or_eq_true, beq_iff_eq] at hn
        simp only [Bool.and_eq_false_iff, Bool.not_eq_false_eq_eq_true, bne_eq_false_iff_eq]
        tauto
      simp only [hstop, Bool.false_eq_true, if_false, List.takeWhile, hn, List.length_cons]
      have := ih (k + 1) f (by push_cast; omega) (by omega)
      push_cast at this ⊢
      rw [this]
      congr 1
      omega
    · have hn' : number_char c.data[k] = false := by simpa using hn
      have hstop : (!lr_is_digit c.data[k] && c.data[k] != 46 && c.data[k] != 120 &&
          c.data[k] != 88) = true := by
        simp only [number_char, Bool.or_eq_false_iff, beq_eq_false_iff_ne] at hn'
        simp only [Bool.and_eq_true, Bool.not_eq_true_eq_eq_false, bne_iff_ne, ne_eq]
        tauto
      simp [hstop, List.takeWhile, hn']

/-- The number branch of `lr_lex_constant` on a slice inside its buffer. -/
theorem lr_lex_constant_number (c : lr_slice_t) (b : Nat) (rest : List Nat)
    (hv : c.valid) (hl : 1 ≤ c.len) (hd : c.data = b :: rest) (hb : lr_is_digit b = true) :
    lr_lex_constant c
      = .ok (some (⟨LR_TOKEN_NUMBER,
                    lr_slice_l c (1 + (((c.bytes.drop 1).takeWhile number_char).length : Int))⟩,
                   lr_slice_r c (1 + (((c.bytes.drop 1).takeWhile number_char).length : Int)))) := by
  have hrun := number_loop_run c hv (c.len - 1).toNat 1 (c.data.length + 1)
    (by push_cast; omega) (by have := hv.2; omega)
  have h0 : rd c.data 0 = .ok b := by rw [hd]; exact rd_zero_cons b rest
  simp only [Nat.cast_one] at hrun
  simp only [lr_lex_constant, h0, hb, if_true, hrun]

theorem bytes_cons (m : Nat) (b : Nat) (rest : List Nat) :
    (lr_slice_t.mk ((m : Int) + 1) (b :: rest)).bytes = b :: rest.take m := by
  have : ((m : Int) + 1).toNat = m + 1 := by omega
  simp [lr_slice_t.bytes, this]

/-- Claim C20: on a slice inside its buffer whose first byte is a digit,
`lr_lex_constant` returns a Number token that starts at that byte and whose
bytes are the digit followed by the longest run of digits, periods, `x` and
`X` of the slice; the new cursor is the rest of the slice after that run. -/
theorem number_token_longest_run (c : lr_slice_t) (b : Nat) (rest : List Nat)
    (hv : c.valid) (hl : 1 ≤ c.len) (hd : c.data = b :: rest) (hb : lr_is_digit b = true) :
    ∃ t r, lr_lex_constant c = .ok (some (t, r)) ∧ t.type = LR_TOKEN_NUMBER ∧
      t.slice.data = c.data ∧
      t.slice.bytes = b :: (c.bytes.drop 1).takeWhile number_char ∧
      r = lr_slice_r c t.slice.len ∧
      r.bytes = (c.bytes.drop 1).dropWhile number_char := by
  refine ⟨_, _, lr_lex_constant_number c b rest hv hl hd hb, rfl, rfl, ?_, rfl, ?_⟩
  · obtain ⟨len, data⟩ := c
    simp only at hd hl
    subst hd
    obtain ⟨m, rfl⟩ : ∃ m : Nat, len = (m : Int) + 1 := ⟨(len - 1).toNat, by omega⟩
    rw [bytes_cons]
    simp only [lr_slice_l, List.drop_succ_cons, List.drop_zero]
    have e : (1 + ((List.takeWhile number_char (List.take m rest)).length : Int))
        = (((List.takeWhile number_char (List.take m rest)).length : Nat) : Int) + 1 := by omega
    rw [e, bytes_cons]
    congr 1
    have h1 := take_length_takeWhile number_char (List.take m rest)
    rw [List.take_take] at h1
    have hle : (List.takeWhile number_char (List.take m rest)).length ≤ m := by
      have : (List.takeWhile number_char (List.take m rest)).length ≤ (List.take m rest).length :=
        (List.takeWhile_sublist number_char).length_le
      have := List.length_take_le m rest
      omega
    rw [Nat.min_eq_left hle] at h1
    exact h1
  · obtain ⟨len, data⟩ := c
    simp only at hd hl
    subst hd
    obtain ⟨m, rfl⟩ : ∃ m : Nat, len = (m : Int) + 1 := ⟨(len - 1).toNat, by omega⟩
    rw [bytes_cons]
    simp only [lr_slice_l, lr_slice_r, List.drop_succ_cons, List.drop_zero, lr_slice_t.bytes]
    rw [← drop_length_takeWhile number_char (List.take m rest)]
    generalize (List.takeWhile number_char (List.take m rest)).length = n
    have e1 : (1 + (n : Int)).toNat = n + 1 := by omega
    have e2 : ((m : Int) + 1 - (1 + (n : Int))).toNat = m - n := by omega
    rw [e1, e2, List.drop_succ_cons, List.drop_take]

/-- Claim C20 at the slice `12x.)`: the token is `12x.` and the cursor is left
at the parenthesis. -/
theorem number_token_longest_run_witness :
    lr_slice_t.valid ⟨5, [49, 50, 120, 46, 41, 0]⟩ ∧
    ∃ t r, lr_lex_constant ⟨5, [49, 50, 120, 46, 41, 0]⟩ = .ok (some (t, r)) ∧
      t.type = LR_TOKEN_NUMBER ∧
      t.slice.data = [49, 50, 120, 46, 41, 0] ∧
      t.slice.bytes = 49 :: (((lr_slice_t.mk 5 [49, 50, 120, 46, 41, 0]).bytes.drop 1).takeWhile
        number_char) ∧
      r = lr_slice_r ⟨5, [49, 50, 120, 46, 41, 0]⟩ t.slice.len ∧
      r.bytes = ((lr_slice_t.mk 5 [49, 50, 120, 46, 41, 0]).bytes.drop 1).dropWhile number_char :=
  ⟨by decide,
   number_token_longest_run ⟨5, [49, 50, 120, 46, 41, 0]⟩ 49 [50, 120, 46, 41, 0]
     (by decide) (by decide) rfl (by decide)⟩

/-- Whichever sub-scanner accepts the first byte, the other three decline. -/
theorem sub_scanners_exclusive (c : lr_slice_t) (b : Nat) (rest : List Nat)
    (hd : c.data = b :: rest) :
    (single_char_kind b ≠ LR_TOKEN_UNKNOWN →
      lr_lex_constant c = .ok none ∧ lr_lex_string c = .ok none ∧
      lr_lex_identifier c = .ok none) ∧
    (lr_is_digit b = true ∨ b = 39 →
      lr_lex_single_char_token c = .ok none ∧ lr_lex_string c = .ok none ∧
      lr_lex_identifier c = .ok none) ∧
    (b = 34 →
      lr_lex_single_char_token c = .ok none ∧ lr_lex_constant c = .ok none ∧
      lr_lex_identifier c = .ok none) ∧
    (lr_is_word_char b = true →
      lr_lex_single_char_token c = .ok none ∧ lr_lex_constant c = .ok none ∧
      lr_lex_string c = .ok none) := by
  have h0 : rd c.data 0 = .ok b := by rw [hd]; exact rd_zero_cons b rest
  obtain ⟨k1, k2, k3, k4⟩ := first_byte_classes b
  refine ⟨?_, ?_, ?_, ?_⟩
  · intro h
    obtain ⟨a1, a2, a3, a4⟩ := k1 h
    simp [lr_lex_constant, lr_lex_string, lr_lex_identifier, h0, a1, a2, a3, a4]
  · intro h
    have hs : single_char_kind b = LR_TOKEN_UNKNOWN := by
      by_contra hk
      obtain ⟨a1, a2, a3, a4⟩ := k1 hk
      rcases h with h | h
      · rw [a1] at h; cases h
      · exact a3 h
    have h34 : b ≠ 34 := by
      rcases h with h | h
      · exact (k2 h).1
      · rw [h]; decide
    have hw : lr_is_word_char b = false := by
      rcases h with h | h
      · exact (k2 h).2.2
      · exact k4 h
    simp [lr_lex_single_char_token, lr_lex_string, lr_lex_identifier, h0, hs, h34, hw]
  · intro h
    subst h
    refine ⟨?_, ?_, ?_⟩
    · simp only [lr_lex_single_char_token, h0]; rfl
    · simp only [lr_lex_constant, h0]; rfl
    · simp only [lr_lex_identifier, h0]; rfl
  · intro h
    have hs := word_char_kind b h
    have hdg : lr_is_digit b = false := by
      cases hd' : lr_is_digit b with
      | false => rfl
      | true => rw [(k2 hd').2.2] at h; cases h
    have h39 : b ≠ 39 := fun e => by rw [k4 e] at h; cases h
    have h34 : b ≠ 34 := fun e => by rw [(k3 e).2] at h; cases h
    simp [lr_lex_single_char_token, lr_lex_constant, lr_lex_string, h0, hs, hdg, h39, h34]

/-- A byte of one of the one-byte kinds makes a one-byte token. -/
theorem lex_token_short (c : lr_slice_t) (b : Nat) (rest : List Nat)
    (hd : c.data = b :: rest) (hk : long_kind (first_byte_kind b) = false) :
    lex_token c = .ok (⟨first_byte_kind b, lr_slice_l c 1⟩, lr_slice_r c 1) := by
  have h0 : rd c.data 0 = .ok b := by rw [hd]; exact rd_zero_cons b rest
  rw [first_byte_kind_eq] at hk ⊢
  by_cases hs : single_char_kind b = LR_TOKEN_UNKNOWN
  · simp only [hs, ne_eq, not_true_eq_false, if_false] at hk ⊢
    by_cases h1 : lr_is_digit b = true
    · simp [h1, long_kind] at hk
    · by_cases h2 : b = 34
      · simp [h1, h2, long_kind] at hk
      · by_cases h3 : b = 39
        · subst h3
          exact absurd hk (by decide)
        · by_cases h4 : lr_is_word_char b = true
          · simp [h1, h2, h3, h4, long_kind] at hk
          · simp [lex_token, lr_lex_single_char_token, lr_lex_constant, lr_lex_string,
              lr_lex_identifier, h0, hs, h1, h2, h3, h4]
  · simp [lex_token, lr_lex_single_char_token, h0, hs]

/-- The kind of a token is the kind its first byte announces, and the token
starts at the cursor. -/
theorem lex_token_kind (c : lr_slice_t) (b : Nat) (rest : List Nat)
    (hd : c.data = b :: rest) (r : c_token_t × lr_slice_t) (h : lex_token c = .ok r) :
    r.1.type = first_byte_kind b ∧ r.1.slice.data = c.data := by
  have h0 : rd c.data 0 = .ok b := by rw [hd]; exact rd_zero_cons b rest
  by_cases hk : long_kind (first_byte_kind b) = false
  · rw [lex_token_short c b rest hd hk] at h
    cases h
    exact ⟨rfl, rfl⟩
  · rw [first_byte_kind_eq] at hk ⊢
    by_cases hs : single_char_kind b = LR_TOKEN_UNKNOWN
    · simp only [hs, ne_eq, not_true_eq_false, if_false] at hk ⊢
      simp only [lex_token, lr_lex_single_char_token, h0, hs, ne_eq, not_true_eq_false,
        if_false] at h
      by_cases h1 : lr_is_digit b = true
      · simp only [lr_lex_constant, h0, h1, if_true] at h
        cases hn : number_loop c (c.data.length + 1) 1 with
        | error e => simp [hn] at h
        | ok L =>
          simp only [hn] at h
          cases h
          simp [h1, lr_slice_l]
      · by_cases h3 : b = 39
        · subst h3
          simp only [lr_lex_constant, h0] at h
          cases hn : quoted_loop 39 c (c.data.length + 1) 1 with
          | error e => simp [hn, lr_is_digit] at h
          | ok L =>
            simp only [hn] at h
            cases h
            simp [lr_slice_l, lr_is_digit]
        · have hc : lr_lex_constant c = .ok none := by
            simp [lr_lex_constant, h0, h1, h3]
          simp only [hc] at h
          by_cases h2 : b = 34
          · subst h2
            simp only [lr_lex_string, h0] at h
            cases hn : quoted_loop 34 c (c.data.length + 1) 1 with
            | error e => simp [hn] at h
            | ok L =>
              simp only [hn] at h
              cases h
              simp [lr_slice_l, lr_is_digit]
          · have hst : lr_lex_string c = .ok none := by
              simp [lr_lex_string, h0, h2]
            simp only [hst] at h
            by_cases h4 : lr_is_word_char b = true
            · simp only [lr_lex_identifier, h0, h4, if_true] at h
              cases hn : identifier_loop c (c.data.length + 1) 1 with
              | error e => simp [hn] at h
              | ok L =>
                simp only [hn] at h
                cases h
                simp [h1, h2, h3, h4, lr_slice_l]
            · simp [h1, h2, h3, h4, long_kind] at hk
    · exfalso
      apply hk
      simp only [hs, ne_eq, not_false_eq_true, if_true]
      exact single_char_kind_short b

/-- A property of every token `lex_token` returns holds of every token of a
completed scan but the last, which is the `LR_TOKEN_EOF` token. -/
theorem lex_file_loop_all (P : c_token_t → Prop)
    (hP : ∀ c r, nul_ended c.data c.len → 1 ≤ c.len → lex_token c = .ok r → P r.1) :
    ∀ (f : Nat) (c : lr_slice_t) (acc ts : List c_token_t),
    nul_ended c.data c.len → (∀ t ∈ acc, P t) →
    lex_file_loop f c acc = .ok ts →
    ∃ init e, ts = init ++ [e] ∧ e.type = LR_TOKEN_EOF ∧ e.slice.len = 0 ∧
      ∀ t ∈ init, P t := by
  intro f
  induction f with
  | zero => intro c acc ts _ _ h; simp [lex_file_loop] at h
  | succ f ih =>
    intro c acc ts hc hacc h
    simp only [lex_file_loop] at h
    split at h
    · cases h
      exact ⟨acc, _, rfl, rfl, rfl, hacc⟩
    · split at h
      · cases h
      · rename_i c1 hc1
        have hi1 := eat_inv c c1 hc hc1
        split at h
        · rename_i hne
          split at h
          · cases h
          · rename_i t c2 ht
            split at h
            · have hl : 1 ≤ c1.len := by have := hi1.1; omega
              obtain ⟨L, ⟨hL1, hL2, hs, hr⟩, hty, hstr⟩ := lex_token_consumed c1 (t, c2) hi1 hl ht
              simp only at hs hr
              obtain ⟨n, hn⟩ := Int.eq_ofNat_of_zero_le (show 0 ≤ L by omega)
              have hc2 : nul_ended c2.data c2.len := by
                rw [hr]
                have := nul_ended_drop c1.data c1.len n hi1 (by omega)
                simpa [lr_slice_r, hn] using this
              refine ih c2 _ ts hc2 ?_ h
              intro t' ht'
              rcases List.mem_append.1 ht' with h1 | h1
              · exact hacc t' h1
              · simp only [List.mem_singleton] at h1
                subst h1
                exact hP c1 (t', c2) hi1 hl ht
            · cases h
        · exact ih c1 _ ts hi1 hacc h

theorem nul_ended_cons (data : List Nat) (len : Int) (h : nul_ended data len) :
    ∃ b rest, data = b :: rest := by
  cases data with
  | nil =>
    obtain ⟨h0, h1, _⟩ := h
    simp only [List.length_nil, Nat.cast_zero] at h1
    omega
  | cons b rest => exact ⟨b, rest, rfl⟩

theorem lex_token_starts_by_kind (c : lr_slice_t) (r : c_token_t × lr_slice_t)
    (hc : nul_ended c.data c.len) (hl : 1 ≤ c.len) (h : lex_token c = .ok r) :
    starts_by_kind r.1 := by
  obtain ⟨b, rest, hd⟩ := nul_ended_cons _ _ hc
  obtain ⟨hk, hdat⟩ := lex_token_kind c b rest hd r h
  obtain ⟨L, ⟨hL1, hL2, hs, hr⟩, _, _⟩ := lex_token_consumed c r hc hl h
  refine ⟨b, rest, by rw [hdat, hd], hk, by rw [hs]; exact hL1, ?_⟩
  intro hlong
  rw [hk] at hlong
  rw [lex_token_short c b rest hd hlong] at h
  cases h
  rfl

/-- Claim C19: for a cursor at a byte `b`, a byte of a one-byte kind (one of the
21 punctuation characters, or a byte of no class) makes `lex_token` return a
token of kind `first_byte_kind b` covering that byte alone and move the
cursor one byte on; every token `lex_token` returns has the kind
`first_byte_kind b` and starts at the cursor; every token of a completed scan
of a file but the closing `LR_TOKEN_EOF` token satisfies `starts_by_kind`;
and whichever sub-scanner accepts `b`, the other three decline, so that the
order in which they are tried does not matter. -/
theorem token_kind_by_first_byte :
    (∀ (c : lr_slice_t) (b : Nat) (rest : List Nat), c.data = b :: rest →
      (long_kind (first_byte_kind b) = false →
        lex_token c = .ok (⟨first_byte_kind b, lr_slice_l c 1⟩, lr_slice_r c 1)) ∧
      (∀ r, lex_token c = .ok r → r.1.type = first_byte_kind b ∧ r.1.slice.data = c.data) ∧
      (single_char_kind b ≠ LR_TOKEN_UNKNOWN →
        lr_lex_constant c = .ok none ∧ lr_lex_string c = .ok none ∧
        lr_lex_identifier c = .ok none) ∧
      (lr_is_digit b = true ∨ b = 39 →
        lr_lex_single_char_token c = .ok none ∧ lr_lex_string c = .ok none ∧
        lr_lex_identifier c = .ok none) ∧
      (b = 34 →
        lr_lex_single_char_token c = .ok none ∧ lr_lex_constant c = .ok none ∧
        lr_lex_identifier c = .ok none) ∧
      (lr_is_word_char b = true →
        lr_lex_single_char_token c = .ok none ∧ lr_lex_constant c = .ok none ∧
        lr_lex_string c = .ok none)) ∧
    (∀ (f : Option (List Nat)) (s : lr_slice_t) (ts : List c_token_t),
      lr_read_file f = some s → lr_lex_file s = .ok ts →
      ∃ init e, ts = init ++ [e] ∧ e.type = LR_TOKEN_EOF ∧ e.slice.len = 0 ∧
        ∀ t ∈ init, starts_by_kind t) ∧
    (∀ b, first_byte_kind b =
      match punctuation_table.lookup b with
      | some k => k
      | none =>
        if lr_is_digit b then LR_TOKEN_NUMBER
        else if b = 34 then LR_TOKEN_STRING
        else if b = 39 then LR_TOKEN_CHARACTER
        else if lr_is_word_char b then LR_TOKEN_IDENTIFIER
        else LR_TOKEN_UNKNOWN) := by
  refine ⟨?_, ?_, fun b => rfl⟩
  · intro c b rest hd
    obtain ⟨e1, e2, e3, e4⟩ := sub_scanners_exclusive c b rest hd
    exact ⟨lex_token_short c b rest hd, lex_token_kind c b rest hd, e1, e2, e3, e4⟩
  · intro f s ts hr hl
    exact lex_file_loop_all starts_by_kind lex_token_starts_by_kind _ s [] ts
      (lr_read_file_nul_ended f s hr) (by simp) hl

/-- Claim C19 at the file `a+1`: an identifier, a plus sign, a number and the
closing token. -/
theorem token_kind_by_first_byte_witness :
    lr_read_file (some [97, 43, 49]) = some ⟨3, [97, 43, 49, 0]⟩ ∧
    lr_lex_file ⟨3, [97, 43, 49, 0]⟩
      = .ok [⟨LR_TOKEN_IDENTIFIER, ⟨1, [97, 43, 49, 0]⟩⟩, ⟨LR_TOKEN_PLUS, ⟨1, [43, 49, 0]⟩⟩,
             ⟨LR_TOKEN_NUMBER, ⟨1, [49, 0]⟩⟩, ⟨LR_TOKEN_EOF, ⟨0, [0]⟩⟩] ∧
    (∃ init e, [⟨LR_TOKEN_IDENTIFIER, ⟨1, [97, 43, 49, 0]⟩⟩, ⟨LR_TOKEN_PLUS, ⟨1, [43, 49, 0]⟩⟩,
             ⟨LR_TOKEN_NUMBER, ⟨1, [49, 0]⟩⟩, (⟨LR_TOKEN_EOF, ⟨0, [0]⟩⟩ : c_token_t)] = init ++ [e] ∧
        e.type = LR_TOKEN_EOF ∧ e.slice.len = 0 ∧ ∀ t ∈ init, starts_by_kind t) ∧
    lex_token ⟨2, [43, 49, 0]⟩
      = .ok (⟨first_byte_kind 43, lr_slice_l ⟨2, [43, 49, 0]⟩ 1⟩, lr_slice_r ⟨2, [43, 49, 0]⟩ 1) :=
  ⟨by rfl, by rfl,
   token_kind_by_first_byte.2.1 (some [97, 43, 49]) ⟨3, [97, 43, 49, 0]⟩ _ (by rfl) (by rfl),
   (token_kind_by_first_byte.1 ⟨2, [43, 49, 0]⟩ 43 [49, 0] rfl).1 (by decide)⟩

/-- Every byte the identifier loop passes is an identifier byte. -/
theorem identifier_loop_chars (c : lr_slice_t) : ∀ (f : Nat) (len L : Int),
    identifier_loop c f len = .ok L →
    ∀ i : Int, len ≤ i → i < L → ∃ ch, rd c.data i = .ok ch ∧ lr_is_identifier ch = true := by
  intro f
  induction f with
  | zero => intro len L h; simp [identifier_loop] at h
  | succ f ih =>
    intro len L h i h1 h2
    simp only [identifier_loop] at h
    by_cases hne : c.len - len ≠ 0
    · rw [if_pos hne] at h
      cases hrd : rd c.data len with
      | error e => simp [hrd] at h
      | ok ch =>
        simp only [hrd] at h
        by_cases hch : (lr_is_word_char ch || lr_is_digit ch) = true
        · simp only [hch, if_true] at h
          by_cases hi : i = len
          · subst hi; exact ⟨ch, hrd, hch⟩
          · exact ih (len + 1) L h i (by omega) h2
        · simp only [hch, if_false] at h
          cases h
          omega
    · rw [if_neg hne] at h
      cases h
      omega

theorem first_byte_identifier (b : Nat) (h : first_byte_kind b = LR_TOKEN_IDENTIFIER) :
    single_char_kind b = LR_TOKEN_UNKNOWN ∧ lr_is_digit b = false ∧ b ≠ 34 ∧ b ≠ 39 ∧
      lr_is_word_char b = true := by
  rw [first_byte_kind_eq] at h
  by_cases hs : single_char_kind b = LR_TOKEN_UNKNOWN
  · simp only [hs, ne_eq, not_true_eq_false, if_false] at h
    by_cases h1 : lr_is_digit b = true
    · simp [h1] at h
    · by_cases h2 : b = 34
      · subst h2
        exact absurd h (by decide)
      · by_cases h3 : b = 39
        · subst h3
          exact absurd h (by decide)
        · by_cases h4 : lr_is_word_char b = true
          · exact ⟨hs, by simpa using h1, h2, h3, h4⟩
          · simp [h1, h2, h3, h4] at h
  · simp only [hs, ne_eq, not_false_eq_true, if_true] at h
    have := single_char_kind_short b
    rw [h] at this
    exact absurd this (by decide)

/-- The bytes of an identifier token are an identifier text. -/
theorem lex_token_identifier_text (c : lr_slice_t) (r : c_token_t × lr_slice_t)
    (hc : nul_ended c.data c.len) (hl : 1 ≤ c.len) (h : lex_token c = .ok r)
    (ht : r.1.type = LR_TOKEN_IDENTIFIER) : identifier_text r.1.slice.bytes = true := by
  obtain ⟨b, rest, hd⟩ := nul_ended_cons _ _ hc
  have h0 : rd c.data 0 = .ok b := by rw [hd]; exact rd_zero_cons b rest
  obtain ⟨hk, _⟩ := lex_token_kind c b rest hd r h
  rw [ht] at hk
  obtain ⟨hs, h1, h2, h3, h4⟩ := first_byte_identifier b hk.symm
  have h39 : (b == 39) = false := by simpa using h3
  have h34 : (b == 34) = false := by simpa using h2
  simp only [lex_token, lr_lex_single_char_token, lr_lex_constant, lr_lex_string,
    lr_lex_identifier, h0, hs, ne_eq, not_true_eq_false, if_false, h1, h39, h34, h4, if_true,
    Bool.false_eq_true] at h
  cases hn : identifier_loop c (c.data.length + 1) 1 with
  | error e => simp [hn] at h
  | ok L =>
    simp only [hn] at h
    cases h
    have hb := identifier_loop_bound c _ 1 L hl hn
    have hch := identifier_loop_chars c _ 1 L hn
    obtain ⟨n, rfl⟩ : ∃ n : Nat, L = (n : Int) + 1 := ⟨(L - 1).toNat, by omega⟩
    have e : ((n : Int) + 1).toNat = n + 1 := by omega
    simp only [lr_slice_l, lr_slice_t.bytes, hd, e, List.take_succ_cons, identifier_text,
      h4, Bool.true_and, List.all_eq_true]
    intro x hx
    obtain ⟨j, hj, rfl⟩ := List.getElem_of_mem hx
    simp only [List.length_take] at hj
    have hj2 : j < rest.length := by omega
    obtain ⟨ch, hrd, hid⟩ := hch ((j : Int) + 1) (by omega) (by omega)
    have hrd2 := rd_of_lt c.data (j + 1) (by rw [hd]; simp; omega)
    push_cast at hrd2
    rw [hrd2] at hrd
    cases hrd
    simpa [hd, List.getElem_take] using hid

theorem lr_lex_file_identifier_text (f : Option (List Nat)) (s : lr_slice_t)
    (ts : List c_token_t) (hr : lr_read_file f = some s) (hl : lr_lex_file s = .ok ts) :
    ∀ t ∈ ts, t.type = LR_TOKEN_IDENTIFIER → identifier_text t.slice.bytes = true := by
  obtain ⟨init, e, rfl, he, _, hall⟩ := lex_file_loop_all
    (fun t => t.type = LR_TOKEN_IDENTIFIER → identifier_text t.slice.bytes = true)
    (fun c r h1 h2 h3 => lex_token_identifier_text c r h1 h2 h3) _ s [] ts
    (lr_read_file_nul_ended f s hr) (by simp) hl
  intro t ht hty
  rcases List.mem_append.1 ht with h1 | h1
  · exact hall t h1 hty
  · simp only [List.mem_singleton] at h1
    subst h1
    rw [he] at hty
    cases hty

theorem shape_identifier (ts : List c_token_t) (j : Nat)
    (h : kind_at ts (j + 2) = some LR_TOKEN_IDENTIFIER) :
    (ts[j + 2]?).getD no_identifier ∈ ts ∧
      ((ts[j + 2]?).getD no_identifier).type = LR_TOKEN_IDENTIFIER := by
  simp only [kind_at] at h
  cases hg : ts[j + 2]? with
  | none => simp [hg] at h
  | some t =>
    simp only [hg, Option.map_some', Option.some.injEq] at h
    simp only [Option.getD_some]
    exact ⟨List.getElem?_mem hg, h⟩

/-- The matching of one file keeps the registry made of identifier texts. -/
theorem main_file_names (st : Bool) (f : Option (List Nat)) (t b : List lr_slice_t)
    (r : List lr_slice_t × List lr_slice_t)
    (hp : ∀ x ∈ t ++ b, identifier_text x.bytes = true)
    (h : main_file st f t b = .ok r) : ∀ x ∈ r.1 ++ r.2, identifier_text x.bytes = true := by
  unfold main_file at h
  cases hr : lr_read_file f with
  | none =>
    simp only [hr] at h
    cases h
    exact hp
  | some s =>
    simp only [hr] at h
    cases hl : lr_lex_file s with
    | error e => simp [hl, bind, Except.bind] at h
    | ok ts =>
      simp only [hl, bind, Except.bind] at h
      obtain ⟨hok, heof⟩ := lr_lex_file_tokens f s ts hr hl
      have hid := lr_lex_file_identifier_text f s ts hr hl
      refine scan_tokens_preserves
        (fun t b => ∀ x ∈ t ++ b, identifier_text x.bytes = true) st ts ts.length ?_
        ts.length 0 false t b r hp h
      intro j t1 b1 r1 hp1 hm
      rw [match_shapes_eq ts j t1 b1 (fun t ht => (hok t ht).1) heof] at hm
      cases hm
      intro x hx
      by_cases h1 : test_shape ts j
      · simp only [h1, if_true] at hx
        obtain ⟨hmem, hty⟩ := shape_identifier ts j h1.2.2.2.2.1
        simp only [List.mem_append, List.mem_singleton] at hx
        rcases hx with (hx | hx) | hx
        · exact hp1 x (List.mem_append.2 (Or.inl hx))
        · subst hx
          rw [record_of_bytes]
          exact hid _ hmem hty
        · exact hp1 x (List.mem_append.2 (Or.inr hx))
      · by_cases h2 : bench_shape ts j
        · simp only [h1, h2, if_true, if_false] at hx
          obtain ⟨hmem, hty⟩ := shape_identifier ts j h2.2.2.2.2.1
          simp only [List.mem_append, List.mem_singleton] at hx
          rcases hx with hx | hx | hx
          · exact hp1 x (List.mem_append.2 (Or.inl hx))
          · exact hp1 x (List.mem_append.2 (Or.inr hx))
          · subst hx
            rw [record_of_bytes]
            exact hid _ hmem hty
        · simp only [h1, h2, if_false] at hx
          exact hp1 x hx

theorem main_loop_names (st : Bool) (uf : List Nat) : ∀ (files : List source_file)
    (t b : List lr_slice_t) (r : List lr_slice_t × List lr_slice_t),
    (∀ x ∈ t ++ b, identifier_text x.bytes = true) →
    main_loop st uf files t b = .ok r → ∀ x ∈ r.1 ++ r.2, identifier_text x.bytes = true := by
  intro files
  induction files with
  | nil =>
    intro t b r hp h
    simp only [main_loop] at h
    cases h
    exact hp
  | cons f fs ih =>
    intro t b r hp h
    simp only [main_loop] at h
    by_cases he : should_exclude_file st uf f.name = true
    · simp only [he, if_true] at h
      exact ih t b r hp h
    · simp only [he, if_false] at h
      cases hm : main_file st f.contents t b with
      | error e => simp [hm] at h
      | ok r1 =>
        simp only [hm] at h
        exact ih r1.1 r1.2 r (main_file_names st f.contents t b r1 hp hm) h

theorem identifier_text_iff (name : List Nat) :
    identifier_text name = true ↔
      ∃ h t, name = h :: t ∧ lr_is_word_char h = true ∧
        ∀ x ∈ name, lr_is_identifier x = true := by
  cases name with
  | nil => simp [identifier_text]
  | cons h t =>
    simp only [identifier_text, Bool.and_eq_true, List.all_eq_true, List.cons.injEq,
      List.mem_cons, forall_eq_or_imp]
    constructor
    · rintro ⟨a, b⟩
      exact ⟨h, t, ⟨rfl, rfl⟩, a, by simp [lr_is_identifier, a], b⟩
    · rintro ⟨h', t', ⟨rfl, rfl⟩, a, _, b⟩
      exact ⟨a, b⟩

/-- Claim C11: every record name discovered from one file, and every record
name discovered by a run over a list of files, is an identifier text: it is
not empty, its first byte is a letter or an underscore, and all its bytes
are letters, digits or underscores. -/
theorem record_names_are_identifiers (st : Bool) :
    (∀ (f : Option (List Nat)) (r : List lr_slice_t × List lr_slice_t),
      main_file st f [] [] = .ok r →
      ∀ x ∈ r.1 ++ r.2, ∃ h t, x.bytes = h :: t ∧ lr_is_word_char h = true ∧
        ∀ y ∈ x.bytes, lr_is_identifier y = true) ∧
    (∀ (uf : List Nat) (files : List source_file) (r : List lr_slice_t × List lr_slice_t),
      main_loop st uf files [] [] = .ok r →
      ∀ x ∈ r.1 ++ r.2, ∃ h t, x.bytes = h :: t ∧ lr_is_word_char h = true ∧
        ∀ y ∈ x.bytes, lr_is_identifier y = true) := by
  constructor
  · intro f r h x hx
    exact (identifier_text_iff _).1 (main_file_names st f [] [] r (by simp) h x hx)
  · intro uf files r h x hx
    exact (identifier_text_iff _).1 (main_loop_names st uf files [] [] r (by simp) h x hx)

/-- Claim C11 at the file `./a.c`, whose one record is the name `a`. -/
theorem record_names_are_identifiers_witness :
    main_file false file_a.contents [] [] = .ok ([⟨1, [97]⟩], []) ∧
    ∀ x ∈ [(⟨1, [97]⟩ : lr_slice_t)] ++ [], ∃ h t, x.bytes = h :: t ∧
      lr_is_word_char h = true ∧ ∀ y ∈ x.bytes, lr_is_identifier y = true :=
  ⟨by rfl, (record_names_are_identifiers false).1 file_a.contents ([⟨1, [97]⟩], []) (by rfl)⟩

theorem kind_at_inj (ts : List c_token_t) (i : Nat) (a b : lr_token_kind)
    (ha : kind_at ts i = some a) (hb : kind_at ts i = some b) : a = b := by
  rw [ha] at hb
  exact Option.some.inj hb

/-- No shape holds one to three tokens after a test shape. -/
theorem test_shape_no_overlap (ts : List c_token_t) (i : Nat) (h : test_shape ts i) :
    ∀ k, 1 ≤ k → k ≤ 3 → ¬ test_shape ts (i + k) ∧ ¬ bench_shape ts (i + k) := by
  obtain ⟨_, k0, _, k1, k2, _, k3⟩ := h
  intro k hk1 hk3
  obtain rfl | rfl | rfl : k = 1 ∨ k = 2 ∨ k = 3 := by omega
  · constructor
    · rintro ⟨_, a, _⟩
      exact absurd (kind_at_inj ts _ _ _ k1 a) (by decide)
    · rintro ⟨_, a, _⟩
      exact absurd (kind_at_inj ts _ _ _ k1 a) (by decide)
  · constructor
    · rintro ⟨_, _, _, a, _⟩
      exact absurd (kind_at_inj ts _ _ _ k3 a) (by decide)
    · rintro ⟨_, _, _, a, _⟩
      exact absurd (kind_at_inj ts _ _ _ k3 a) (by decide)
  · constructor
    · rintro ⟨_, a, _⟩
      exact absurd (kind_at_inj ts _ _ _ k3 a) (by decide)
    · rintro ⟨_, a, _⟩
      exact absurd (kind_at_inj ts _ _ _ k3 a) (by decide)

/-- No shape holds one to five tokens after a benchmark shape. -/
theorem bench_shape_no_overlap (ts : List c_token_t) (i : Nat) (h : bench_shape ts i) :
    ∀ k, 1 ≤ k → k ≤ 5 → ¬ test_shape ts (i + k) ∧ ¬ bench_shape ts (i + k) := by
  obtain ⟨_, k0, _, k1, k2, _, k3, k4, k5⟩ := h
  intro k hk1 hk5
  obtain rfl | rfl | rfl | rfl | rfl : k = 1 ∨ k = 2 ∨ k = 3 ∨ k = 4 ∨ k = 5 := by omega
  · constructor
    · rintro ⟨_, a, _⟩
      exact absurd (kind_at_inj ts _ _ _ k1 a) (by decide)
    · rintro ⟨_, a, _⟩
      exact absurd (kind_at_inj ts _ _ _ k1 a) (by decide)
  · constructor
    · rintro ⟨_, _, _, a, _⟩
      exact absurd (kind_at_inj ts _ _ _ k3 a) (by decide)
    · rintro ⟨_, _, _, a, _⟩
      exact absurd (kind_at_inj ts _ _ _ k3 a) (by decide)
  · constructor
    · rintro ⟨_, a, _⟩
      exact absurd (kind_at_inj ts _ _ _ k3 a) (by decide)
    · rintro ⟨_, a, _⟩
      exact absurd (kind_at_inj ts _ _ _ k3 a) (by decide)
  · constructor
    · rintro ⟨_, _, _, a, _⟩
      exact absurd (kind_at_inj ts _ _ _ k5 a) (by decide)
    · rintro ⟨_, _, _, a, _⟩
      exact absurd (kind_at_inj ts _ _ _ k5 a) (by decide)
  · constructor
    · rintro ⟨_, a, _⟩
      exact absurd (kind_at_inj ts _ _ _ k5 a) (by decide)
    · rintro ⟨_, a, _⟩
      exact absurd (kind_at_inj ts _ _ _ k5 a) (by decide)

theorem match_test_case_true (ts : List c_token_t) (i : Nat) (id t : c_token_t)
    (hv : ∀ t ∈ ts, t.slice.valid) (h : match_test_case ts ts.length i id = .ok (true, t)) :
    test_shape ts i := by
  rw [match_test_case_eq ts i id hv] at h
  simp only [Except.ok.injEq, Prod.mk.injEq, decide_eq_true_eq] at h
  exact h.1

theorem match_benchmark_true (ts : List c_token_t) (i : Nat) (id t : c_token_t)
    (hv : ∀ t ∈ ts, t.slice.valid) (he : eof_terminated ts)
    (h : match_benchmark ts ts.length i id = .ok (true, t)) : bench_shape ts i := by
  rw [match_benchmark_eq ts i id hv he] at h
  simp only [Except.ok.injEq, Prod.mk.injEq, decide_eq_true_eq] at h
  exact h.1

theorem matchers_false (ts : List c_token_t) (i : Nat) (id : c_token_t)
    (hv : ∀ t ∈ ts, t.slice.valid) (he : eof_terminated ts)
    (h : ¬ test_shape ts i ∧ ¬ bench_shape ts i) :
    match_test_case ts ts.length i id = .ok (false, id) ∧
    match_benchmark ts ts.length i id = .ok (false, id) := by
  rw [match_test_case_eq ts i id hv, match_benchmark_eq ts i id hv he]
  simp [h.1, h.2]

/-- Claim C25: for an array of tokens with slices inside their buffers whose last
token is `LR_TOKEN_EOF`, when `match_test_case` returns true at position `i`
both matchers return false at the positions `i + 1` to `i + 3`, when
`match_benchmark` returns true at `i` both return false at `i + 1` to
`i + 5`, the two never both return true at the same position, and one turn
of the loop of `main` pushes at most one record. -/
theorem matched_windows_disjoint (ts : List c_token_t) (hv : ∀ t ∈ ts, t.slice.valid)
    (he : eof_terminated ts) (i : Nat) (id id2 t : c_token_t) :
    (match_test_case ts ts.length i id = .ok (true, t) →
      ∀ k, 1 ≤ k → k ≤ 3 →
        match_test_case ts ts.length (i + k) id2 = .ok (false, id2) ∧
        match_benchmark ts ts.length (i + k) id2 = .ok (false, id2)) ∧
    (match_benchmark ts ts.length i id = .ok (true, t) →
      ∀ k, 1 ≤ k → k ≤ 5 →
        match_test_case ts ts.length (i + k) id2 = .ok (false, id2) ∧
        match_benchmark ts ts.length (i + k) id2 = .ok (false, id2)) ∧
    (match_test_case ts ts.length i id = .ok (true, t) →
      match_benchmark ts ts.length i id2 = .ok (false, id2)) ∧
    (∀ tests benchmarks, ∃ r, match_shapes ts ts.length i tests benchmarks = .ok r ∧
      r.1.length + r.2.length ≤ tests.length + benchmarks.length + 1) := by
  refine ⟨?_, ?_, ?_, ?_⟩
  · intro h k h1 h3
    exact matchers_false ts (i + k) id2 hv he
      (test_shape_no_overlap ts i (match_test_case_true ts i id t hv h) k h1 h3)
  · intro h k h1 h5
    exact matchers_false ts (i + k) id2 hv he
      (bench_shape_no_overlap ts i (match_benchmark_true ts i id t hv he h) k h1 h5)
  · intro h
    have hs := match_test_case_true ts i id t hv h
    rw [match_benchmark_eq ts i id2 hv he]
    simp [shapes_exclusive ts i hs]
  · intro tests benchmarks
    refine ⟨_, match_shapes_eq ts i tests benchmarks hv he, ?_⟩
    by_cases h1 : test_shape ts i
    · simp [h1]; omega
    · by_cases h2 : bench_shape ts i
      · simp [h1, h2]; omega
      · simp [h1, h2]

/-- Claim C25 at the tokens of the file with `TEST_CASE(a) { }` after the include
line: the shape holds at position 3 and nowhere from 4 to 6. -/
theorem matched_windows_disjoint_witness :
    (∀ t ∈ test_case_tokens [97], t.slice.valid) ∧ eof_terminated (test_case_tokens [97]) ∧
    match_test_case (test_case_tokens [97]) (test_case_tokens [97]).length 3 no_identifier
      = .ok (true, ⟨LR_TOKEN_IDENTIFIER, ⟨1, test_case_rest [97]⟩⟩) ∧
    ∀ k, 1 ≤ k → k ≤ 3 →
      match_test_case (test_case_tokens [97]) (test_case_tokens [97]).length (3 + k)
        no_identifier = .ok (false, no_identifier) ∧
      match_benchmark (test_case_tokens [97]) (test_case_tokens [97]).length (3 + k)
        no_identifier = .ok (false, no_identifier) :=
  ⟨by decide, by decide, by rfl,
   (matched_windows_disjoint (test_case_tokens [97]) (by decide) (by decide) 3 no_identifier
     no_identifier ⟨LR_TOKEN_IDENTIFIER, ⟨1, test_case_rest [97]⟩⟩).1 (by rfl)⟩

/-- Claim C26: on an array of tokens with slices inside their buffers whose last
token is `LR_TOKEN_EOF`, as on every array `lr_lex_file` returns for a file,
`match_benchmark` returns at every position without reading a token at an
index from `ct` on (such a read is the fault `out_of_bounds`); on the array
`BENCHMARK ( x ,` that does not end with `LR_TOKEN_EOF` it reads `ts[4]`. -/
theorem match_benchmark_reads_in_bounds :
    (∀ (ts : List c_token_t) (i : Nat) (id : c_token_t),
      (∀ t ∈ ts, t.slice.valid) → eof_terminated ts →
      ∃ r, match_benchmark ts ts.length i id = .ok r) ∧
    (∀ (f : Option (List Nat)) (s : lr_slice_t) (ts : List c_token_t) (i : Nat)
      (id : c_token_t), lr_read_file f = some s → lr_lex_file s = .ok ts →
      ∃ r, match_benchmark ts ts.length i id = .ok r) ∧
    match_benchmark open_benchmark_tokens open_benchmark_tokens.length 0 no_identifier
      = .error .out_of_bounds := by
  refine ⟨?_, ?_, by rfl⟩
  · intro ts i id hv he
    exact ⟨_, match_benchmark_eq ts i id hv he⟩
  · intro f s ts i id hr hl
    obtain ⟨hok, he⟩ := lr_lex_file_tokens f s ts hr hl
    exact ⟨_, match_benchmark_eq ts i id (fun t ht => (hok t ht).1) he⟩

/-- Claim C26 at the tokens of `BENCHMARK(bench_one, n) { }` after the include
line, at the position of `BENCHMARK`. -/
theorem match_benchmark_reads_in_bounds_witness :
    lr_read_file (some (benchmark_file [110]))
      = some ⟨(benchmark_file [110]).length, benchmark_file [110] ++ [0]⟩ ∧
    ∃ ts, lr_lex_file ⟨(benchmark_file [110]).length, benchmark_file [110] ++ [0]⟩ = .ok ts ∧
      ∃ r, match_benchmark ts ts.length 3 no_identifier = .ok r :=
  ⟨by rfl, _, by rfl,
   match_benchmark_reads_in_bounds.2.1 (some (benchmark_file [110]))
     ⟨(benchmark_file [110]).length, benchmark_file [110] ++ [0]⟩ _ 3 no_identifier
     (by rfl) (by rfl)⟩

theorem match_labrat_include_ok (st : Bool) (ts : List c_token_t) (i : Nat)
    (hv : ∀ t ∈ ts, token_ok t) : ∃ v, match_labrat_include st ts ts.length i = .ok v := by
  cases st with
  | true => exact ⟨true, by simp [match_labrat_include]⟩
  | false => exact ⟨_, match_labrat_include_eq ts i hv⟩

/-- A token array in which no shape holds yields no record. -/
theorem scan_tokens_no_shape (st : Bool) (ts : List c_token_t) (hv : ∀ t ∈ ts, token_ok t)
    (he : eof_terminated ts) (hn : ∀ j, ¬ test_shape ts j ∧ ¬ bench_shape ts j) :
    ∀ (k j : Nat) (inc : Bool) (t b : List lr_slice_t),
      scan_tokens st ts ts.length k j inc t b = .ok (t, b) := by
  intro k
  induction k with
  | zero => intro j inc t b; rfl
  | succ k ih =>
    intro j inc t b
    have hm : match_shapes ts ts.length j t b = .ok (t, b) := by
      rw [match_shapes_eq ts j t b (fun t ht => (hv t ht).1) he]
      simp [(hn j).1, (hn j).2]
    obtain ⟨v, hv1⟩ := match_labrat_include_ok st ts j hv
    cases inc with
    | true => simp [scan_tokens, hm, ih, bind, Except.bind, pure, Except.pure]
    | false =>
      cases v with
      | true => simp [scan_tokens, hv1, hm, ih, bind, Except.bind, pure, Except.pure]
      | false => simp [scan_tokens, hv1, ih, bind, Except.bind, pure, Except.pure]

theorem no_paren_no_shape (ts : List c_token_t) (h : ∀ t ∈ ts, t.type ≠ LR_TOKEN_L_PAREN)
    (j : Nat) : ¬ test_shape ts j ∧ ¬ bench_shape ts j := by
  have key : kind_at ts (j + 1) ≠ some LR_TOKEN_L_PAREN := by
    intro hk
    simp only [kind_at] at hk
    cases hg : ts[j + 1]? with
    | none => simp [hg] at hk
    | some t =>
      simp only [hg, Option.map_some', Option.some.injEq] at hk
      exact h t (List.getElem?_mem hg) hk
  constructor
  · rintro ⟨_, _, _, a, _⟩
    exact key a
  · rintro ⟨_, _, _, a, _⟩
    exact key a

/-- A file whose scan holds no open parenthesis yields no record. -/
theorem main_file_no_paren (st : Bool) (bytes : List Nat) (s : lr_slice_t)
    (ts : List c_token_t) (hr : lr_read_file (some bytes) = some s)
    (hl : lr_lex_file s = .ok ts) (h : ∀ t ∈ ts, t.type ≠ LR_TOKEN_L_PAREN) :
    main_file st (some bytes) [] [] = .ok ([], []) := by
  obtain ⟨hok, he⟩ := lr_lex_file_tokens _ s ts hr hl
  simp only [main_file, hr, hl, bind, Except.bind]
  exact scan_tokens_no_shape st ts hok he (no_paren_no_shape ts h) _ _ _ _ _

/-- The scan of the include line at the head of a buffer. -/
theorem lex_include_line (f : Nat) (rest : List Nat) (L : Int) (acc : List c_token_t)
    (hL : 20 ≤ L) :
    lex_file_loop (f + 3)
        ⟨L, 35 :: (s_include ++ 32 :: 34 :: (s_labrat_h ++ 34 :: 10 :: rest))⟩ acc
      = lex_file_loop f ⟨L - 19, 10 :: rest⟩ (acc ++ include_tokens rest) := by
  refine Eq.trans (lex_file_loop_step (f + 2) _ _ _ _ acc (by simp; omega)
      (eat_stay 35 _ L (by omega) (by decide) (by decide)) (by simp; omega)
      (lex_token_single 35 _ L (by decide)) (by simp; omega)) ?_
  refine Eq.trans (lex_file_loop_step (f + 1) _ _ _ _ _ (by simp; omega)
      (eat_stay 105 _ (L - 1) (by omega) (by decide) (by decide)) (by simp; omega)
      (lex_token_identifier s_include 32 _ (L - 1) (by decide) (by decide)
        (by simp [s_include]; omega)) (by simp [s_include]; omega)) ?_
  refine Eq.trans (lex_file_loop_step f _ _ _ _ _ (by simp [s_include]; omega)
      (eat_one 32 34 _ _ (by simp [s_include]; omega) (by decide) (by decide) (by decide))
      (by simp [s_include]; omega)
      (lex_token_string s_labrat_h _ _ (by decide) (by simp [s_include, s_labrat_h]; omega))
      (by simp [s_include, s_labrat_h]; omega)) ?_
  have e : L - 1 - ((s_include.length : Int)) - 1 - ((s_labrat_h.length : Int) + 1 + 1)
      = L - 19 := by
    simp [s_include, s_labrat_h]; omega
  simp only [e, include_tokens, List.append_assoc, List.singleton_append, single_char_kind]
  rfl

theorem identifier_char_plain (x : Nat) (h : lr_is_identifier x = true) :
    x ≠ 10 ∧ x ≠ 42 ∧ x ≠ 34 ∧ x ≠ 92 := by
  simp only [lr_is_identifier, lr_is_word_char, lr_is_digit, Bool.or_eq_true, Bool.and_eq_true,
    decide_eq_true_eq, beq_iff_eq] at h
  omega

/-- The bytes of `TEST_CASE(n)` for an identifier `n` hold no newline, no
asterisk, no double quote and no backslash. -/
theorem shape_text_plain (n : List Nat) (hn : identifier_text n = true) :
    ∀ x ∈ s_TEST_CASE ++ 40 :: (n ++ [41]), x ≠ 10 ∧ x ≠ 42 ∧ x ≠ 34 ∧ x ≠ 92 := by
  intro x hx
  simp only [List.mem_append, List.mem_cons, List.mem_singleton, List.not_mem_nil,
    or_false] at hx
  rcases hx with hx | hx | hx | hx
  · simp only [s_TEST_CASE, List.mem_cons, List.mem_singleton, List.not_mem_nil,
      or_false] at hx
    omega
  · omega
  · exact identifier_char_plain x (identifier_text_chars n hn x hx)
  · omega

theorem skip_line_comment_run (rest : List Nat) : ∀ (body : List Nat) (len : Int),
    (∀ x ∈ body, x ≠ 10) → (body.length : Int) < len →
    skip_line_comment (body ++ 10 :: rest) len = .ok ⟨len - body.length, 10 :: rest⟩ := by
  intro body
  induction body with
  | nil =>
    intro len _ hl
    have : len > 0 := by simpa using hl
    simp [skip_line_comment, this]
  | cons b body ih =>
    intro len hb hl
    simp only [List.length_cons, Nat.cast_add, Nat.cast_one] at hl
    have h0 : len > 0 := by omega
    have hne : (b != 10) = true := by
      simpa using hb b (List.mem_cons_self _ _)
    simp only [List.cons_append, skip_line_comment, h0, if_true, hne]
    refine Eq.trans (ih (len - 1) (fun x hx => hb x (List.mem_cons_of_mem _ hx)) (by omega)) ?_
    simp only [List.length_cons, Nat.cast_add, Nat.cast_one]
    congr 2
    omega

theorem skip_block_comment_run (rest : List Nat) : ∀ (body : List Nat) (len : Int),
    (∀ x ∈ body, x ≠ 42) → (body.length : Int) + 1 < len →
    skip_block_comment (body ++ 42 :: 47 :: rest) len
      = .ok ⟨len - body.length, 42 :: 47 :: rest⟩ := by
  intro body
  induction body with
  | nil =>
    intro len _ hl
    simp only [List.length_nil, Nat.cast_zero] at hl
    have h0 : len > 0 := by omega
    have h1 : len > 1 := by omega
    simp [skip_block_comment, h0, h1]
  | cons b body ih =>
    intro len hb hl
    simp only [List.length_cons, Nat.cast_add, Nat.cast_one] at hl
    have h0 : len > 0 := by omega
    have hne : (b == 42) = false := by
      simpa using hb b (List.mem_cons_self _ _)
    simp only [List.cons_append, skip_block_comment, h0, if_true, hne, Bool.false_and,
      Bool.false_eq_true, if_false]
    refine Eq.trans (ih (len - 1) (fun x hx => hb x (List.mem_cons_of_mem _ hx)) (by omega)) ?_
    simp only [List.length_cons, Nat.cast_add, Nat.cast_one]
    congr 2
    omega

/-- A newline, a line comment and its newline at the end of a buffer are
skipped as a whole. -/
theorem eat_line_comment (f : Nat) (body : List Nat) (len : Int)
    (hb : ∀ x ∈ body, x ≠ 10) (hl : len = (body.length : Int) + 4) :
    eat_loop (f + 4) (10 :: 47 :: 47 :: (body ++ [10, 0])) len = .ok ⟨0, [0]⟩ := by
  have h0 : len > 0 := by omega
  have h1 : len - 1 > 0 := by omega
  have h2 : len - 1 > 1 := by omega
  have hs := skip_line_comment_run [0] body (len - 1 - 2) hb (by omega)
  have e : len - 1 - 2 - (body.length : Int) = 1 := by omega
  rw [e] at hs
  simp [eat_loop, h0, h1, h2, lr_is_whitespace, hs]

/-- A newline and a block comment at the end of a buffer are skipped as a
whole. -/
theorem eat_block_comment (f : Nat) (body : List Nat) (len : Int)
    (hb : ∀ x ∈ body, x ≠ 42) (hl : len = (body.length : Int) + 5) :
    eat_loop (f + 3) (10 :: 47 :: 42 :: (body ++ [42, 47, 0])) len = .ok ⟨0, [0]⟩ := by
  have h0 : len > 0 := by omega
  have h1 : len - 1 > 0 := by omega
  have h2 : len - 1 > 1 := by omega
  have hs := skip_block_comment_run [0] body (len - 1 - 2) hb (by omega)
  have e : len - 1 - 2 - (body.length : Int) = 2 := by omega
  rw [e] at hs
  simp [eat_loop, h0, h1, h2, lr_is_whitespace, hs]

/-- The end of a scan whose cursor holds only blanks and comments. -/
theorem lex_file_loop_blank_end (f : Nat) (c : lr_slice_t) (d : List Nat)
    (acc : List c_token_t) (h0 : c.len ≠ 0)
    (he : lr_eat_whitespace_and_comments c = .ok ⟨0, d⟩) :
    lex_file_loop (f + 2) c acc = .ok (acc ++ [⟨LR_TOKEN_EOF, ⟨0, d⟩⟩]) := by
  simp [lex_file_loop, h0, he, lr_slice_l]

theorem eat_line_comment_slice (body : List Nat) (len : Int)
    (hb : ∀ x ∈ body, x ≠ 10) (hl : len = (body.length : Int) + 4) :
    lr_eat_whitespace_and_comments ⟨len, 10 :: 47 :: 47 :: (body ++ [10, 0])⟩
      = .ok ⟨0, [0]⟩ := by
  obtain ⟨f, hf⟩ : ∃ f, (10 :: 47 :: 47 :: (body ++ [10, 0])).length + 1 = f + 4 :=
    ⟨body.length + 2, by simp only [List.length_cons, List.length_append, List.length_nil]⟩
  simp only [lr_eat_whitespace_and_comments]
  rw [hf]
  exact eat_line_comment f body len hb hl

theorem eat_block_comment_slice (body : List Nat) (len : Int)
    (hb : ∀ x ∈ body, x ≠ 42) (hl : len = (body.length : Int) + 5) :
    lr_eat_whitespace_and_comments ⟨len, 10 :: 47 :: 42 :: (body ++ [42, 47, 0])⟩
      = .ok ⟨0, [0]⟩ := by
  obtain ⟨f, hf⟩ : ∃ f, (10 :: 47 :: 42 :: (body ++ [42, 47, 0])).length + 1 = f + 3 :=
    ⟨body.length + 4, by simp only [List.length_cons, List.length_append, List.length_nil]⟩
  simp only [lr_eat_whitespace_and_comments]
  rw [hf]
  exact eat_block_comment f body len hb hl

/-- The scan of a buffer made of the include line and a line comment. -/
theorem lex_line_comment (body : List Nat) (hb : ∀ x ∈ body, x ≠ 10) (L : Int)
    (hL : L = (body.length : Int) + 23) :
    lex_file_loop 5 ⟨L, 35 :: (s_include ++ 32 :: 34 :: (s_labrat_h ++ 34 :: 10 ::
        (47 :: 47 :: (body ++ [10, 0]))))⟩ []
      = .ok (include_tokens (47 :: 47 :: (body ++ [10, 0])) ++ [⟨LR_TOKEN_EOF, ⟨0, [0]⟩⟩]) := by
  refine Eq.trans (lex_include_line 2 _ L [] (by omega)) ?_
  refine Eq.trans (lex_file_loop_blank_end 0 _ [0] _ (by simp only; omega)
    (eat_line_comment_slice body (L - 19) hb (by omega))) ?_
  simp

/-- The scan of a buffer made of the include line and a block comment. -/
theorem lex_block_comment (body : List Nat) (hb : ∀ x ∈ body, x ≠ 42) (L : Int)
    (hL : L = (body.length : Int) + 24) :
    lex_file_loop 5 ⟨L, 35 :: (s_include ++ 32 :: 34 :: (s_labrat_h ++ 34 :: 10 ::
        (47 :: 42 :: (body ++ [42, 47, 0]))))⟩ []
      = .ok (include_tokens (47 :: 42 :: (body ++ [42, 47, 0])) ++
          [⟨LR_TOKEN_EOF, ⟨0, [0]⟩⟩]) := by
  refine Eq.trans (lex_include_line 2 _ L [] (by omega)) ?_
  refine Eq.trans (lex_file_loop_blank_end 0 _ [0] _ (by simp only; omega)
    (eat_block_comment_slice body (L - 19) hb (by omega))) ?_
  simp

/-- The scan of a buffer made of the include line and a string literal. -/
theorem lex_string_literal (body : List Nat) (hb : ∀ x ∈ body, x ≠ 34 ∧ x ≠ 92) (L : Int)
    (hL : L = (body.length : Int) + 22) :
    lex_file_loop 5 ⟨L, 35 :: (s_include ++ 32 :: 34 :: (s_labrat_h ++ 34 :: 10 ::
        (34 :: (body ++ [34, 0]))))⟩ []
      = .ok (include_tokens (34 :: (body ++ [34, 0])) ++
          [⟨LR_TOKEN_STRING, ⟨(body.length : Int) + 1 + 1, 34 :: (body ++ [34, 0])⟩⟩,
           ⟨LR_TOKEN_EOF, ⟨0, [0]⟩⟩]) := by
  refine Eq.trans (lex_include_line 2 _ L [] (by omega)) ?_
  refine Eq.trans (lex_file_loop_step 1 _ _ _ _ _ (by simp only; omega)
      (eat_one 10 34 _ _ (by omega) (by decide) (by decide) (by decide))
      (by simp only; omega)
      (lex_token_string body [0] _ hb (by omega))
      (by simp only; omega)) ?_
  have e : L - 19 - 1 - ((body.length : Int) + 1 + 1) = 0 := by omega
  rw [e]
  simp [lex_file_loop, lr_slice_l]

theorem lr_read_file_some (bytes : List Nat) (h : bytes ≠ []) :
    lr_read_file (some bytes) = some ⟨bytes.length, bytes ++ [0]⟩ := by
  have : bytes.length ≠ 0 := fun e => h (List.length_eq_zero.1 e)
  simp [lr_read_file, this]

theorem include_tokens_no_paren (rest : List Nat) (more : List c_token_t)
    (h : ∀ t ∈ more, t.type ≠ LR_TOKEN_L_PAREN) :
    ∀ t ∈ include_tokens rest ++ more, t.type ≠ LR_TOKEN_L_PAREN := by
  intro t ht
  rcases List.mem_append.1 ht with h1 | h1
  · simp only [include_tokens, List.mem_cons, List.mem_singleton, List.not_mem_nil,
      or_false] at h1
    rcases h1 with rfl | rfl | rfl <;> (intro h; cases h)
  · exact h t h1

theorem lr_lex_file_line_comment (n : List Nat) (hn : identifier_text n = true) :
    lr_lex_file ⟨(line_comment_file n).length, line_comment_file n ++ [0]⟩
      = .ok (include_tokens (47 :: 47 :: ((32 :: (s_TEST_CASE ++ 40 :: (n ++ [41]))) ++ [10, 0]))
          ++ [⟨LR_TOKEN_EOF, ⟨0, [0]⟩⟩]) := by
  have hd : line_comment_file n ++ [0] = 35 :: (s_include ++ 32 :: 34 :: (s_labrat_h ++ 34 ::
      10 :: (47 :: 47 :: ((32 :: (s_TEST_CASE ++ 40 :: (n ++ [41]))) ++ [10, 0])))) := by
    simp [line_comment_file, include_line, s_include, s_labrat_h, s_TEST_CASE]
  have hlen : ((line_comment_file n).length : Int)
      = ((32 :: (s_TEST_CASE ++ 40 :: (n ++ [41]))).length : Int) + 23 := by
    simp [line_comment_file, include_line, s_TEST_CASE]; omega
  have hb : ∀ x ∈ 32 :: (s_TEST_CASE ++ 40 :: (n ++ [41])), x ≠ 10 := by
    intro x hx
    rcases List.mem_cons.1 hx with rfl | hx
    · decide
    · exact (shape_text_plain n hn x hx).1
  have h := lex_line_comment _ hb _ hlen
  rw [← hd] at h
  exact lex_file_loop_mono_le 5 _ _ _ _ (by simp [line_comment_file, include_line]) h

theorem lr_lex_file_block_comment (n : List Nat) (hn : identifier_text n = true) :
    lr_lex_file ⟨(block_comment_file n).length, block_comment_file n ++ [0]⟩
      = .ok (include_tokens
          (47 :: 42 :: ((32 :: (s_TEST_CASE ++ 40 :: (n ++ [41, 32]))) ++ [42, 47, 0]))
          ++ [⟨LR_TOKEN_EOF, ⟨0, [0]⟩⟩]) := by
  have hd : block_comment_file n ++ [0] = 35 :: (s_include ++ 32 :: 34 :: (s_labrat_h ++ 34 ::
      10 :: (47 :: 42 :: ((32 :: (s_TEST_CASE ++ 40 :: (n ++ [41, 32]))) ++ [42, 47, 0])))) := by
    simp [block_comment_file, include_line, s_include, s_labrat_h, s_TEST_CASE]
  have hlen : ((block_comment_file n).length : Int)
      = ((32 :: (s_TEST_CASE ++ 40 :: (n ++ [41, 32]))).length : Int) + 24 := by
    simp [block_comment_file, include_line, s_TEST_CASE]; omega
  have hb : ∀ x ∈ 32 :: (s_TEST_CASE ++ 40 :: (n ++ [41, 32])), x ≠ 42 := by
    intro x hx
    have hx2 : x = 32 ∨ x ∈ s_TEST_CASE ++ 40 :: (n ++ [41]) := by
      simp only [List.mem_cons, List.mem_append, List.mem_singleton, List.not_mem_nil,
        or_false] at hx ⊢
      tauto
    rcases hx2 with rfl | hx2
    · decide
    · exact (shape_text_plain n hn x hx2).2.1
  have h := lex_block_comment _ hb _ hlen
  rw [← hd] at h
  exact lex_file_loop_mono_le 5 _ _ _ _ (by simp [block_comment_file, include_line]) h

theorem lr_lex_file_string (n : List Nat) (hn : identifier_text n = true) :
    lr_lex_file ⟨(string_file n).length, string_file n ++ [0]⟩
      = .ok (include_tokens (34 :: ((s_TEST_CASE ++ 40 :: (n ++ [41])) ++ [34, 0])) ++
          [⟨LR_TOKEN_STRING, ⟨((s_TEST_CASE ++ 40 :: (n ++ [41])).length : Int) + 1 + 1,
              34 :: ((s_TEST_CASE ++ 40 :: (n ++ [41])) ++ [34, 0])⟩⟩,
           ⟨LR_TOKEN_EOF, ⟨0, [0]⟩⟩]) := by
  have hd : string_file n ++ [0] = 35 :: (s_include ++ 32 :: 34 :: (s_labrat_h ++ 34 ::
      10 :: (34 :: ((s_TEST_CASE ++ 40 :: (n ++ [41])) ++ [34, 0])))) := by
    simp [string_file, include_line, s_include, s_labrat_h, s_TEST_CASE]
  have hlen : ((string_file n).length : Int)
      = ((s_TEST_CASE ++ 40 :: (n ++ [41])).length : Int) + 22 := by
    simp [string_file, include_line, s_TEST_CASE]; omega
  have hb : ∀ x ∈ s_TEST_CASE ++ 40 :: (n ++ [41]), x ≠ 34 ∧ x ≠ 92 :=
    fun x hx => (shape_text_plain n hn x hx).2.2
  have h := lex_string_literal _ hb _ hlen
  rw [← hd] at h
  exact lex_file_loop_mono_le 5 _ _ _ _ (by simp [string_file, include_line]) h

/-- Claim C27: for every identifier `n`, in both modes, the file made of the
include line followed by the line `// TEST_CASE(n)`, by `/* TEST_CASE(n) */`
or by the string literal `"TEST_CASE(n)"` yields no test record and no
benchmark record; the tokens of the first two are a pound sign, the
identifier `include`, a string and the closing token, those of the third
hold one more string. -/
theorem hidden_shapes_not_discovered (st : Bool) (n : List Nat)
    (hn : identifier_text n = true) :
    main_file st (some (line_comment_file n)) [] [] = .ok ([], []) ∧
    main_file st (some (block_comment_file n)) [] [] = .ok ([], []) ∧
    main_file st (some (string_file n)) [] [] = .ok ([], []) ∧
    Except.map (List.map c_token_t.type)
        (lr_lex_file ⟨(line_comment_file n).length, line_comment_file n ++ [0]⟩)
      = .ok [LR_TOKEN_POUND, LR_TOKEN_IDENTIFIER, LR_TOKEN_STRING, LR_TOKEN_EOF] ∧
    Except.map (List.map c_token_t.type)
        (lr_lex_file ⟨(block_comment_file n).length, block_comment_file n ++ [0]⟩)
      = .ok [LR_TOKEN_POUND, LR_TOKEN_IDENTIFIER, LR_TOKEN_STRING, LR_TOKEN_EOF] ∧
    Except.map (List.map c_token_t.type)
        (lr_lex_file ⟨(string_file n).length, string_file n ++ [0]⟩)
      = .ok [LR_TOKEN_POUND, LR_TOKEN_IDENTIFIER, LR_TOKEN_STRING, LR_TOKEN_STRING,
             LR_TOKEN_EOF] := by
  have h1 := lr_lex_file_line_comment n hn
  have h2 := lr_lex_file_block_comment n hn
  have h3 := lr_lex_file_string n hn
  refine ⟨?_, ?_, ?_, ?_, ?_, ?_⟩
  · refine main_file_no_paren st _ _ _
      (lr_read_file_some _ (by simp [line_comment_file, include_line])) h1
      (include_tokens_no_paren _ _ ?_)
    intro t ht
    simp only [List.mem_singleton] at ht
    subst ht
    decide
  · refine main_file_no_paren st _ _ _
      (lr_read_file_some _ (by simp [block_comment_file, include_line])) h2
      (include_tokens_no_paren _ _ ?_)
    intro t ht
    simp only [List.mem_singleton] at ht
    subst ht
    decide
  · refine main_file_no_paren st _ _ _
      (lr_read_file_some _ (by simp [string_file, include_line])) h3
      (include_tokens_no_paren _ _ ?_)
    intro t ht
    simp only [List.mem_cons, List.mem_singleton, List.not_mem_nil, or_false] at ht
    rcases ht with rfl | rfl <;> (intro h; cases h)
  · rw [h1]; rfl
  · rw [h2]; rfl
  · rw [h3]; rfl

/-- Claim C27 at the identifier `a`. -/
theorem hidden_shapes_not_discovered_witness :
    identifier_text [97] = true ∧
    main_file false (some (line_comment_file [97])) [] [] = .ok ([], []) ∧
    main_file false (some (block_comment_file [97])) [] [] = .ok ([], []) ∧
    main_file false (some (string_file [97])) [] [] = .ok ([], []) :=
  ⟨by decide,
   (hidden_shapes_not_discovered false [97] (by decide)).1,
   (hidden_shapes_not_discovered false [97] (by decide)).2.1,
   (hidden_shapes_not_discovered false [97] (by decide)).2.2.1⟩

theorem foldl_digits_le (ms : List Nat) : ∀ (p : Nat),
    p ≤ ms.foldl (fun acc d => acc * 10 + d) p := by
  induction ms with
  | nil => intro p; exact le_refl _
  | cons d ms ih =>
    intro p
    simp only [List.foldl_cons]
    have := ih (p * 10 + d)
    omega

theorem checked_int_fits (x : Int) (h0 : 0 ≤ x) (h1 : x ≤ 2147483647) :
    checked_int x = .ok x := by
  have : int_fits x = true := by
    simp only [int_fits, Bool.and_eq_true, decide_eq_true_eq]
    omega
  simp [checked_int, this]

/-- The digits of a number, the most significant first, leave their value in
`pending`. -/
theorem calculate_loop_digits (rest : List Nat) (stack : List Int) : ∀ (ms : List Nat) (p : Nat),
    (∀ d ∈ ms, d < 10) → ms.foldl (fun acc d => acc * 10 + d) p ≤ 2147483647 →
    calculate_loop (ms.map (fun d => d + 48) ++ rest) (p : Int) stack
      = calculate_loop rest ((ms.foldl (fun acc d => acc * 10 + d) p : Nat) : Int) stack := by
  intro ms
  induction ms with
  | nil => intro p _ _; rfl
  | cons d ms ih =>
    intro p hd hv
    simp only [List.foldl_cons] at hv
    have hd10 : d < 10 := hd d (List.mem_cons_self _ _)
    have hle := foldl_digits_le ms (p * 10 + d)
    have h1 : checked_int ((p : Int) * 10) = .ok ((p : Int) * 10) :=
      checked_int_fits _ (by positivity) (by omega)
    have h2 : checked_int ((p : Int) * 10 + (((d + 48 : Nat) : Int) - 48))
        = .ok (((p * 10 + d : Nat)) : Int) := by
      have e : (p : Int) * 10 + (((d + 48 : Nat) : Int) - 48) = ((p * 10 + d : Nat) : Int) := by
        push_cast; omega
      rw [e]
      exact checked_int_fits _ (by positivity) (by omega)
    have c0 : ¬ d + 48 = 0 := by omega
    have c1 : ¬ d + 48 = 32 := by omega
    have c2 : ¬ d + 48 = 43 := by omega
    have c3 : ¬ d + 48 = 45 := by omega
    have c4 : ¬ d + 48 = 47 := by omega
    have c5 : ¬ d + 48 = 42 := by omega
    have c6 : 48 ≤ d + 48 ∧ d + 48 ≤ 57 := by omega
    simp only [List.map_cons, List.cons_append, calculate_loop, c0, c1, c2, c3, c4, c5, c6,
      if_false, if_true, h1, h2, and_self, List.foldl_cons]
    exact ih (p * 10 + d) (fun x hx => hd x (List.mem_cons_of_mem _ hx)) hv

theorem foldl_digits_value (n : Nat) :
    (Nat.digits 10 n).reverse.foldl (fun acc d => acc * 10 + d) 0 = n := by
  rw [List.foldl_reverse]
  have h := Nat.ofDigits_digits 10 n
  rw [Nat.ofDigits_eq_foldr] at h
  have e : (fun (x y : Nat) => y * 10 + x) = (fun (x y : Nat) => x + 10 * y) := by
    funext x y; omega
  rw [e]
  exact h

/-- The decimal form of `n` leaves `n` in `pending`. -/
theorem calculate_loop_decimal (n : Nat) (hn : n ≤ 2147483647) (rest : List Nat)
    (stack : List Int) :
    calculate_loop (decimal n ++ rest) 0 stack = calculate_loop rest (n : Int) stack := by
  unfold decimal
  by_cases h0 : n = 0
  · subst h0
    have := calculate_loop_digits rest stack [0] 0 (by simp) (by simp)
    simpa using this
  · simp only [h0, if_false]
    have hd : ∀ d ∈ (Nat.digits 10 n).reverse, d < 10 := by
      intro d hd
      exact Nat.digits_lt_base (by norm_num) (List.mem_reverse.1 hd)
    have := calculate_loop_digits rest stack (Nat.digits 10 n).reverse 0 hd
      (by rw [foldl_digits_value]; exact hn)
    rw [foldl_digits_value] at this
    simpa using this

/-- The run of the loop of `calculate` on `<a> <b>`, a space and the rest of
the string: both numbers are on the stack, `b` on top. -/
theorem calculate_loop_operands (a b : Nat) (ha : a ≤ 2147483647) (hb : b ≤ 2147483647)
    (rest : List Nat) :
    calculate_loop (decimal a ++ [32] ++ decimal b ++ 32 :: rest) 0 []
      = calculate_loop rest 0 [(b : Int), (a : Int)] := by
  have e : decimal a ++ [32] ++ decimal b ++ 32 :: rest
      = decimal a ++ (32 :: (decimal b ++ 32 :: rest)) := by simp
  rw [e, calculate_loop_decimal a ha]
  simp only [calculate_loop]
  simp only [List.length_nil, Nat.ofNat_pos, if_true, OfNat.ofNat_ne_zero, if_false]
  rw [calculate_loop_decimal b hb]
  simp [calculate_loop]

/-- The function `calculate` on `<a> <b> <op>` once the operator has produced
the value `r` from the operands `a` (left) and `b` (right). -/
theorem calculate_binary (a b op : Nat) (ha : a ≤ 2147483647) (hb : b ≤ 2147483647) (r : Int)
    (hop : calculate_loop [op, 0] 0 [(b : Int), (a : Int)] = .ok (0, [r])) :
    calculate (rpn_string a b op) = .ok r := by
  have e : rpn_string a b op = decimal a ++ [32] ++ decimal b ++ 32 :: [op, 0] := by
    simp [rpn_string]
  simp only [calculate, e, calculate_loop_operands a b ha hb, hop]
  simp

/-- Claim C23: for natural numbers `a` and `b` that fit in `int`, `calculate`
on the string `<a> <b> <op>` returns, without a failed assertion or any
other fault, `a + b` for `+` when the sum fits, `a - b` for `-`, `a * b`
for `*` when the product fits, and for `/` with `b` not zero the truncated
quotient of `a` by `b`, which is the quotient of the natural numbers. -/
theorem calculate_two_operands (a b : Nat) (ha : a ≤ 2147483647) (hb : b ≤ 2147483647) :
    (a + b ≤ 2147483647 → calculate (rpn_string a b 43) = .ok ((a : Int) + (b : Int))) ∧
    calculate (rpn_string a b 45) = .ok ((a : Int) - (b : Int)) ∧
    (a * b ≤ 2147483647 → calculate (rpn_string a b 42) = .ok ((a : Int) * (b : Int))) ∧
    (b ≠ 0 → calculate (rpn_string a b 47) = .ok (Int.tdiv (a : Int) (b : Int)) ∧
      Int.tdiv (a : Int) (b : Int) = ((a / b : Nat) : Int)) := by
  refine ⟨?_, ?_, ?_, ?_⟩
  · intro h
    apply calculate_binary a b 43 ha hb
    have hc : checked_int ((a : Int) + (b : Int)) = .ok ((a : Int) + (b : Int)) :=
      checked_int_fits _ (by positivity) (by omega)
    simp [calculate_loop, CASE_OPERATOR, hc]
  · apply calculate_binary a b 45 ha hb
    have hc : checked_int ((a : Int) - (b : Int)) = .ok ((a : Int) - (b : Int)) := by
      have : int_fits ((a : Int) - (b : Int)) = true := by
        simp only [int_fits, Bool.and_eq_true, decide_eq_true_eq]
        omega
      simp [checked_int, this]
    simp [calculate_loop, CASE_OPERATOR, hc]
  · intro h
    apply calculate_binary a b 42 ha hb
    have hc : checked_int ((a : Int) * (b : Int)) = .ok ((a : Int) * (b : Int)) :=
      checked_int_fits _ (by positivity) (by exact_mod_cast h)
    simp [calculate_loop, CASE_OPERATOR, hc]
  · intro h
    have hq : Int.tdiv (a : Int) (b : Int) = ((a / b : Nat) : Int) := by
      rw [Int.tdiv_eq_ediv (by positivity) (by positivity)]
      exact (Int.natCast_div a b).symm
    refine ⟨?_, hq⟩
    apply calculate_binary a b 47 ha hb
    have hle : a / b ≤ a := Nat.div_le_self a b
    have hc : checked_int (Int.tdiv (a : Int) (b : Int)) = .ok (Int.tdiv (a : Int) (b : Int)) := by
      rw [hq]
      exact checked_int_fits _ (by positivity) (by omega)
    have hb0 : ¬ (b : Int) = 0 := by exact_mod_cast h
    simp [calculate_loop, CASE_OPERATOR, int_div, hb0, hc]

/-- Claim C23 at the strings of the four tests of the demo: `20 5 +` gives 25,
`20 5 -` gives 15, `20 5 *` gives 100 and `20 5 /` gives 4. -/
theorem calculate_two_operands_witness :
    rpn_string 20 5 43 = [50, 48, 32, 53, 32, 43, 0] ∧
    calculate (rpn_string 20 5 43) = .ok ((20 : Nat) + (5 : Nat)) ∧
    calculate [50, 48, 32, 53, 32, 43, 0] = .ok 25 ∧
    calculate [50, 48, 32, 53, 32, 45, 0] = .ok 15 ∧
    calculate [50, 48, 32, 53, 32, 42, 0] = .ok 100 ∧
    calculate [50, 48, 32, 53, 32, 47, 0] = .ok 4 :=
  ⟨by simp [rpn_string, decimal],
   (calculate_two_operands 20 5 (by decide) (by decide)).1 (by decide),
   by decide, by decide, by decide, by decide⟩

theorem len_cons_sub_one (b : Nat) (t : List Nat) :
    (((b :: t).length : Nat) : Int) - 1 = (t.length : Int) := by
  simp

/-- The loop of a line comment on the bytes `bs` of a slice: it stops before
the first newline, or at the end of the slice. -/
theorem skip_line_comment_spec (extra : List Nat) : ∀ (bs : List Nat),
    ∃ body r, bs = body ++ r ∧
      skip_line_comment (bs ++ extra) (bs.length : Int) = .ok ⟨(r.length : Int), r ++ extra⟩ ∧
      (∀ x ∈ body, x ≠ 10) ∧ (r = [] ∨ r.head? = some 10) := by
  intro bs
  induction bs with
  | nil =>
    refine ⟨[], [], rfl, ?_, by simp, Or.inl rfl⟩
    cases extra <;> simp [skip_line_comment]
  | cons b t ih =>
    have hpos : (((b :: t).length : Nat) : Int) > 0 := by simp
    by_cases hb : b = 10
    · subst hb
      refine ⟨[], 10 :: t, rfl, ?_, by simp, Or.inr rfl⟩
      simp only [List.cons_append, skip_line_comment, hpos, if_true]
      simp
    · obtain ⟨body, r, hbr, hs, h10, hr⟩ := ih
      refine ⟨b :: body, r, by rw [hbr]; rfl, ?_, ?_, hr⟩
      · have hne : (b != 10) = true := by simpa using hb
        simp only [List.cons_append, skip_line_comment, hpos, if_true, hne,
          len_cons_sub_one]
        exact hs
      · intro x hx
        rcases List.mem_cons.1 hx with rfl | hx
        · exact hb
        · exact h10 x hx

theorem skip_block_comment_cons (b : Nat) (rest : List Nat) (len : Int) :
    skip_block_comment (b :: rest) len =
      if len > 0 then
        if b == 42 && decide (len > 1) then
          match rest with
          | [] => .error .out_of_bounds
          | b1 :: _ =>
            if b1 == 47 then .ok ⟨len, b :: rest⟩
            else skip_block_comment rest (len - 1)
        else skip_block_comment rest (len - 1)
      else .ok ⟨len, b :: rest⟩ := by
  rfl

theorem skip_block_comment_close (rest : List Nat) (len : Int) (h : len > 1) :
    skip_block_comment (42 :: 47 :: rest) len = .ok ⟨len, 42 :: 47 :: rest⟩ := by
  have h0 : len > 0 := by omega
  rw [skip_block_comment_cons]
  simp [h0, h]

theorem skip_block_comment_step (b b1 : Nat) (rest : List Nat) (len : Int) (h0 : len > 0)
    (h : ¬ (b = 42 ∧ b1 = 47)) :
    skip_block_comment (b :: b1 :: rest) len = skip_block_comment (b1 :: rest) (len - 1) := by
  rw [skip_block_comment_cons]
  by_cases hb : b = 42
  · have hb1 : (b1 == 47) = false := by
      simp only [beq_eq_false_iff_ne]
      exact fun e => h ⟨hb, e⟩
    subst hb
    by_cases h1 : len > 1
    · simp [h0, h1, hb1]
    · simp [h0, h1]
  · have hb2 : (b == 42) = false := by simpa using hb
    simp [h0, hb2]

theorem skip_block_comment_last (b : Nat) (rest : List Nat) (len : Int) (h : len = 1) :
    skip_block_comment (b :: rest) len = skip_block_comment rest (len - 1) := by
  rw [skip_block_comment_cons]
  subst h
  simp

/-- The loop of a block comment on the bytes `bs` of a slice: it stops at the
first closer, or at the end of the slice. -/
theorem skip_block_comment_spec (extra : List Nat) : ∀ (bs : List Nat),
    ∃ body r, bs = body ++ r ∧
      skip_block_comment (bs ++ extra) (bs.length : Int) = .ok ⟨(r.length : Int), r ++ extra⟩ ∧
      has_closer body = false ∧ (r = [] ∨ ∃ r1, r = 42 :: 47 :: r1) := by
  intro bs
  induction bs with
  | nil =>
    refine ⟨[], [], rfl, ?_, rfl, Or.inl rfl⟩
    cases extra <;> simp [skip_block_comment]
  | cons b t ih =>
    have hpos : (((b :: t).length : Nat) : Int) > 0 := by simp
    obtain ⟨body, r, hbr, hs, hc, hr⟩ := ih
    by_cases hclose : b = 42 ∧ t.head? = some 47
    · obtain ⟨rfl, ht⟩ := hclose
      cases t with
      | nil => simp at ht
      | cons b1 t1 =>
        simp only [List.head?_cons, Option.some.injEq] at ht
        subst ht
        refine ⟨[], 42 :: 47 :: t1, rfl, ?_, rfl, Or.inr ⟨t1, rfl⟩⟩
        exact skip_block_comment_close _ _ (by simp)
    · have hrec : skip_block_comment ((b :: t) ++ extra) (((b :: t).length : Nat) : Int)
          = skip_block_comment (t ++ extra) (t.length : Int) := by
        cases t with
        | nil =>
          refine Eq.trans (skip_block_comment_last b _ _ (by simp)) ?_
          simp
        | cons b1 t1 =>
          simp only [List.head?_cons, Option.some.injEq] at hclose
          refine Eq.trans (skip_block_comment_step b b1 (t1 ++ extra) _ hpos hclose) ?_
          rw [len_cons_sub_one]
          rfl
      refine ⟨b :: body, r, by rw [hbr]; rfl, by rw [hrec]; exact hs, ?_, hr⟩
      simp only [has_closer, hc, Bool.or_false, Bool.and_eq_false_iff, beq_eq_false_iff_ne]
      by_cases hb : b = 42
      · right
        intro hh
        apply hclose
        refine ⟨hb, ?_⟩
        cases body with
        | nil => simp at hh
        | cons x body1 =>
          simp only [List.head?_cons, Option.some.injEq] at hh
          rw [hbr]
          simp [hh]
      · exact Or.inl hb

theorem eat_loop_succ (fuel : Nat) (data : List Nat) (len : Int) :
    eat_loop (fuel + 1) data len =
      if len > 0 then
        match data with
        | [] => .error .out_of_bounds
        | b0 :: rest =>
          if lr_is_whitespace b0 then eat_loop fuel rest (len - 1)
          else if decide (len > 1) && b0 == 47 then
            match rest with
            | [] => .error .out_of_bounds
            | b1 :: rest2 =>
              if b1 == 47 then
                match skip_line_comment rest2 (len - 2) with
                | .error e => .error e
                | .ok s => eat_loop fuel s.data s.len
              else if b1 == 42 then
                match skip_block_comment rest2 (len - 2) with
                | .error e => .error e
                | .ok s =>
                  if s.len > 2 then eat_loop fuel (s.data.drop 2) (s.len - 2)
                  else eat_loop fuel (s.data.drop s.len.toNat) 0
              else .ok ⟨len, b0 :: rest⟩
          else .ok ⟨len, b0 :: rest⟩
      else .ok ⟨len, data⟩ := by
  rfl

theorem eat_loop_zero_len (fuel : Nat) (data : List Nat) :
    eat_loop (fuel + 1) data 0 = .ok ⟨0, data⟩ := by
  rw [eat_loop_succ]
  simp

theorem len_cons_cons_sub_two (b0 b1 : Nat) (t : List Nat) :
    (((b0 :: b1 :: t).length : Nat) : Int) - 2 = (t.length : Int) := by
  simp only [List.length_cons, Nat.cast_add, Nat.cast_one]
  omega

/-- The loop of `lr_eat_whitespace_and_comments` on the bytes `bs` of a slice
followed in the buffer by `extra`: it returns the slice of a suffix `r` of
`bs`, what it skips is made of blanks and comments, and `r` is empty or
starts with neither a blank nor a comment. -/
theorem eat_loop_spec (extra : List Nat) : ∀ (fuel : Nat) (bs : List Nat),
    bs.length + 1 ≤ fuel →
    ∃ p r, bs = p ++ r ∧
      eat_loop fuel (bs ++ extra) (bs.length : Int) = .ok ⟨(r.length : Int), r ++ extra⟩ ∧
      skips bs r ∧ stopped r := by
  intro fuel
  induction fuel with
  | zero => intro bs h; omega
  | succ fuel ih =>
    intro bs hf
    cases bs with
    | nil =>
      refine ⟨[], [], rfl, ?_, skips.done [], trivial⟩
      exact eat_loop_zero_len fuel _
    | cons b0 t =>
      have hpos : (((b0 :: t).length : Nat) : Int) > 0 := by simp
      simp only [List.length_cons] at hf
      by_cases hw : lr_is_whitespace b0 = true
      · obtain ⟨p, r, hpr, he, hs, hst⟩ := ih t (by omega)
        refine ⟨b0 :: p, r, by rw [hpr]; rfl, ?_, skips.blank b0 t r hw hs, hst⟩
        rw [List.cons_append, eat_loop_succ]
        simp only [hpos, if_true, hw, len_cons_sub_one]
        exact he
      · have hw' : lr_is_whitespace b0 = false := by simpa using hw
        have hstop : ¬ (b0 = 47 ∧ (t.head? = some 47 ∨ t.head? = some 42)) →
            ∃ p r, b0 :: t = p ++ r ∧
              eat_loop (fuel + 1) ((b0 :: t) ++ extra) (((b0 :: t).length : Nat) : Int)
                = .ok ⟨(r.length : Int), r ++ extra⟩ ∧
              skips (b0 :: t) r ∧ stopped r := by
          intro hno
          refine ⟨[], b0 :: t, rfl, ?_, skips.done _, ⟨hw', hno⟩⟩
          rw [List.cons_append, eat_loop_succ]
          simp only [hpos, if_true, hw', Bool.false_eq_true, if_false]
          by_cases h47 : b0 = 47
          · subst h47
            cases t with
            | nil => simp
            | cons b1 t2 =>
              simp only [List.head?_cons, Option.some.injEq, true_and, not_or] at hno
              have h1 : (b1 == 47) = false := by simpa using hno.1
              have h2 : (b1 == 42) = false := by simpa using hno.2
              simp [h1, h2]
          · have : (b0 == 47) = false := by simpa using h47
            simp [this]
        by_cases hc : b0 = 47 ∧ (t.head? = some 47 ∨ t.head? = some 42)
        · obtain ⟨rfl, hh⟩ := hc
          cases t with
          | nil => simp at hh
          | cons b1 t2 =>
            simp only [List.head?_cons, Option.some.injEq] at hh
            have h1 : (((47 :: b1 :: t2 : List Nat).length : Nat) : Int) > 1 := by simp
            simp only [List.length_cons] at hf
            rcases hh with rfl | rfl
            · obtain ⟨body, r1, hbr, hsk, h10, hr1⟩ := skip_line_comment_spec extra t2
              have hlen : r1.length ≤ t2.length := by rw [hbr]; simp
              obtain ⟨p, r, hpr, he, hs, hst⟩ := ih r1 (by omega)
              refine ⟨47 :: 47 :: (body ++ p), r, by rw [hbr, hpr]; simp, ?_, ?_, hst⟩
              · rw [List.cons_append, List.cons_append, eat_loop_succ]
                simp only [hpos, if_true, hw', Bool.false_eq_true, if_false, h1, decide_True,
                  beq_self_eq_true, Bool.and_self, len_cons_cons_sub_two, hsk]
                exact he
              · rw [hbr]
                exact skips.line body r1 r h10 hr1 hs
            · obtain ⟨body, r1, hbr, hsk, hcl, hr1⟩ := skip_block_comment_spec extra t2
              have hlen : r1.length ≤ t2.length := by rw [hbr]; simp
              have h42 : ((42 : Nat) == 47) = false := by decide
              by_cases hlong : (r1.length : Int) > 2
              · rcases hr1 with rfl | ⟨r2, rfl⟩
                · simp at hlong
                · simp only [List.length_cons] at hlen
                  obtain ⟨p, r, hpr, he, hs, hst⟩ := ih r2 (by omega)
                  refine ⟨47 :: 42 :: (body ++ 42 :: 47 :: p), r, by rw [hbr, hpr]; simp,
                    ?_, ?_, hst⟩
                  · rw [List.cons_append, List.cons_append, eat_loop_succ]
                    simp only [hpos, if_true, hw', Bool.false_eq_true, if_false, h1,
                      decide_True, beq_self_eq_true, Bool.and_self, h42,
                      len_cons_cons_sub_two, hsk, hlong]
                    simp only [List.cons_append, List.drop_succ_cons, List.drop_zero,
                      len_cons_cons_sub_two]
                    exact he
                  · rw [hbr]
                    exact skips.block body r2 r hcl hs
              · obtain ⟨g, rfl⟩ : ∃ g, fuel = g + 1 := ⟨fuel - 1, by omega⟩
                refine ⟨47 :: 42 :: t2, [], by simp, ?_, ?_, trivial⟩
                · rw [List.cons_append, List.cons_append, eat_loop_succ]
                  simp only [hpos, if_true, hw', Bool.false_eq_true, if_false, h1,
                    decide_True, beq_self_eq_true, Bool.and_self, h42,
                    len_cons_cons_sub_two, hsk, hlong]
                  simp only [Int.toNat_ofNat, List.drop_left, eat_loop_zero_len]
                  rfl
                · rcases hr1 with rfl | ⟨r2, rfl⟩
                  · rw [hbr, List.append_nil]
                    exact skips.unterminated body hcl
                  · have hr2 : r2 = [] := by
                      simp only [List.length_cons, Nat.cast_add, Nat.cast_one] at hlong
                      apply List.eq_nil_of_length_eq_zero
                      omega
                    subst hr2
                    rw [hbr]
                    exact skips.block body [] [] hcl (skips.done [])
        · exact hstop hc

theorem has_closer_append (t : List Nat) : ∀ (body : List Nat),
    has_closer (body ++ 42 :: 47 :: t) = true := by
  intro body
  induction body with
  | nil => simp [has_closer]
  | cons a body ih =>
    have e : has_closer (a :: (body ++ 42 :: 47 :: t))
        = ((a == 42 && (body ++ 42 :: 47 :: t).head? == some 47) ||
            has_closer (body ++ 42 :: 47 :: t)) := rfl
    rw [List.cons_append, e, ih, Bool.or_true]

/-- A block comment without closer is skipped to the end of the text. -/
theorem skips_unterminated (t r : List Nat) (h : skips (47 :: 42 :: t) r)
    (hc : has_closer t = false) (hs : stopped r) : r = [] := by
  cases h with
  | done =>
    have hs2 : ¬ ((47 : Nat) = 47 ∧
        ((42 :: t).head? = some 47 ∨ (42 :: t).head? = some 42)) := hs.2
    exact absurd ⟨rfl, Or.inr rfl⟩ hs2
  | blank b t1 r1 hw _ => exact absurd hw (by decide)
  | block body t1 r1 _ _ =>
    rw [has_closer_append] at hc
    cases hc
  | unterminated _ _ => rfl

/-- On a text that is empty or starts with neither a blank nor a comment, the
loop of `lr_eat_whitespace_and_comments` stops at once. -/
theorem eat_loop_stopped (fuel : Nat) (r extra : List Nat) (hs : stopped r) :
    eat_loop (fuel + 1) (r ++ extra) (r.length : Int) = .ok ⟨(r.length : Int), r ++ extra⟩ := by
  cases r with
  | nil => exact eat_loop_zero_len fuel _
  | cons b0 t =>
    obtain ⟨hw, hno⟩ := hs
    have hpos : (((b0 :: t).length : Nat) : Int) > 0 := by simp
    rw [List.cons_append, eat_loop_succ]
    simp only [hpos, if_true, hw, Bool.false_eq_true, if_false]
    by_cases h47 : b0 = 47
    · subst h47
      cases t with
      | nil => simp
      | cons b1 t2 =>
        simp only [List.head?_cons, Option.some.injEq, true_and, not_or] at hno
        have h1 : (b1 == 47) = false := by simpa using hno.1
        have h2 : (b1 == 42) = false := by simpa using hno.2
        simp [h1, h2]
    · have : (b0 == 47) = false := by simpa using h47
      simp [this]

/-- Claim C24: on every slice inside its buffer, `lr_eat_whitespace_and_comments`
returns, without a fault, the slice `lr_slice_r s k` of a suffix of `s`; the
bytes skipped are blanks, line comments that run up to the next newline or
the end of the slice, and block comments that run through their first
closer or, without closer, to the end of the slice (`skips`); the bytes left
are none, or start with neither a blank nor a comment (`stopped`); the
function returns its result unchanged when applied to it; and a slice made
of a block comment without closer is consumed whole. -/
theorem eat_whitespace_and_comments_spec (s : lr_slice_t) (hv : s.valid) :
    ∃ k : Nat, (k : Int) ≤ s.len ∧
      lr_eat_whitespace_and_comments s = .ok (lr_slice_r s k) ∧
      skips s.bytes (lr_slice_r s k).bytes ∧ stopped (lr_slice_r s k).bytes ∧
      lr_eat_whitespace_and_comments (lr_slice_r s k) = .ok (lr_slice_r s k) ∧
      (∀ t, s.bytes = 47 :: 42 :: t → has_closer t = false → (lr_slice_r s k).len = 0) := by
  obtain ⟨len, data⟩ := s
  obtain ⟨h0, h1⟩ := hv
  simp only at h0 h1
  obtain ⟨n, rfl⟩ : ∃ n : Nat, len = (n : Int) := ⟨len.toNat, by omega⟩
  have hn : n ≤ data.length := by exact_mod_cast h1
  have hbl : (data.take n).length = n := by simp [hn]
  obtain ⟨p, r, hpr, he, hsk, hst⟩ := eat_loop_spec (data.drop n) (data.length + 1)
    (data.take n) (by omega)
  rw [List.take_append_drop, hbl] at he
  have hdata : data = p ++ (r ++ data.drop n) := by
    conv_lhs => rw [← List.take_append_drop n data, hpr]
    simp
  have hlen : n = p.length + r.length := by
    have := congrArg List.length hpr
    simp only [List.length_append] at this
    omega
  have hres : lr_slice_r ⟨(n : Int), data⟩ (p.length : Int)
      = ⟨(r.length : Int), r ++ data.drop n⟩ := by
    simp only [lr_slice_r, Int.toNat_ofNat, lr_slice_t.mk.injEq]
    constructor
    · omega
    · conv_lhs => rw [hdata]
      simp
  have hbytes : (lr_slice_t.mk (r.length : Int) (r ++ data.drop n)).bytes = r := by
    simp [lr_slice_t.bytes]
  have hsbytes : (lr_slice_t.mk (n : Int) data).bytes = data.take n := by
    simp [lr_slice_t.bytes]
  refine ⟨p.length, by simp only; omega, ?_, ?_, ?_, ?_, ?_⟩
  · rw [hres]
    exact he
  · rw [hres, hbytes, hsbytes]
    exact hsk
  · rw [hres, hbytes]
    exact hst
  · rw [hres]
    exact eat_loop_stopped _ r _ hst
  · intro t ht hc
    rw [hres]
    rw [hsbytes] at ht
    rw [ht] at hsk
    have := skips_unterminated t r hsk hc hst
    subst this
    rfl

/-- Claim C24 at the slice ` /*x*/ //y` followed by a newline and `a`: the ten
bytes before `a` are skipped, the newline with them. -/
theorem eat_whitespace_and_comments_spec_witness :
    lr_slice_t.valid ⟨12, [32, 47, 42, 120, 42, 47, 32, 47, 47, 121, 10, 97, 0]⟩ ∧
    lr_eat_whitespace_and_comments ⟨12, [32, 47, 42, 120, 42, 47, 32, 47, 47, 121, 10, 97, 0]⟩
      = .ok ⟨1, [97, 0]⟩ ∧
    lr_eat_whitespace_and_comments ⟨3, [47, 42, 120, 0]⟩ = .ok ⟨0, [0]⟩ ∧
    ∃ k : Nat, (k : Int) ≤ 12 ∧
      lr_eat_whitespace_and_comments ⟨12, [32, 47, 42, 120, 42, 47, 32, 47, 47, 121, 10, 97, 0]⟩
        = .ok (lr_slice_r ⟨12, [32, 47, 42, 120, 42, 47, 32, 47, 47, 121, 10, 97, 0]⟩ k) :=
  ⟨by decide, by rfl, by rfl,
   (eat_whitespace_and_comments_spec
      ⟨12, [32, 47, 42, 120, 42, 47, 32, 47, 47, 121, 10, 97, 0]⟩ (by decide)).imp
     (fun _ h => ⟨h.1, h.2.1⟩)⟩

/-- The bytes `match_string` compares are the bytes after the opening quote
without the last one. -/
theorem inner_bytes_eq (t : c_token_t) (hv : t.slice.valid) (h2 : 2 ≤ t.slice.len) :
    t.slice.bytes.drop 1 ≠ [] ∧ inner_bytes t = (t.slice.bytes.drop 1).dropLast := by
  obtain ⟨ty, len, data⟩ := t
  obtain ⟨h0, h1⟩ := hv
  simp only at h0 h1 h2
  obtain ⟨m, rfl⟩ : ∃ m : Nat, len = (m : Int) + 2 := ⟨(len - 2).toNat, by omega⟩
  have hm : m + 2 ≤ data.length := by exact_mod_cast h1
  have e1 : ((m : Int) + 2).toNat = m + 2 := by omega
  have e2 : ((m : Int) + 2 - 2).toNat = m := by omega
  have hb : (data.take (m + 2)).drop 1 = (data.drop 1).take (m + 1) := by
    rw [List.drop_take]
    rfl
  have hlen : ((data.drop 1).take (m + 1)).length = m + 1 := by
    simp only [List.length_take, List.length_drop]
    omega
  simp only [lr_slice_t.bytes, inner_bytes, e1, e2, hb]
  constructor
  · intro h
    rw [h] at hlen
    simp at hlen
  · rw [List.dropLast_eq_take, hlen, List.take_take]
    simp

/-- For a string token of a completed scan: when it ends with a closing quote,
`match_string` compares its quoted content; when it is cut by the end of
the buffer, its quoted content without the last byte. -/
theorem inner_bytes_iff (t : c_token_t) (hv : t.slice.valid) (h2 : 2 ≤ t.slice.len)
    (s : List Nat) :
    (closed_string t → (inner_bytes t = s ↔ quoted_content t = s)) ∧
    (¬ closed_string t → (inner_bytes t = s ↔ ∃ z, quoted_content t = s ++ [z])) := by
  obtain ⟨hne, hin⟩ := inner_bytes_eq t hv h2
  constructor
  · intro hc
    have : quoted_content t = (t.slice.bytes.drop 1).dropLast := by
      unfold quoted_content
      exact if_pos hc
    rw [hin, this]
  · intro hc
    have : quoted_content t = t.slice.bytes.drop 1 := by
      unfold quoted_content
      exact if_neg hc
    rw [hin, this]
    constructor
    · intro h
      refine ⟨(t.slice.bytes.drop 1).getLast hne, ?_⟩
      rw [← h]
      exact (List.dropLast_append_getLast hne).symm
    · rintro ⟨z, hz⟩
      rw [hz]
      simp

theorem include_matched_iff (ts : List c_token_t) (i : Nat) (hv : ∀ t ∈ ts, token_ok t) :
    ((∀ t, ts[i + 2]? = some t → closed_string t) →
      (include_matched ts i ↔ include_shape ts i)) ∧
    ((∀ t, ts[i + 2]? = some t → ¬ closed_string t) →
      (include_matched ts i ↔ include_shape_cut ts i)) := by
  by_cases hi : i + 3 ≤ ts.length
  swap
  · constructor <;> intro _ <;> constructor <;> intro h <;> exact absurd h.1 hi
  · have h2 : i + 2 < ts.length := by omega
    have hget : ts[i + 2]? = some ts[i + 2] := List.getElem?_eq_getElem h2
    have hok := hv _ (List.getElem_mem h2)
    constructor
    · intro hc
      have hcl := hc _ hget
      constructor
      · rintro ⟨a, b, c, d, e, f⟩
        refine ⟨a, b, c, d, e, ?_⟩
        have hty : ts[i + 2].type = LR_TOKEN_STRING := by
          simpa [kind_at, hget] using e
        have := (inner_bytes_iff _ hok.1 (hok.2 hty) s_labrat_h).1 hcl
        simp only [hget, Option.map_some', Option.some.injEq] at f ⊢
        exact this.1 f
      · rintro ⟨a, b, c, d, e, f⟩
        refine ⟨a, b, c, d, e, ?_⟩
        have hty : ts[i + 2].type = LR_TOKEN_STRING := by
          simpa [kind_at, hget] using e
        have := (inner_bytes_iff _ hok.1 (hok.2 hty) s_labrat_h).1 hcl
        simp only [hget, Option.map_some', Option.some.injEq] at f ⊢
        exact this.2 f
    · intro hc
      have hcl := hc _ hget
      constructor
      · rintro ⟨a, b, c, d, e, f⟩
        have hty : ts[i + 2].type = LR_TOKEN_STRING := by
          simpa [kind_at, hget] using e
        have := (inner_bytes_iff _ hok.1 (hok.2 hty) s_labrat_h).2 hcl
        simp only [hget, Option.map_some', Option.some.injEq] at f
        obtain ⟨z, hz⟩ := this.1 f
        exact ⟨a, b, c, d, e, z, by simp only [hget, Option.map_some', hz]⟩
      · rintro ⟨a, b, c, d, e, z, f⟩
        refine ⟨a, b, c, d, e, ?_⟩
        have hty : ts[i + 2].type = LR_TOKEN_STRING := by
          simpa [kind_at, hget] using e
        have := (inner_bytes_iff _ hok.1 (hok.2 hty) s_labrat_h).2 hcl
        simp only [hget, Option.map_some', Option.some.injEq] at f ⊢
        exact this.2 ⟨z, f⟩

/-- Claim C5: outside self-test mode, when `g` is the first position where
`match_labrat_include` holds (`g = ct` when there is none), the loop of `main`
on an array of tokens with slices inside their buffers that ends with
`LR_TOKEN_EOF` adds to the registry exactly the names at the positions from
`g` on where the test shape, respectively the benchmark shape, holds, by
increasing position; and on any array of tokens with no such position it
leaves the registry as it was. -/
theorem records_after_gate (ts : List c_token_t) (g : Nat) (tests benchmarks : List lr_slice_t)
    (hg : g ≤ ts.length)
    (hbefore : ∀ j, j < g → match_labrat_include false ts ts.length j = .ok false)
    (hat : g < ts.length → match_labrat_include false ts ts.length g = .ok true) :
    ((∀ t ∈ ts, t.slice.valid) → eof_terminated ts →
      scan_tokens false ts ts.length ts.length 0 false tests benchmarks
        = .ok (tests ++ tests_from ts g, benchmarks ++ benchmarks_from ts g)) ∧
    (g = ts.length →
      scan_tokens false ts ts.length ts.length 0 false tests benchmarks
        = .ok (tests, benchmarks)) := by
  have h := scan_tokens_gate false ts ts.length g ts.length 0 tests benchmarks (by omega)
    (by omega) (fun i _ hi => hbefore i hi) (fun h => hat (by omega))
  rw [Nat.zero_add] at h
  constructor
  · intro hv he
    rw [h, shape_records_eq ts hv he]
    rfl
  · intro e
    rw [h, e]
    simp [shape_records]

/-- Claim C5 at the file `TEST_CASE(foo) { }` without the include line (no
position matches, no record) and at the same body after the include line
(the gate opens at position 0 and the one record is `foo`). -/
theorem records_after_gate_witness :
    (∀ j, j < (tokens_of ungated_file).length →
      match_labrat_include false (tokens_of ungated_file) (tokens_of ungated_file).length j
        = .ok false) ∧
    scan_tokens false (tokens_of ungated_file) (tokens_of ungated_file).length
      (tokens_of ungated_file).length 0 false [] [] = .ok ([], []) ∧
    main_file false (some ungated_file) [] [] = .ok ([], []) ∧
    scan_tokens false (test_case_tokens s_foo) (test_case_tokens s_foo).length
      (test_case_tokens s_foo).length 0 false [] []
      = .ok ([] ++ tests_from (test_case_tokens s_foo) 0,
             [] ++ benchmarks_from (test_case_tokens s_foo) 0) ∧
    tests_from (test_case_tokens s_foo) 0 = [⟨3, s_foo⟩] ∧
    benchmarks_from (test_case_tokens s_foo) 0 = [] :=
  ⟨by decide,
   (records_after_gate (tokens_of ungated_file) (tokens_of ungated_file).length [] [] (le_refl _)
      (by decide) (fun h => absurd h (lt_irrefl _))).2 rfl,
   by rfl,
   (records_after_gate (test_case_tokens s_foo) 0 [] [] (by decide) (by decide) (by decide)).1
      (by decide) (by decide),
   by decide, by decide⟩

/-- Claim C6, counterexample: in the file `#include "labrat.hZ` the string
literal is cut by the end of the file, its quoted content is `labrat.hZ`,
and `match_labrat_include` returns true; in the file `#include "labrat.h`
the quoted content is `labrat.h` and it returns false. -/
theorem cut_include_line_matches :
    lr_lex_file ⟨19, cut_include_file_Z ++ [0]⟩ = .ok (tokens_of cut_include_file_Z) ∧
    (tokens_of cut_include_file_Z).map (fun t => t.type)
      = [LR_TOKEN_POUND, LR_TOKEN_IDENTIFIER, LR_TOKEN_STRING, LR_TOKEN_EOF] ∧
    text_at (tokens_of cut_include_file_Z) 2 = some (34 :: (s_labrat_h ++ [90])) ∧
    ((tokens_of cut_include_file_Z)[2]?).map quoted_content = some (s_labrat_h ++ [90]) ∧
    match_labrat_include false (tokens_of cut_include_file_Z)
      (tokens_of cut_include_file_Z).length 0 = .ok true ∧
    ¬ include_shape (tokens_of cut_include_file_Z) 0 ∧
    lr_lex_file ⟨18, cut_include_file ++ [0]⟩ = .ok (tokens_of cut_include_file) ∧
    (tokens_of cut_include_file).map (fun t => t.type)
      = [LR_TOKEN_POUND, LR_TOKEN_IDENTIFIER, LR_TOKEN_STRING, LR_TOKEN_EOF] ∧
    text_at (tokens_of cut_include_file) 2 = some (34 :: s_labrat_h) ∧
    ((tokens_of cut_include_file)[2]?).map quoted_content = some s_labrat_h ∧
    match_labrat_include false (tokens_of cut_include_file)
      (tokens_of cut_include_file).length 0 = .ok false ∧
    include_shape (tokens_of cut_include_file) 0 := by
  refine ⟨by rfl, by rfl, by rfl, by rfl, by rfl, by decide, by rfl, by rfl, by rfl, by rfl,
    by rfl, by decide⟩

/-- Claim C6, amended: outside self-test mode, on the tokens the scanner returns
for a file, `match_labrat_include` returns, and it returns true exactly when
a pound token, the identifier `include` and a string token stand at `i`,
`i + 1`, `i + 2` and the bytes of the string token strictly between its
first and its last byte are `labrat.h` (`include_matched`); when the string
token ends with its closing quote this is: its quoted content equals
`labrat.h` (`include_shape`); when the literal is cut by the end of the
buffer it is: its quoted content is `labrat.h` followed by one more byte. -/
theorem include_match_iff_equal (f : Option (List Nat)) (s : lr_slice_t) (ts : List c_token_t)
    (i : Nat) (hr : lr_read_file f = some s) (hl : lr_lex_file s = .ok ts) :
    ∃ b, match_labrat_include false ts ts.length i = .ok b ∧
      (b = true ↔ include_matched ts i) ∧
      ((∀ t, ts[i + 2]? = some t → closed_string t) → (b = true ↔ include_shape ts i)) ∧
      ((∀ t, ts[i + 2]? = some t → ¬ closed_string t) →
        (b = true ↔ include_shape_cut ts i)) := by
  have hok := (lr_lex_file_tokens f s ts hr hl).1
  obtain ⟨h1, h2⟩ := include_matched_iff ts i hok
  refine ⟨_, match_labrat_include_eq ts i hok, by simp, ?_, ?_⟩
  · intro hc
    rw [← h1 hc]
    simp
  · intro hc
    rw [← h2 hc]
    simp

/-- Claim C6, amended, at position 0 of the tokens of the include line followed
by `TEST_CASE(foo) { }`, where the string token is `"labrat.h"` with its
closing quote. -/
theorem include_match_iff_equal_witness :
    lr_read_file (some (test_case_file s_foo))
      = some ⟨38, test_case_file s_foo ++ [0]⟩ ∧
    lr_lex_file ⟨38, test_case_file s_foo ++ [0]⟩ = .ok (test_case_tokens s_foo) ∧
    (∀ t, (test_case_tokens s_foo)[0 + 2]? = some t → closed_string t) ∧
    include_shape (test_case_tokens s_foo) 0 ∧
    ∃ b, match_labrat_include false (test_case_tokens s_foo) (test_case_tokens s_foo).length 0
        = .ok b ∧ (b = true ↔ include_matched (test_case_tokens s_foo) 0) ∧
      ((∀ t, (test_case_tokens s_foo)[0 + 2]? = some t → closed_string t) →
        (b = true ↔ include_shape (test_case_tokens s_foo) 0)) ∧
      ((∀ t, (test_case_tokens s_foo)[0 + 2]? = some t → ¬ closed_string t) →
        (b = true ↔ include_shape_cut (test_case_tokens s_foo) 0)) :=
  ⟨by decide, by decide, by decide, by decide,
   include_match_iff_equal (some (test_case_file s_foo)) ⟨38, test_case_file s_foo ++ [0]⟩
     (test_case_tokens s_foo) 0 (by decide) (by decide)⟩

end Labrat
